import Mathlib

/-!
# GitGalleryApp sync core — shallow embedding and verification

This file embeds the sync core of the GitGalleryApp repository
(`src/services/sync/*`, `src/services/sync/jobQueue.ts`, the GitHub
client and the local store) as executable Lean definitions and proves
or refutes the frozen claims about it.

Conventions used throughout the embedding:
* JavaScript numbers that the code only ever uses as integers
  (millisecond timestamps, byte sizes, counts) are modelled as `Int`
  or `Nat`.
* JavaScript `Map`/plain-object dictionaries are modelled as
  association lists with JS `Map` semantics (`set` replaces in place,
  insertion order preserved); `Set` is a duplicate-free list.
* `async/await` code is sequential in the source (single JS thread),
  so it is embedded as explicit state passing; fallible operations
  return `Except`.
* Opaque git blob SHAs are modelled as natural numbers handed out by a
  counter; only equality of SHAs matters to the code.
-/

namespace GitGallery

/-! ## JS `Map` / plain-object dictionaries as association lists -/

/-- A JavaScript `Map` (or plain object used as a dictionary): an
association list in insertion order. `set` overwrites in place,
otherwise appends; `del` drops the key's binding. All maps in the
model are built from `empty` through `set`/`del`, so keys are unique
and this mirrors JS `Map` semantics, including iteration order. -/
abbrev JsMap (κ α : Type) : Type := List (κ × α)

namespace JsMap

variable {κ α : Type} [DecidableEq κ]

def empty : JsMap κ α := []

def get (m : JsMap κ α) (k : κ) : Option α :=
  match m with
  | [] => none
  | (k', v) :: rest => if k' = k then some v else get rest k

def set (m : JsMap κ α) (k : κ) (v : α) : JsMap κ α :=
  match m with
  | [] => [(k, v)]
  | (k', v') :: rest => if k' = k then (k', v) :: rest else (k', v') :: set rest k v

def del (m : JsMap κ α) (k : κ) : JsMap κ α :=
  m.filter (fun p => p.1 ≠ k)

def keys (m : JsMap κ α) : List κ := m.map Prod.fst

def values (m : JsMap κ α) : List α := m.map Prod.snd

end JsMap

/-- A JavaScript `Set<string>`-style set: duplicate-free list. -/
abbrev JsSet (α : Type) : Type := List α

namespace JsSet

variable {α : Type} [DecidableEq α]

def empty : JsSet α := ([] : List α)

def has (s : JsSet α) (a : α) : Bool := s.contains a

def add (s : JsSet α) (a : α) : JsSet α := if s.contains a then s else s ++ [a]

def del (s : JsSet α) (a : α) : JsSet α := s.filter (· ≠ a)

end JsSet

/-! ## Decimal rendering of JS numbers

Template interpolation `${n}` in the source renders an integral JS
number in plain decimal, possibly with a leading `-`. We model that
rendering here and prove the two facts the claims need: rendered
numbers contain no `'|'`, and the rendering is injective. -/

/-- Little-endian decimal digits of `n`, with explicit fuel so the
definition is structural (and therefore reduces inside `decide`). -/
def natDigitsAux (fuel n : Nat) : List Nat :=
  match fuel with
  | 0 => []
  | fuel + 1 => if n = 0 then [] else n % 10 :: natDigitsAux fuel (n / 10)

/-- Little-endian decimal digits of `n` (empty for `0`). -/
def natDigits (n : Nat) : List Nat := natDigitsAux (n + 1) n

/-- Characters of the decimal rendering of a natural number
(most-significant digit first); `0` renders as `"0"`. -/
def natToChars (n : Nat) : List Char :=
  if n = 0 then ['0'] else (natDigits n).reverse.map Nat.digitChar

/-- Decimal rendering of a natural number, as JS `${n}` produces. -/
def natToString (n : Nat) : String := ⟨natToChars n⟩

/-- Decimal rendering of an integral JS number, as `${n}` produces. -/
def intToString (i : Int) : String :=
  if i < 0 then "-" ++ natToString (-i).toNat else natToString i.toNat

/-- Recover the digit value from its character. -/
def digitVal (c : Char) : Nat := c.toNat - 48

/-- Value of a little-endian digit list. -/
def ofDigitsLE (l : List Nat) : Nat := l.foldr (fun d acc => d + 10 * acc) 0

/-! ## `makeFingerprint` (src/services/sync/utils.ts) -/

/-- The fields of a `MediaLibrary.Asset` that `makeFingerprint` reads.
`creationTime`/`modificationTime`/`fileSize` may be absent
(`undefined`), hence `Option`. -/
structure Asset where
  id : String
  filename : String
  creationTime : Option Int
  modificationTime : Option Int
  fileSize : Option Int
deriving DecidableEq, Repr

/-- `asset.filename || %asset-(asset.id)%`: the empty string is falsy
in JS, so it falls back to a name derived from the device asset id. -/
def effectiveFilename (a : Asset) : String :=
  if a.filename = "" then "asset-" ++ a.id else a.filename

/-- `asset.creationTime ?? asset.modificationTime ?? 0`. -/
def effectiveCreatedAt (a : Asset) : Int :=
  match a.creationTime with
  | some t => t
  | none => a.modificationTime.getD 0

/-- `(asset as any).fileSize ?? 0`. -/
def effectiveFileSize (a : Asset) : Int := a.fileSize.getD 0

/-- `makeFingerprint` from src/services/sync/utils.ts:
`%(filename)|(createdAt)|(fileSize)%`. -/
def makeFingerprint (a : Asset) : String :=
  effectiveFilename a ++ "|" ++ intToString (effectiveCreatedAt a) ++ "|" ++
    intToString (effectiveFileSize a)

/-- Claim C6, as stated: the fingerprint is deterministic in the raw
(filename, creation/modification timestamp, file size) triple, and any
difference in that triple yields a different fingerprint. This is the
statement the counterexample below refutes: the code substitutes
`asset-` ++ id when the filename is empty, so two assets whose raw
triples differ only in the filename can share a fingerprint. -/
def fingerprintClaimC6 : Prop :=
  ∀ a b : Asset,
    (a.filename = b.filename ∧ a.creationTime = b.creationTime ∧
      a.modificationTime = b.modificationTime ∧ a.fileSize = b.fileSize →
      makeFingerprint a = makeFingerprint b) ∧
    ((a.filename ≠ b.filename ∨ a.creationTime ≠ b.creationTime ∨
      a.modificationTime ≠ b.modificationTime ∨ a.fileSize ≠ b.fileSize) →
      makeFingerprint a ≠ makeFingerprint b)

/-! ## Metadata store data model (src/services/sync/metaIndex.ts, types.ts) -/

/-- `MetaEntry` from src/services/sync/types.ts. Optional/nullable
fields are `Option`; `repoPath` and `fingerprint` are plain strings as
in the TS type. -/
structure MetaEntry where
  fingerprint : String
  repoPath : String
  previewRepoPath : Option String
  createdAt : Option Int
  fileSize : Option Int
  contentHash : Option String
  uploadedAt : Option Int
  assetId : Option String
deriving DecidableEq, Repr

/-- `MetaEntry & (updatedAt : number)` — the denormalized shard entry. -/
structure MetaShardEntry extends MetaEntry where
  updatedAt : Int
deriving DecidableEq, Repr

/-- A shard document as stored remotely. -/
structure MetaShardDocument where
  version : Int
  bucket : String
  generatedAt : Int
  entries : JsMap String MetaShardEntry
deriving DecidableEq, Repr

/-- One manifest row. Blob SHAs are opaque identifiers, modelled as
naturals. -/
structure ManifestShardInfo where
  path : String
  count : Int
  updatedAt : Int
  sha : Option Nat
deriving DecidableEq, Repr

/-- The manifest document. -/
structure MetaManifest where
  version : Int
  updatedAt : Int
  shards : JsMap String ManifestShardInfo
deriving DecidableEq, Repr

def META_ROOT : String := "gitgallery/meta"

def META_MANIFEST_PATH : String := META_ROOT ++ "/manifest.json"

def LEGACY_META_SHARD_DIR : String := META_ROOT ++ "/shards"

def SHARD_FILENAME : String := "meta_dict.json"

def MANIFEST_VERSION : Int := 1

def SHARD_VERSION : Int := 1

def DEFAULT_PRELOAD_TARGET : Nat := 450

/-- `toOptionalString`: a string survives only if nonempty. -/
def toOptionalString (v : Option String) : Option String :=
  match v with
  | some s => if s = "" then none else some s
  | none => none

/-- Is `c` in `[0-9a-z-]` (the characters `sanitizeBucket` keeps)? -/
def isBucketChar (c : Char) : Bool :=
  (48 ≤ c.toNat && c.toNat ≤ 57) || (97 ≤ c.toNat && c.toNat ≤ 122) || c.toNat = 45

/-- JS `String#trim` whitespace, restricted to the ASCII whitespace
that can occur in this codebase's strings. -/
def isJsWhitespace (c : Char) : Bool :=
  c = ' ' || c = '\t' || c = '\n' || c = '\r'

/-- `String#trim` over the character list. -/
def trimChars (l : List Char) : List Char :=
  ((l.dropWhile isJsWhitespace).reverse.dropWhile isJsWhitespace).reverse

/-- ASCII `toLowerCase`, which covers every bucket the code builds. -/
def jsToLowerChar (c : Char) : Char :=
  if 65 ≤ c.toNat && c.toNat ≤ 90 then Char.ofNat (c.toNat + 32) else c

/-- `sanitizeBucket`: trim, lower-case, replace every character
outside `[0-9a-z-]` by `-`, and fall back to `unknown` when empty. -/
def sanitizeBucket (bucket : String) : String :=
  let safe := (trimChars bucket.data).map jsToLowerChar
  let cleaned := safe.map fun c => if isBucketChar c then c else '-'
  if cleaned = [] then "unknown" else ⟨cleaned⟩

/-- `bucketDateParts`: does the bucket match `^(%d{4})-(%d{2})-(%d{2})$`? -/
def bucketDateParts (bucket : String) : Option (String × String × String) :=
  match bucket.data with
  | [y1, y2, y3, y4, h1, m1, m2, h2, d1, d2] =>
    if y1.isDigit ∧ y2.isDigit ∧ y3.isDigit ∧ y4.isDigit ∧ h1 = '-' ∧
        m1.isDigit ∧ m2.isDigit ∧ h2 = '-' ∧ d1.isDigit ∧ d2.isDigit then
      some (⟨[y1, y2, y3, y4]⟩, ⟨[m1, m2]⟩, ⟨[d1, d2]⟩)
    else none
  | _ => none

/-- `getShardPath`: dated buckets go to the dated tree, `unknown` to
its own directory, anything else to the legacy flat layout. -/
def getShardPath (bucket : String) : String :=
  match bucketDateParts bucket with
  | some (y, m, d) =>
    META_ROOT ++ "/" ++ y ++ "/" ++ m ++ "/" ++ d ++ "/" ++ SHARD_FILENAME
  | none =>
    if bucket = "unknown" then META_ROOT ++ "/unknown/" ++ SHARD_FILENAME
    else LEGACY_META_SHARD_DIR ++ "/" ++ sanitizeBucket bucket ++ ".json"

/-- Civil date (year, month, day) from days since the Unix epoch
(Howard Hinnant's algorithm); models what `Date#getUTCFullYear` /
`getUTCMonth` / `getUTCDate` return for the instant. -/
def civilFromDays (days : Int) : Int × Nat × Nat :=
  let z := days + 719468
  let era := Int.fdiv z 146097
  let doe := (z - era * 146097).toNat
  let yoe := (doe - doe / 1460 + doe / 36524 - doe / 146096) / 365
  let y : Int := (yoe : Int) + era * 400
  let doy := doe - (365 * yoe + yoe / 4 - yoe / 100)
  let mp := (5 * doy + 2) / 153
  let d := doy - (153 * mp + 2) / 5 + 1
  let m := if mp < 10 then mp + 3 else mp - 9
  (if m ≤ 2 then y + 1 else y, m, d)

/-- Zero-pad a (≤ 2 digit) number to two characters, as
`String(x).padStart(2, '0')` does. -/
def pad2 (n : Nat) : String :=
  if n < 10 then "0" ++ natToString n else natToString n

/-- `bucketFromTimestamp`. Note `!value` is true for `0`, so epoch 0
maps to `unknown`, exactly as in the source. -/
def bucketFromTimestamp (value : Option Int) : String :=
  match value with
  | none => "unknown"
  | some v =>
    if v = 0 then "unknown"
    else
      let (y, m, d) := civilFromDays (Int.fdiv v 86400000)
      intToString y ++ "-" ++ pad2 m ++ "-" ++ pad2 d

/-- Accumulated value of a run of decimal digit characters. -/
def digitsToNat (l : List Char) : Nat :=
  l.foldl (fun acc c => acc * 10 + digitVal c) 0

/-- `Number(s)` restricted to the integer literal forms (the only
numeric strings this codebase feeds it: fingerprint timestamp
segments); `""` is `0`, anything non-integer is `NaN` (`none`). -/
def jsNumberOfString (s : String) : Option Int :=
  let t := trimChars s.data
  if t = [] then some 0
  else
    match t with
    | '-' :: rest =>
      if rest ≠ [] ∧ rest.all Char.isDigit then some (-(digitsToNat rest : Int)) else none
    | l => if l.all Char.isDigit then some ((digitsToNat l : Int)) else none

/-- `String#split` on a single-character separator (`'|'` here):
JS `"a|b".split('|') = ["a","b"]`, `"".split('|') = [""]`. -/
def splitOnChar (sep : Char) : List Char → List (List Char)
  | [] => [[]]
  | c :: rest =>
    match splitOnChar sep rest with
    | [] => [[]]
    | h :: t => if c = sep then [] :: h :: t else (c :: h) :: t

/-- `bucketFromFingerprint`: parse the second `|`-separated segment as
a number and bucket by it. -/
def bucketFromFingerprint (fingerprint : String) : String :=
  match splitOnChar '|' fingerprint.data with
  | _ :: p1 :: _ =>
    match jsNumberOfString ⟨p1⟩ with
    | some ts => bucketFromTimestamp (some ts)
    | none => "unknown"
  | _ => "unknown"

/-- Match `gitgallery/library/YYYY/MM/DD/` at the head of `l`. -/
def datedLibraryAt (l : List Char) : Option String :=
  if l.take 19 = "gitgallery/library/".data then
    match l.drop 19 with
    | y1 :: y2 :: y3 :: y4 :: s1 :: m1 :: m2 :: s2 :: d1 :: d2 :: s3 :: _ =>
      if y1.isDigit ∧ y2.isDigit ∧ y3.isDigit ∧ y4.isDigit ∧ s1 = '/' ∧
          m1.isDigit ∧ m2.isDigit ∧ s2 = '/' ∧ d1.isDigit ∧ d2.isDigit ∧ s3 = '/' then
        some (String.mk [y1, y2, y3, y4] ++ "-" ++ String.mk [m1, m2] ++ "-" ++
          String.mk [d1, d2])
      else none
    | _ => none
  else none

/-- Unanchored search for the dated-library pattern, as the source's
un-anchored regex `match` does. -/
def searchDatedLibrary : List Char → Option String
  | [] => none
  | c :: rest =>
    match datedLibraryAt (c :: rest) with
    | some b => some b
    | none => searchDatedLibrary rest

/-- `bucketFromRepoPath`. -/
def bucketFromRepoPath (path : Option String) : String :=
  match path with
  | none => "unknown"
  | some p =>
    match searchDatedLibrary p.data with
    | some b => b
    | none => "unknown"

/-- `resolveBucket`: first non-`unknown` candidate among createdAt,
uploadedAt, repo path, fingerprint; then sanitized. -/
def resolveBucket (entry : MetaEntry) : String :=
  let candidates := [bucketFromTimestamp entry.createdAt,
    bucketFromTimestamp entry.uploadedAt,
    bucketFromRepoPath (some entry.repoPath),
    bucketFromFingerprint entry.fingerprint]
  sanitizeBucket ((candidates.find? (· ≠ "unknown")).getD "unknown")

/-! ## Remote repository and GitHub content client (githubClient) -/

/-- What a repository file contains. The embedding stores parsed
values instead of base64 JSON text: `encode`/`decode` round-trip
losslessly on the well-typed documents the code writes, so a stored
document stands for its JSON serialization. -/
inductive RemoteContent where
  | blob (contentBase64 : String)
  | shardDoc (doc : MetaShardDocument)
  | manifestDoc (m : MetaManifest)
deriving DecidableEq, Repr

structure RemoteFile where
  sha : Nat
  content : RemoteContent
deriving DecidableEq, Repr

/-- The remote repository (one fixed repo/branch): path → file, plus a
counter producing fresh blob SHAs. -/
structure Remote where
  files : JsMap String RemoteFile
  nextSha : Nat
deriving DecidableEq, Repr

inductive GhError where
  | notFound
  | versionConflict
deriving DecidableEq, Repr

/-- `octokit.repos.createOrUpdateFileContents`: conditional write.
Updating an existing file requires the caller's `sha` to match the
current blob SHA; creating a new file requires no `sha`. Any mismatch
(including a `sha` for a missing file) rejects the write. -/
def octoCreateOrUpdate (r : Remote) (path : String) (content : RemoteContent)
    (sha? : Option Nat) : Except GhError (Nat × Remote) :=
  let written : Nat × Remote :=
    (r.nextSha, { files := r.files.set path ⟨r.nextSha, content⟩, nextSha := r.nextSha + 1 })
  match r.files.get path with
  | some f =>
    if sha? = some f.sha then Except.ok written
    else Except.error GhError.versionConflict
  | none =>
    match sha? with
    | none => Except.ok written
    | some _ => Except.error GhError.versionConflict

/-- `octokit.repos.deleteFile`: conditional delete. -/
def octoDeleteFile (r : Remote) (path : String) (sha : Nat) : Except GhError Remote :=
  match r.files.get path with
  | some f =>
    if f.sha = sha then Except.ok { r with files := r.files.del path }
    else Except.error GhError.versionConflict
  | none => Except.error GhError.notFound

/-- `fetchFileSha`: current SHA of a path, `none` when 404 (the 404 is
caught in the source and surfaced as `undefined`). -/
def fetchFileSha (r : Remote) (path : String) : Option Nat :=
  (r.files.get path).map RemoteFile.sha

/-- `putFile`: when the caller supplies no `sha`, the current remote
SHA is fetched and used for the conditional write. -/
def putFile (r : Remote) (path contentBase64 : String) (sha? : Option Nat) :
    Except GhError (Nat × Remote) :=
  let sha := match sha? with
    | some s => some s
    | none => fetchFileSha r path
  octoCreateOrUpdate r path (RemoteContent.blob contentBase64) sha

/-- `deleteFile` (githubClient): fetch the SHA first; a missing file
is a silent no-op. -/
def deleteFile (r : Remote) (path : String) : Except GhError Remote :=
  match fetchFileSha r path with
  | none => Except.ok r
  | some sha => octoDeleteFile r path sha

/-- `downloadFile`: the content at a path, `none` on 404. -/
def downloadFile (r : Remote) (path : String) : Option RemoteContent :=
  (r.files.get path).map RemoteFile.content

/-! ## Shard-file path recognition (bucketFromShardFilePath)

The source tests shard paths with regex *literals* such as

  `/^gitgallery\/meta\/(\d{4})\/(\d{2})\/(\d{2})\/${SHARD_FILENAME}$/`

Regex literals do not interpolate `${...}`; inside a regex, `$` is an
end-of-input assertion and `{SHARD_FILENAME}` is a literal character
run. So after the date segments the pattern asserts end-of-input and
then still demands the sixteen literal characters of
`{SHARD_FILENAME}` — no input can satisfy that, and the same holds for
the `unknown` and `misc` patterns. Only the legacy pattern
`/^gitgallery\/meta\/shards\/(.+)\.json$/` (which spells out
`.json`) can match. The matchers below embed exactly that semantics:
the stem of each broken pattern is parsed faithfully, and the
impossible `$`-then-literal tail is the explicit guard
`rest = [] && lit.isEmpty`, which is false because the literal is
nonempty. -/

/-- `$` followed by a literal: end-of-input must hold *and* the
literal must still match in the exhausted input, so this succeeds only
for an empty literal. -/
def matchEndThenLiteral (lit rest : List Char) : Bool :=
  rest.isEmpty && lit.isEmpty

/-- Parse `gitgallery/meta/YYYY/MM/DD/`, returning the `YYYY-MM-DD`
bucket and the unconsumed input. -/
def parseDatedShardStem (l : List Char) : Option (String × List Char) :=
  if l.take 16 = "gitgallery/meta/".data then
    match l.drop 16 with
    | y1 :: y2 :: y3 :: y4 :: s1 :: m1 :: m2 :: s2 :: d1 :: d2 :: s3 :: rest =>
      if y1.isDigit ∧ y2.isDigit ∧ y3.isDigit ∧ y4.isDigit ∧ s1 = '/' ∧
          m1.isDigit ∧ m2.isDigit ∧ s2 = '/' ∧ d1.isDigit ∧ d2.isDigit ∧ s3 = '/' then
        some (String.mk [y1, y2, y3, y4] ++ "-" ++ String.mk [m1, m2] ++ "-" ++
          String.mk [d1, d2], rest)
      else none
    | _ => none
  else none

/-- The dated-layout arm of `bucketFromShardFilePath` (never matches;
see the section comment). -/
def datedShardMatch (l : List Char) : Option String :=
  match parseDatedShardStem l with
  | some (ymd, rest) =>
    if matchEndThenLiteral "{SHARD_FILENAME}".data rest then some ymd else none
  | none => none

/-- The `unknown`-layout arm (never matches; see the section comment). -/
def unknownShardMatch (l : List Char) : Bool :=
  if l.take 24 = "gitgallery/meta/unknown/".data then
    matchEndThenLiteral "{SHARD_FILENAME}".data (l.drop 24)
  else false

/-- The legacy flat-layout arm — the one spelled-out pattern, which
does match: `gitgallery/meta/shards/` ++ (nonempty) ++ `.json`. -/
def legacyShardMatch (l : List Char) : Option String :=
  let pre := "gitgallery/meta/shards/".data
  let suf := ".json".data
  if l.take pre.length = pre then
    let rest := l.drop pre.length
    if rest.length > suf.length ∧ rest.drop (rest.length - suf.length) = suf then
      some (sanitizeBucket ⟨rest.take (rest.length - suf.length)⟩)
    else none
  else none

/-- The `misc`-layout arm (never matches: whatever `(.+)` captures,
the tail is again `$` followed by the `{SHARD_FILENAME}` literal). -/
def miscShardMatch (l : List Char) : Option String :=
  if l.take 21 = "gitgallery/meta/misc/".data then
    if matchEndThenLiteral "{SHARD_FILENAME}".data [] then
      some (sanitizeBucket ⟨l.drop 21⟩)
    else none
  else none

/-- `bucketFromShardFilePath`: backslashes normalized to slashes, then
the four patterns tried in source order. -/
def bucketFromShardFilePath (path : Option String) : Option String :=
  match path with
  | none => none
  | some p =>
    let normalized := p.data.map fun c => if c = '\\' then '/' else c
    match datedShardMatch normalized with
    | some b => some b
    | none =>
      if unknownShardMatch normalized then some "unknown"
      else
        match legacyShardMatch normalized with
        | some b => some b
        | none => miscShardMatch normalized

/-! ## Metadata store state and operations (metaIndex.ts) -/

/-- `toNumber(x, fallback)` on an optional integral value. -/
def toNumber (v : Option Int) (fallback : Int) : Int := v.getD fallback

/-- `makeEmptyShard`. -/
def makeEmptyShard (bucket : String) (now : Int) : MetaShardDocument :=
  { version := SHARD_VERSION, bucket := sanitizeBucket bucket, generatedAt := now,
    entries := JsMap.empty }

/-- The entry-normalization loop body of `normalizeShardDocument`:
adopt the value's fingerprint (else the key), drop entries without a
fingerprint or without a nonempty `repoPath`, and null out empty
optional strings. -/
def normalizeEntryStep (acc : JsMap String MetaShardEntry)
    (kv : String × MetaShardEntry) : JsMap String MetaShardEntry :=
  let fingerprint := if kv.2.fingerprint ≠ "" then kv.2.fingerprint else kv.1
  if fingerprint = "" then acc
  else
    match toOptionalString (some kv.2.repoPath) with
    | none => acc
    | some repoPath =>
      acc.set fingerprint
        { fingerprint := fingerprint
          repoPath := repoPath
          previewRepoPath := toOptionalString kv.2.previewRepoPath
          createdAt := kv.2.createdAt
          fileSize := kv.2.fileSize
          contentHash := toOptionalString kv.2.contentHash
          uploadedAt := kv.2.uploadedAt
          assetId := toOptionalString kv.2.assetId
          updatedAt := kv.2.updatedAt }

/-- `normalizeShardDocument`: adopt (sanitized) bucket, keep only
entries with a nonempty fingerprint (the value field, else the key)
and a nonempty `repoPath`; empty optional strings become `null`. -/
def normalizeShardDocument (bucket : String) (input : Option MetaShardDocument)
    (now : Int) : MetaShardDocument :=
  match input with
  | none =>
    { version := SHARD_VERSION, bucket := sanitizeBucket bucket, generatedAt := now,
      entries := JsMap.empty }
  | some inp =>
    let docBucket := if inp.bucket ≠ "" then sanitizeBucket inp.bucket
      else sanitizeBucket bucket
    let entries := inp.entries.foldl normalizeEntryStep JsMap.empty
    { version := inp.version, bucket := docBucket, generatedAt := inp.generatedAt,
      entries := entries }

/-- `normalizeManifest`. -/
def normalizeManifest (input : Option MetaManifest) (now : Int) : MetaManifest :=
  match input with
  | none => { version := MANIFEST_VERSION, updatedAt := now, shards := JsMap.empty }
  | some inp =>
    let shards := inp.shards.foldl (fun acc kv =>
      let bucket := sanitizeBucket kv.1
      let path := if kv.2.path ≠ "" then kv.2.path else getShardPath bucket
      acc.set bucket ⟨path, kv.2.count, kv.2.updatedAt, kv.2.sha⟩) JsMap.empty
    { version := inp.version, updatedAt := inp.updatedAt, shards := shards }

/-- In-memory per-shard cache row. -/
structure ShardCacheEntry where
  bucket : String
  path : String
  sha : Option Nat
  count : Int
  updatedAt : Int
  doc : Option MetaShardDocument
  loaded : Bool
deriving DecidableEq, Repr

/-- The module-level `cache`. -/
structure Cache where
  manifest : MetaManifest
  manifestSha : Option Nat
  shards : JsMap String ShardCacheEntry
  fetchedAt : Int
deriving DecidableEq, Repr

/-- The metaIndex module state: the optional `cache` plus the five
module-level reverse-index maps. -/
structure MetaIndexState where
  cache : Option Cache
  metaByFingerprint : JsMap String MetaShardEntry
  pathToFingerprint : JsMap String String
  fingerprintToBucket : JsMap String String
  bucketToFingerprints : JsMap String (JsSet String)
  fingerprintToPaths : JsMap String (JsSet String)
deriving DecidableEq, Repr

def MetaIndexState.cleared : MetaIndexState :=
  { cache := none, metaByFingerprint := JsMap.empty, pathToFingerprint := JsMap.empty,
    fingerprintToBucket := JsMap.empty, bucketToFingerprints := JsMap.empty,
    fingerprintToPaths := JsMap.empty }

/-- Remote-write trace events (the octokit calls a run performs). -/
inductive MetaEvent where
  | putShard (bucket path : String) (count : Int)
  | delShard (bucket path : String)
  | putManifest
  | delContent (path : String)
  | cacheInvalidated
deriving DecidableEq, Repr

/-- World state threaded through the metaIndex operations: the remote
repository, the module state, the (frozen) clock, and the remote-write
trace. `now` stays constant during a run: `Date.now()` may return the
same millisecond for every call; no compared behavior depends on the
clock advancing. -/
structure MetaWorld where
  remote : Remote
  idx : MetaIndexState
  now : Int
  events : List MetaEvent
deriving DecidableEq, Repr

/-- `registerPaths`: record each truthy (nonempty) path, and keep the
set iff nonempty. -/
def registerPaths (st : MetaIndexState) (fingerprint : String)
    (paths : List (Option String)) : MetaIndexState :=
  let actual := (paths.filterMap id).filter (· ≠ "")
  let st1 := actual.foldl
    (fun acc p => { acc with pathToFingerprint := acc.pathToFingerprint.set p fingerprint })
    st
  let set : JsSet String := actual.foldl (fun s p => s.add p) JsSet.empty
  if set.length > 0 then
    { st1 with fingerprintToPaths := st1.fingerprintToPaths.set fingerprint set }
  else
    { st1 with fingerprintToPaths := st1.fingerprintToPaths.del fingerprint }

/-- `removeEntryFromCache`. -/
def removeEntryFromCache (st : MetaIndexState) (fingerprint : String) : MetaIndexState :=
  let st1 := { st with metaByFingerprint := st.metaByFingerprint.del fingerprint }
  let st2 :=
    match st1.fingerprintToBucket.get fingerprint with
    | none => st1
    | some bucket =>
      match st1.bucketToFingerprints.get bucket with
      | none => st1
      | some set =>
        let set' := set.del fingerprint
        if set'.length = 0 then
          { st1 with bucketToFingerprints := st1.bucketToFingerprints.del bucket }
        else
          { st1 with bucketToFingerprints := st1.bucketToFingerprints.set bucket set' }
  let st3 := { st2 with fingerprintToBucket := st2.fingerprintToBucket.del fingerprint }
  match st3.fingerprintToPaths.get fingerprint with
  | none => st3
  | some paths =>
    let st4 := paths.foldl
      (fun acc p => { acc with pathToFingerprint := acc.pathToFingerprint.del p }) st3
    { st4 with fingerprintToPaths := st4.fingerprintToPaths.del fingerprint }

/-- `evictBucketEntries`: remove every fingerprint the bucket map
attributes to `bucket` (iterating a snapshot, as `Array.from` does). -/
def evictBucketEntries (st : MetaIndexState) (bucket : String) : MetaIndexState :=
  match st.bucketToFingerprints.get bucket with
  | none => st
  | some fingerprints => fingerprints.foldl removeEntryFromCache st

/-- One step of the `ingestShardDocument` entry loop (hoisted from the
loop body; `bucket` is the enclosing document's bucket). -/
def ingestStep (bucket : String) (acc : MetaIndexState × JsSet String)
    (kv : String × MetaShardEntry) : MetaIndexState × JsSet String :=
  if kv.2.fingerprint = "" then acc
  else
    let st' := { acc.1 with
      metaByFingerprint := acc.1.metaByFingerprint.set kv.2.fingerprint kv.2,
      fingerprintToBucket := acc.1.fingerprintToBucket.set kv.2.fingerprint bucket }
    let st'' := registerPaths st' kv.2.fingerprint
      [some kv.2.repoPath, kv.2.previewRepoPath]
    (st'', acc.2.add kv.2.fingerprint)

/-- `ingestShardDocument`: evict the bucket, then (re)register every
entry with a truthy fingerprint. -/
def ingestShardDocument (st : MetaIndexState) (doc : MetaShardDocument) : MetaIndexState :=
  let st0 := evictBucketEntries st doc.bucket
  let res := doc.entries.foldl (ingestStep doc.bucket) (st0, JsSet.empty)
  if res.2.length > 0 then
    { res.1 with bucketToFingerprints := res.1.bucketToFingerprints.set doc.bucket res.2 }
  else
    { res.1 with bucketToFingerprints := res.1.bucketToFingerprints.del doc.bucket }

/-- `fetchManifest`: 404 when the manifest path is absent; a file of
the wrong shape decodes to nothing and normalizes to an empty
manifest. -/
def fetchManifest (r : Remote) (now : Int) :
    Except GhError (MetaManifest × Option Nat) :=
  match r.files.get META_MANIFEST_PATH with
  | none => Except.error GhError.notFound
  | some f =>
    match f.content with
    | RemoteContent.manifestDoc m => Except.ok (normalizeManifest (some m) now, some f.sha)
    | _ => Except.ok (normalizeManifest none now, some f.sha)

/-- `writeManifest`: conditional PUT of the (re-versioned) manifest. -/
def writeManifest (w : MetaWorld) (manifest : MetaManifest) (sha : Option Nat) :
    Except GhError (Option Nat × MetaWorld) :=
  let payload : MetaManifest :=
    { version := MANIFEST_VERSION, updatedAt := manifest.updatedAt,
      shards := manifest.shards }
  match octoCreateOrUpdate w.remote META_MANIFEST_PATH
      (RemoteContent.manifestDoc payload) sha with
  | Except.error e => Except.error e
  | Except.ok (newSha, r') =>
    Except.ok (some newSha,
      { w with remote := r', events := w.events ++ [MetaEvent.putManifest] })

/-- `fetchShardDocument`: a missing path yields an empty shard and no
SHA; otherwise the stored document (or decode failure) normalized. -/
def fetchShardDocument (r : Remote) (bucket path : String) (now : Int) :
    MetaShardDocument × Option Nat :=
  match r.files.get path with
  | none => (makeEmptyShard bucket now, none)
  | some f =>
    match f.content with
    | RemoteContent.shardDoc d => (normalizeShardDocument bucket (some d) now, some f.sha)
    | _ => (normalizeShardDocument bucket none now, some f.sha)

/-- `persistShard`: stamp the document, conditional PUT at the shard's
path, refresh the cache row. -/
def persistShard (w : MetaWorld) (shard : ShardCacheEntry) :
    Except GhError (ShardCacheEntry × MetaWorld) :=
  let doc0 := shard.doc.getD (makeEmptyShard shard.bucket w.now)
  let doc : MetaShardDocument := ⟨SHARD_VERSION, sanitizeBucket shard.bucket, w.now, doc0.entries⟩
  match octoCreateOrUpdate w.remote shard.path (RemoteContent.shardDoc doc) shard.sha with
  | Except.error e => Except.error e
  | Except.ok (newSha, r') =>
    let shard' : ShardCacheEntry :=
      ⟨shard.bucket, shard.path, some newSha, (doc.entries.length : Int), doc.generatedAt, some doc, true⟩
    let ev := MetaEvent.putShard shard.bucket shard.path (doc.entries.length : Int)
    Except.ok (shard', { w with remote := r', events := w.events ++ [ev] })

/-- `deleteShardFile`: no-op without a known SHA, else conditional
delete. -/
def deleteShardFile (w : MetaWorld) (shard : ShardCacheEntry) :
    Except GhError MetaWorld :=
  match shard.sha with
  | none => Except.ok w
  | some sha =>
    match octoDeleteFile w.remote shard.path sha with
    | Except.error e => Except.error e
    | Except.ok r' =>
      let ev := MetaEvent.delShard shard.bucket shard.path
      Except.ok { w with remote := r', events := w.events ++ [ev] }

/-- `markManifestEntry`. -/
def markManifestEntry (c : Cache) (bucket : String) (shard : Option ShardCacheEntry) :
    Cache :=
  match shard with
  | none => { c with manifest := { c.manifest with shards := c.manifest.shards.del bucket } }
  | some sh =>
    let info : ManifestShardInfo := ⟨sh.path, sh.count, sh.updatedAt, sh.sha⟩
    let shards' := c.manifest.shards.set bucket info
    { c with manifest := { c.manifest with shards := shards' } }

/-- `getMetaEntryFromCache`: direct fingerprint hit, else resolve
through the path map. -/
def getMetaEntryFromCache (st : MetaIndexState) (fingerprintOrPath : String) :
    Option MetaEntry :=
  match st.metaByFingerprint.get fingerprintOrPath with
  | some e => some e.toMetaEntry
  | none =>
    match st.pathToFingerprint.get fingerprintOrPath with
    | none => none
    | some resolved => (st.metaByFingerprint.get resolved).map MetaShardEntry.toMetaEntry

/-- `listShardFiles`: the tree walk visits every file under the meta
root and keeps those whose path names a bucket. The model walks the
flat path map in its stored order, which stands for the source's
depth-first directory order (the order is observable only when two
files claim the same bucket). -/
def listShardFiles (r : Remote) : List (String × String) :=
  (r.files.filter fun kv => kv.1.data.take 16 = "gitgallery/meta/".data).filterMap
    fun kv => (bucketFromShardFilePath (some kv.1)).map fun b => (b, kv.1)

/-- `buildManifestFromExistingShards`: fetch every discovered shard,
build manifest rows and cache rows, and ingest the documents. -/
def buildManifestFromExistingShards (w : MetaWorld) :
    MetaManifest × JsMap String ShardCacheEntry × MetaIndexState :=
  let files := listShardFiles w.remote
  let init : MetaManifest × JsMap String ShardCacheEntry × MetaIndexState :=
    ({ version := MANIFEST_VERSION, updatedAt := w.now, shards := JsMap.empty },
      JsMap.empty, w.idx)
  files.foldl (fun acc file =>
    let (manifest, shards, idx) := acc
    let (doc, sha) := fetchShardDocument w.remote file.1 file.2 w.now
    let shard : ShardCacheEntry :=
      ⟨doc.bucket, file.2, sha, (doc.entries.length : Int), doc.generatedAt, some doc, true⟩
    let info : ManifestShardInfo := ⟨file.2, shard.count, shard.updatedAt, shard.sha⟩
    let manifest' := { manifest with shards := manifest.shards.set doc.bucket info }
    (manifest', shards.set doc.bucket shard, ingestShardDocument idx doc)) init

/-- `ensureBaseState`: reuse the cache when present; otherwise clear
the maps and either adopt the fetched manifest or (on 404) reconstruct
one from the shards on the remote and write it back. -/
def ensureBaseState (w : MetaWorld) : Except GhError (Cache × MetaWorld) :=
  match w.idx.cache with
  | some c => Except.ok (c, w)
  | none =>
    let w0 : MetaWorld := { w with idx := MetaIndexState.cleared }
    match fetchManifest w0.remote w0.now with
    | Except.error GhError.notFound =>
      let (manifest, shards, idx1) := buildManifestFromExistingShards w0
      let w1 : MetaWorld := { w0 with idx := idx1 }
      match writeManifest w1 manifest none with
      | Except.error e => Except.error e
      | Except.ok (manifestSha, w2) =>
        let c : Cache := ⟨manifest, manifestSha, shards, w2.now⟩
        Except.ok (c, { w2 with idx := { w2.idx with cache := some c } })
    | Except.error e => Except.error e
    | Except.ok (manifestRaw, manifestSha) =>
      let manifest := normalizeManifest (some manifestRaw) w0.now
      let shards := manifest.shards.foldl (fun acc kv =>
        acc.set kv.1 ⟨kv.1, kv.2.path, kv.2.sha, kv.2.count, kv.2.updatedAt, none, false⟩)
        JsMap.empty
      let c : Cache := ⟨manifest, manifestSha, shards, w0.now⟩
      Except.ok (c, { w0 with idx := { w0.idx with cache := some c } })

/-- `ensureShardLoaded`, on a present cache (`ensureBaseState` has
run): load the shard document if needed, ingest or evict, and mark the
manifest row. Returns the (written-back) shard row, the updated cache
and world. -/
def ensureShardLoadedC (c : Cache) (w : MetaWorld) (bucket : String) :
    ShardCacheEntry × Cache × MetaWorld :=
  let key := sanitizeBucket bucket
  let found := c.shards.get key
  let shard := found.getD ⟨key, getShardPath key, none, 0, 0, none, false⟩
  let c1 := if found.isSome then c else { c with shards := c.shards.set key shard }
  if shard.loaded ∧ shard.doc.isSome then (shard, c1, w)
  else
    let (doc, sha) := fetchShardDocument w.remote key shard.path w.now
    let shard' : ShardCacheEntry :=
      ⟨shard.bucket, shard.path, sha, (doc.entries.length : Int), doc.generatedAt, some doc, true⟩
    let idx' :=
      if (doc.entries.length : Int) > 0 then ingestShardDocument w.idx doc
      else evictBucketEntries w.idx key
    let c2 := markManifestEntry { c1 with shards := c1.shards.set key shard' } key
      (some shard')
    (shard', c2, { w with idx := idx' })

/-- `ensureShardLoaded` (public form: ensure the base state first,
commit the cache back). -/
def ensureShardLoaded (w : MetaWorld) (bucket : String) :
    Except GhError (ShardCacheEntry × MetaWorld) :=
  match ensureBaseState w with
  | Except.error e => Except.error e
  | Except.ok (c, w1) =>
    let (shard, c', w2) := ensureShardLoadedC c w1 bucket
    Except.ok (shard, { w2 with idx := { w2.idx with cache := some c' } })

/-- `invalidateMetaCache`. -/
def invalidateMetaCache (_ : MetaIndexState) : MetaIndexState := MetaIndexState.cleared

/-- The `grouped` map `removeMetaEntries` builds: fingerprints grouped
by their currently-known bucket (else the bucket parsed from the
fingerprint), keys sanitized, insertion order preserved. -/
def mkGroups (idx : MetaIndexState) (fingerprints : List String) :
    JsMap String (List String) :=
  fingerprints.foldl (fun g fp =>
    let bucket := (idx.fingerprintToBucket.get fp).getD (bucketFromFingerprint fp)
    let key := sanitizeBucket bucket
    g.set key ((g.get key).getD [] ++ [fp])) JsMap.empty

/-- The (sanitized) bucket key `mkGroups` files a fingerprint under:
the currently-known bucket if any, else the bucket parsed from the
fingerprint itself. -/
def bucketKeyOf (idx : MetaIndexState) (fp : String) : String :=
  sanitizeBucket ((idx.fingerprintToBucket.get fp).getD (bucketFromFingerprint fp))

/-- One step of the per-group fingerprint removal fold (hoisted from
the loop body of `removeMetaEntries`). -/
def removeStep (acc : MetaShardDocument × MetaIndexState × Bool) (fp : String) :
    MetaShardDocument × MetaIndexState × Bool :=
  if (acc.1.entries.get fp).isSome then
    ({ acc.1 with entries := acc.1.entries.del fp }, removeEntryFromCache acc.2.1 fp, true)
  else acc

/-- The body of one `removeMetaEntries` group iteration. -/
def removeGroup (c : Cache) (w : MetaWorld) (bucket : String) (list : List String)
    (manifestDirty : Bool) : Except GhError (Cache × MetaWorld × Bool) :=
  let (shard, c1, w1) := ensureShardLoadedC c w bucket
  match shard.doc with
  | none => Except.ok (c1, w1, manifestDirty)
  | some doc0 =>
    let folded := list.foldl removeStep (doc0, w1.idx, false)
    let doc1 := folded.1
    let idx1 := folded.2.1
    let changed := folded.2.2
    if ¬changed then Except.ok (c1, { w1 with idx := idx1 }, manifestDirty)
    else
      let doc2 := { doc1 with generatedAt := w1.now }
      let shard1 : ShardCacheEntry :=
        ⟨shard.bucket, shard.path, shard.sha, (doc2.entries.length : Int), w1.now, some doc2, shard.loaded⟩
      let w2 : MetaWorld := { w1 with idx := idx1 }
      if (doc2.entries.length : Int) = 0 then
        match deleteShardFile w2 shard1 with
        | Except.error e => Except.error e
        | Except.ok w3 =>
          let c2 := { c1 with shards := c1.shards.del bucket }
          let idx2 := evictBucketEntries w3.idx bucket
          let c3 := markManifestEntry c2 bucket none
          Except.ok (c3, { w3 with idx := idx2 }, true)
      else
        let c2 := { c1 with shards := c1.shards.set (sanitizeBucket bucket) shard1 }
        match persistShard w2 shard1 with
        | Except.error e => Except.error e
        | Except.ok (shard2, w3) =>
          let idx2 := ingestShardDocument w3.idx (shard2.doc.getD doc2)
          let c3 := markManifestEntry
            { c2 with shards := c2.shards.set (sanitizeBucket bucket) shard2 } bucket
            (some shard2)
          Except.ok (c3, { w3 with idx := idx2 }, true)

/-- The `removeMetaEntries` group loop. -/
def removeGroups (c : Cache) (w : MetaWorld) (groups : List (String × List String))
    (dirty : Bool) : Except GhError (Cache × MetaWorld × Bool) :=
  match groups with
  | [] => Except.ok (c, w, dirty)
  | (bucket, list) :: rest =>
    match removeGroup c w bucket list dirty with
    | Except.error e => Except.error e
    | Except.ok (c', w', dirty') => removeGroups c' w' rest dirty'

/-- `removeMetaEntries`. -/
def removeMetaEntries (w : MetaWorld) (fingerprints : List String) :
    Except GhError MetaWorld :=
  if fingerprints.isEmpty then Except.ok w
  else
    match ensureBaseState w with
    | Except.error e => Except.error e
    | Except.ok (c, w1) =>
      let grouped := mkGroups w1.idx fingerprints
      match removeGroups c w1 grouped false with
      | Except.error e => Except.error e
      | Except.ok (c1, w2, dirty) =>
        if dirty then
          let manifest' := { c1.manifest with updatedAt := w2.now }
          match writeManifest w2 manifest' c1.manifestSha with
          | Except.error e => Except.error e
          | Except.ok (sha, w3) =>
            let c2 := { c1 with manifest := manifest', manifestSha := sha }
            Except.ok { w3 with idx := { w3.idx with cache := some c2 } }
        else
          Except.ok { w2 with idx := { w2.idx with cache := some c1 } }

/-- `upsertMetaEntry`. -/
def upsertMetaEntry (w : MetaWorld) (entry : MetaEntry) : Except GhError MetaWorld :=
  match ensureBaseState w with
  | Except.error e => Except.error e
  | Except.ok (c, w1) =>
    let bucket := resolveBucket entry
    let (shard, c1, w2) := ensureShardLoadedC c w1 bucket
    let doc0 := shard.doc.getD (makeEmptyShard bucket w2.now)
    let newEntry : MetaShardEntry := ⟨entry, w2.now⟩
    let entries1 := doc0.entries.set entry.fingerprint newEntry
    let doc1 := { doc0 with entries := entries1, generatedAt := w2.now }
    let shard1 : ShardCacheEntry :=
      ⟨shard.bucket, shard.path, shard.sha, (doc1.entries.length : Int), w2.now, some doc1, shard.loaded⟩
    let c2 := { c1 with shards := c1.shards.set (sanitizeBucket bucket) shard1 }
    match persistShard w2 shard1 with
    | Except.error e => Except.error e
    | Except.ok (shard2, w3) =>
      let idx2 := ingestShardDocument w3.idx (shard2.doc.getD doc1)
      let c3 := markManifestEntry
        { c2 with shards := c2.shards.set (sanitizeBucket bucket) shard2 } bucket
        (some shard2)
      let manifest' := { c3.manifest with updatedAt := w3.now }
      match writeManifest { w3 with idx := idx2 } manifest' c3.manifestSha with
      | Except.error e => Except.error e
      | Except.ok (sha, w4) =>
        let c4 := { c3 with manifest := manifest', manifestSha := sha }
        Except.ok { w4 with idx := { w4.idx with cache := some c4 } }

/-- Bootstrap result projection: the manifest `ensureBaseState`
produces (used to state the C2 scenario). -/
def bootManifest (w : MetaWorld) : Option MetaManifest :=
  match ensureBaseState w with
  | Except.ok (c, _) => some c.manifest
  | Except.error _ => none

/-- A two-entry shard document (bucket 2024-06-05). -/
def c2ShardDoc : MetaShardDocument :=
  ⟨1, "2024-06-05", 500,
    [("a|100|1", ⟨⟨"a|100|1", "p1", none, none, none, none, none, none⟩, 500⟩),
     ("b|200|2", ⟨⟨"b|200|2", "p2", none, none, none, none, none, none⟩, 500⟩)]⟩

/-- Remote holding only that shard, stored in the dated layout the
code itself writes (`getShardPath "2024-06-05"`), with no manifest. -/
def c2DatedWorld : MetaWorld :=
  ⟨⟨[("gitgallery/meta/2024/06/05/meta_dict.json", ⟨0, RemoteContent.shardDoc c2ShardDoc⟩)], 1⟩,
    MetaIndexState.cleared, 777, []⟩

/-- The same shard stored in the legacy flat layout, no manifest. -/
def c2LegacyWorld : MetaWorld :=
  ⟨⟨[("gitgallery/meta/shards/2024-06-05.json", ⟨0, RemoteContent.shardDoc c2ShardDoc⟩)], 1⟩,
    MetaIndexState.cleared, 777, []⟩

/-- The characterization of what `normalizeEntryStep` keeps of a
normal-form entry under key `k` (used to prove the round-trip). -/
def normalizedResult (k : String) (v : MetaShardEntry) : Option MetaShardEntry :=
  if k = "" then none
  else if v.repoPath = "" then none
  else some ⟨⟨k, v.repoPath, toOptionalString v.previewRepoPath, v.createdAt, v.fileSize,
    toOptionalString v.contentHash, v.uploadedAt, toOptionalString v.assetId⟩, v.updatedAt⟩

/-- Well-formedness of a cache as the store itself maintains it: no
cached shard row points at the manifest path, and every loaded shard
document is in normal form (entry keys equal the entries' fingerprint
fields and are duplicate-free). -/
def CacheWF (c : Cache) : Prop :=
  (∀ kv ∈ c.shards, kv.2.path ≠ META_MANIFEST_PATH) ∧
  (∀ kv ∈ c.shards, ∀ d, kv.2.doc = some d →
    (∀ e ∈ d.entries, e.2.fingerprint = e.1) ∧ d.entries.keys.Nodup)

/-- Round-trip projection for claim C4: run `upsertMetaEntry`, then
freshly fetch the shard document of the entry's resolved bucket (at
the bucket's cached path) and look the fingerprint up. -/
def fetchUpsertedEntry (w : MetaWorld) (entry : MetaEntry) : Option MetaShardEntry :=
  match upsertMetaEntry w entry with
  | Except.error _ => none
  | Except.ok w' =>
    match w'.idx.cache with
    | none => none
    | some c =>
      match c.shards.get (resolveBucket entry) with
      | none => none
      | some sh =>
        (fetchShardDocument w'.remote (resolveBucket entry) sh.path w'.now).1.entries.get
          entry.fingerprint

/-- A minimal loaded world: empty remote, empty cached manifest. -/
def c4World : MetaWorld :=
  ⟨⟨[], 0⟩, { MetaIndexState.cleared with cache := some ⟨⟨1, 0, []⟩, none, [], 0⟩ }, 777, []⟩

/-- An entry whose `contentHash` is the *empty string* — a legal
`string | null` value that `normalizeShardDocument` silently turns
into `null`. -/
def c4BadEntry : MetaEntry :=
  ⟨"a|100|1", "p", none, none, none, some "", none, none⟩

/-- The same entry with a nonempty hash (for the witness). -/
def c4GoodEntry : MetaEntry :=
  ⟨"a|100|1", "p", none, none, none, some "h", none, none⟩

/-- The shard path the store would use for bucket `b` given cache `c`. -/
def pathOf (c : Cache) (b : String) : String :=
  match c.shards.get b with
  | some sh => sh.path
  | none => getShardPath b

/-- The shard document `ensureShardLoadedC` ends up holding for a
(sanitized) bucket key `k`: the already-loaded document, or the
fetched-and-normalized remote document. -/
def docUsed (c : Cache) (w : MetaWorld) (k : String) : MetaShardDocument :=
  let found := c.shards.get k
  let shard := found.getD ⟨k, getShardPath k, none, 0, 0, none, false⟩
  if shard.loaded ∧ shard.doc.isSome then shard.doc.getD (makeEmptyShard k w.now)
  else (fetchShardDocument w.remote k shard.path w.now).1

/-- A fingerprint is fully unresolvable in the module maps. -/
def IdxClean (idx : MetaIndexState) (fp : String) : Prop :=
  idx.metaByFingerprint.get fp = none ∧ idx.pathToFingerprint.get fp = none

/-- Every cached shard row is stored under its own bucket (the store
only ever writes `shards.set key` with a row whose `bucket` is
`key`). -/
def LabeledCache (c : Cache) : Prop :=
  ∀ k sh, c.shards.get k = some sh → sh.bucket = k

/-- Every value of `metaByFingerprint` sits under its own fingerprint
field (the store only ever writes `set e.fingerprint e`). -/
def MetaByKeyed (idx : MetaIndexState) : Prop :=
  ∀ k e, idx.metaByFingerprint.get k = some e → e.fingerprint = k

/-- Side conditions tying one removal group `(b, l)` to the shard
document the group will operate on, relative to the full fingerprint
list `fps` of the run. -/
structure GroupWF (c : Cache) (w : MetaWorld) (fps : List String)
    (b : String) (l : List String) : Prop where
  keySan : sanitizeBucket b = b
  sub : ∀ fp ∈ l, fp ∈ fps
  docKeys : ∀ fp ∈ fps, ((docUsed c w b).entries.get fp).isSome → fp ∈ l
  docPaths : ∀ e ∈ (docUsed c w b).entries, ∀ fp ∈ fps,
    e.2.repoPath ≠ fp ∧ e.2.previewRepoPath ≠ some fp

/-- The invariant of the `removeMetaEntries` group loop: cache
well-formedness, index/document consistency for the fingerprints still
pending, and disjointness of the remaining groups. -/
structure RemoveInv (fps : List String) (c : Cache) (w : MetaWorld)
    (groups : List (String × List String)) : Prop where
  wf : CacheWF c
  labeled : LabeledCache c
  keyed : MetaByKeyed w.idx
  keysNodup : (groups.map Prod.fst).Nodup
  gwf : ∀ g ∈ groups, GroupWF c w fps g.1 g.2
  listsDisj : ∀ g₁ ∈ groups, ∀ g₂ ∈ groups, ∀ fp ∈ g₁.2, fp ∈ g₂.2 → g₁ = g₂
  pathsDisj : ∀ g₁ ∈ groups, ∀ g₂ ∈ groups, g₁.1 ≠ g₂.1 →
    pathOf c g₁.1 ≠ pathOf c g₂.1
  pathsClean : ∀ fp ∈ fps, w.idx.pathToFingerprint.get fp = none
  pending : ∀ fp ∈ fps, w.idx.metaByFingerprint.get fp ≠ none →
    ∃ g ∈ groups, fp ∈ g.2 ∧ ((docUsed c w g.1).entries.get fp).isSome

/-- A loaded world whose cached manifest is empty and whose remote
holds nothing: removing any fingerprint then *creates* a count-0
manifest row for the fingerprint's bucket. -/
def c1World : MetaWorld :=
  ⟨⟨[], 0⟩, { MetaIndexState.cleared with cache := some ⟨⟨1, 0, []⟩, none, [], 0⟩ }, 555, []⟩

/-- The count recorded for bucket `1970-01-01` in the cached manifest
after removing the fingerprint `a|100|1` from `c1World`. -/
def c1CountAfter : Option Int :=
  match removeMetaEntries c1World ["a|100|1"] with
  | Except.ok w' =>
    match w'.idx.cache with
    | some c => (c.manifest.shards.get "1970-01-01").map (fun i => i.count)
    | none => none
  | Except.error _ => none

/-- The shard document of the C1 witness world: one entry under
fingerprint `a|100|1`. -/
def c1wDoc : MetaShardDocument :=
  ⟨1, "1970-01-01",  0,
    [("a|100|1", ⟨⟨"a|100|1", "media/x", none, some 100, some 1, none, none, none⟩, 0⟩)]⟩

/-- The C1 witness cache: one loaded shard row for `1970-01-01`
holding `c1wDoc`, and a matching manifest row. -/
def c1wCache : Cache :=
  ⟨⟨1, 0, [("1970-01-01", ⟨getShardPath "1970-01-01", 1, 0, some 5⟩)]⟩, some 9,
    [("1970-01-01", ⟨"1970-01-01", getShardPath "1970-01-01", some 5, 1, 0, some c1wDoc, true⟩)],
    0⟩

/-- The C1 witness world: the shard file and manifest exist remotely
at the cached SHAs, and the index maps know the entry. -/
def c1wWorld : MetaWorld :=
  ⟨⟨[(getShardPath "1970-01-01", ⟨5, RemoteContent.shardDoc c1wDoc⟩),
      (META_MANIFEST_PATH, ⟨9, RemoteContent.manifestDoc ⟨1, 0, []⟩⟩)], 10⟩,
    { cache := some c1wCache,
      metaByFingerprint :=
        [("a|100|1", ⟨⟨"a|100|1", "media/x", none, some 100, some 1, none, none, none⟩, 0⟩)],
      pathToFingerprint := [("media/x", "a|100|1")],
      fingerprintToBucket := [("a|100|1", "1970-01-01")],
      bucketToFingerprints := [("1970-01-01", ["a|100|1"])],
      fingerprintToPaths := [("a|100|1", ["media/x"])] },
    555, []⟩

/-! ## The download `JobQueue` (androidDownloads.ts)

`enqueue` chains `wrapped = current.then(() => job())` and stores
`current = wrapped.catch(() => {})`. A job therefore runs when the
previous `current` fulfills, `wrapped` settles the way the job's
promise settles, and the stored `current` fulfills either way. The
chain is linear, so the observable behavior is the event trace below;
`enqueueStep` embeds the `then`/`catch` logic: a rejected `current`
would *skip* the job (that is `then`'s semantics), and `promiseCatch`
is `.catch(() => {})`. -/

/-- Settled state of a JS promise. -/
inductive PromiseState where
  | fulfilled
  | rejected
deriving DecidableEq, Repr

/-- `.catch(() => {})`: a rejection is handled (the handler returns
`undefined`, fulfilling the result); a fulfillment passes through. -/
def promiseCatch : PromiseState → PromiseState
  | PromiseState.rejected => PromiseState.fulfilled
  | PromiseState.fulfilled => PromiseState.fulfilled

/-- Observable queue events: job `i`'s function is invoked; job `i`'s
promise settles (`true` = rejected). -/
inductive QEvent where
  | invoke (i : Nat)
  | settle (i : Nat) (rejected : Bool)
deriving DecidableEq, Repr

/-- One `enqueue`d job observed to completion: `current.then(() =>
job())` runs the job only if `current` is fulfilled (a rejected
`current` propagates without invoking), and the new `current` is the
`catch` of the job's settled promise. -/
def enqueueStep (rejects : Nat → Bool) (acc : PromiseState × List QEvent) (i : Nat) :
    PromiseState × List QEvent :=
  match acc.1 with
  | PromiseState.fulfilled =>
    let wrapped := if rejects i then PromiseState.rejected else PromiseState.fulfilled
    (promiseCatch wrapped, acc.2 ++ [QEvent.invoke i, QEvent.settle i (rejects i)])
  | PromiseState.rejected => (promiseCatch PromiseState.rejected, acc.2)

/-- The trace of enqueueing jobs `0, …, n-1` (job `i` rejects iff
`rejects i`), starting from `current = Promise.resolve()`. -/
def runQueue (rejects : Nat → Bool) (n : Nat) : List QEvent :=
  ((List.range n).foldl (enqueueStep rejects) (PromiseState.fulfilled, [])).2

/-- The fully serialized trace: each job is invoked and settles before
the next one starts. -/
def serialTrace (rejects : Nat → Bool) (n : Nat) : List QEvent :=
  (List.range n).flatMap (fun i => [QEvent.invoke i, QEvent.settle i (rejects i)])

/-! ## Local store, upload index, and `deleteRepoFile` (types.ts, localStore.ts) -/

/-- `AssetRecord` (localStore): the per-fingerprint SQLite row. -/
structure AssetRecord where
  fingerprint : String
  assetId : Option String
  repoPath : Option String
  uploaded : Bool
  fileSize : Option Int
  createdAt : Option Int
  contentHash : Option String
  previewHash : Option String
  lastSeenAt : Option Int
  lastUploadedAt : Option Int
  lastError : Option String
deriving DecidableEq, Repr

/-- `UploadIndexEntry` (types.ts). -/
structure UploadIndexEntry where
  uploaded : Bool
  repoPath : Option String
  fileSize : Option Int
  creationTime : Option Int
  fingerprint : String
  contentHash : Option String
  lastSeenAt : Option Int
  lastUploadedAt : Option Int
  lastError : Option String
deriving DecidableEq, Repr

/-- The module state around the sync service that `deleteRepoFile`
touches: the metaIndex world, the SQLite asset records (keyed by
fingerprint), the in-memory upload index cache, the (loaded) auto-sync
blocklist, and the number of cache-invalidation events emitted so
far. -/
structure SyncWorld where
  meta : MetaWorld
  localAssets : JsMap String AssetRecord
  uploadIndexCache : JsMap String UploadIndexEntry
  blocklist : JsSet String
  invalidations : Nat
deriving DecidableEq, Repr

/-- `removeFromIndexCache`: drop the fingerprint key, and the asset-id
key when truthy. -/
def removeFromIndexCache (m : JsMap String UploadIndexEntry) (fingerprint : String)
    (assetId : Option String) : JsMap String UploadIndexEntry :=
  let m1 := m.del fingerprint
  match assetId with
  | some aid => if aid ≠ "" then m1.del aid else m1
  | none => m1

/-- `blockAutoSyncFingerprint` on a loaded blocklist: a falsy (empty)
fingerprint is ignored, an already-present one left alone. -/
def blockAutoSyncFingerprint (s : JsSet String) (fingerprint : String) : JsSet String :=
  if fingerprint = "" then s else s.add fingerprint

/-- `deleteRepoFile(path)` (status reporting omitted — the claim says
nothing about `SyncStatus`; `ensureMetaLoaded(false)` is a no-op on a
loaded index). The remote delete is a silent no-op when the path has
no SHA; the meta removal, local-record deletion, index-cache eviction
and blocklisting run only when the path resolves through the cache
maps; a cache-invalidation event is always emitted on success. -/
def deleteRepoFile (s : SyncWorld) (path : String) : Except GhError SyncWorld :=
  match deleteFile s.meta.remote path with
  | Except.error e => Except.error e
  | Except.ok r' =>
    let s1 : SyncWorld := { s with meta := { s.meta with remote := r' } }
    match getMetaEntryFromCache s1.meta.idx path with
    | none => Except.ok { s1 with invalidations := s1.invalidations + 1 }
    | some cached =>
      match removeMetaEntries s1.meta [cached.fingerprint] with
      | Except.error e => Except.error e
      | Except.ok m' =>
        let existing := s1.localAssets.get cached.fingerprint
        let la := s1.localAssets.del cached.fingerprint
        let uic := removeFromIndexCache s1.uploadIndexCache cached.fingerprint
          (existing.bind AssetRecord.assetId)
        let bl := blockAutoSyncFingerprint s1.blocklist cached.fingerprint
        Except.ok ⟨m', la, uic, bl, s1.invalidations + 1⟩

/-- The C8 counterexample world: the remote media file exists (SHA 3)
and its meta entry sits in the loaded shard, but the path was never
registered in `pathToFingerprint`, so `getMetaEntryFromCache(path)`
misses. -/
def c8xWorld : SyncWorld :=
  ⟨⟨⟨[("media/x", ⟨3, RemoteContent.blob "xyz"⟩),
      (getShardPath "1970-01-01", ⟨5, RemoteContent.shardDoc c1wDoc⟩),
      (META_MANIFEST_PATH, ⟨9, RemoteContent.manifestDoc ⟨1, 0, []⟩⟩)], 10⟩,
    { cache := some c1wCache,
      metaByFingerprint :=
        [("a|100|1", ⟨⟨"a|100|1", "media/x", none, some 100, some 1, none, none, none⟩, 0⟩)],
      pathToFingerprint := [],
      fingerprintToBucket := [("a|100|1", "1970-01-01")],
      bucketToFingerprints := [("1970-01-01", ["a|100|1"])],
      fingerprintToPaths := [] },
    555, []⟩,
    [("a|100|1", ⟨"a|100|1", some "A1", some "media/x", true, some 1, some 100,
      none, none, none, none, none⟩)],
    [], [], 0⟩

/-- What the C8 counterexample run leaves behind: the remote file, the
blocklist membership, whether the local record survived, and the shard
entry. -/
def c8CounterResult :
    Option (Option RemoteFile × Bool × Bool × Option MetaShardEntry) :=
  match deleteRepoFile c8xWorld "media/x" with
  | Except.ok s' =>
    some (s'.meta.remote.files.get "media/x",
      s'.blocklist.has "a|100|1",
      (s'.localAssets.get "a|100|1").isSome,
      (match s'.meta.idx.cache with
        | some c =>
          (c.shards.get "1970-01-01").bind fun sh =>
            sh.doc.bind fun d => d.entries.get "a|100|1"
        | none => none))
  | Except.error _ => none

/-- The C8 witness shard document: two entries, `a|100|1` at `media/x`
and `b|200|1` at `media/y`, so removing the first leaves a nonempty
document and the shard is rewritten rather than deleted. -/
def c8w2Doc : MetaShardDocument :=
  ⟨1, "1970-01-01", 0,
    [("a|100|1", ⟨⟨"a|100|1", "media/x", none, some 100, some 1, none, none, none⟩, 0⟩),
     ("b|200|1", ⟨⟨"b|200|1", "media/y", none, some 200, some 2, none, none, none⟩, 0⟩)]⟩

/-- The C8 witness cache: one loaded shard row for `1970-01-01`
holding `c8w2Doc`, and a matching manifest row. -/
def c8w2Cache : Cache :=
  ⟨⟨1, 0, [("1970-01-01", ⟨getShardPath "1970-01-01", 2, 0, some 5⟩)]⟩, some 9,
    [("1970-01-01",
      ⟨"1970-01-01", getShardPath "1970-01-01", some 5, 2, 0, some c8w2Doc, true⟩)],
    0⟩

/-- The C8 witness meta world: the shard file and manifest exist
remotely at the cached SHAs, both entries are known to the index maps,
and `media/x` itself is absent remotely (so the remote delete is the
silent no-op). -/
def c8w2Meta : MetaWorld :=
  ⟨⟨[(getShardPath "1970-01-01", ⟨5, RemoteContent.shardDoc c8w2Doc⟩),
      (META_MANIFEST_PATH, ⟨9, RemoteContent.manifestDoc ⟨1, 0, []⟩⟩)], 10⟩,
    { cache := some c8w2Cache,
      metaByFingerprint :=
        [("a|100|1", ⟨⟨"a|100|1", "media/x", none, some 100, some 1, none, none, none⟩, 0⟩),
         ("b|200|1", ⟨⟨"b|200|1", "media/y", none, some 200, some 2, none, none, none⟩, 0⟩)],
      pathToFingerprint := [("media/x", "a|100|1"), ("media/y", "b|200|1")],
      fingerprintToBucket := [("a|100|1", "1970-01-01"), ("b|200|1", "1970-01-01")],
      bucketToFingerprints := [("1970-01-01", ["a|100|1", "b|200|1"])],
      fingerprintToPaths := [("a|100|1", ["media/x"]), ("b|200|1", ["media/y"])] },
    555, []⟩

/-- The C8 witness sync world around `c8w2Meta`, with a local record
for the entry being deleted. -/
def c8w2Sync : SyncWorld :=
  ⟨c8w2Meta,
    [("a|100|1", ⟨"a|100|1", some "A1", some "media/x", true, some 1, some 100,
      none, none, none, none, none⟩)],
    [], [], 0⟩

/-- The entry a sync world's cached shard document of bucket `b` holds
under `fp`, if any. -/
def shardDocEntry (s : SyncWorld) (b fp : String) : Option MetaShardEntry :=
  match s.meta.idx.cache with
  | some c => (c.shards.get b).bind fun sh => sh.doc.bind fun d => d.entries.get fp
  | none => none

/-! ## Cloud cache pruning (cloudCache.ts, `maybePruneRepo`) -/

def ENTRY_MAX_AGE_MS : Int := 30 * 24 * 60 * 60 * 1000

def ENTRY_MAX_AGE_WITH_ORIGINAL_MS : Int := 60 * 24 * 60 * 60 * 1000

def CACHE_SIZE_LIMIT_BYTES : Nat := 400 * 1024 * 1024

/-- `CACHE_SIZE_LIMIT_BYTES * 0.8` — exact in IEEE doubles. -/
def PRUNE_TARGET_BYTES : Nat := 335544320

/-- One cache entry as the prune loop records it in `stats`: its
directory, its total on-disk size, the `lastUsed` maximum, and whether
a cached original exists. -/
structure CacheStat where
  dir : String
  size : Nat
  lastUsed : Int
  hasOriginal : Bool
deriving DecidableEq, Repr

def sumSizes (l : List CacheStat) : Nat := (l.map CacheStat.size).sum

/-- The first pass's age test: `now - lastUsed > maxAge`, with the
longer threshold when a cached original exists. -/
def ageExpired (now : Int) (e : CacheStat) : Bool :=
  now - e.lastUsed >
    (if e.hasOriginal then ENTRY_MAX_AGE_WITH_ORIGINAL_MS else ENTRY_MAX_AGE_MS)

/-- Stable ascending insertion by `lastUsed`: the output of
`stats.sort((a, b) => a.lastUsed - b.lastUsed)` — JS sorts are stable,
and a stable sort's output is unique. -/
def insertByLastUsed (e : CacheStat) : List CacheStat → List CacheStat
  | [] => [e]
  | x :: xs =>
    if x.lastUsed < e.lastUsed then x :: insertByLastUsed e xs else e :: x :: xs

def sortByLastUsed (l : List CacheStat) : List CacheStat := l.foldr insertByLastUsed []

/-- The suffix of the sorted stats the size pass leaves alone: entries
are removed in sorted order while the running size still exceeds
`CACHE_SIZE_LIMIT_BYTES * 0.8` (the bound is checked before each
removal). -/
def sizePassSurvivors (current : Nat) : List CacheStat → List CacheStat
  | [] => []
  | st :: rest =>
    if current ≤ PRUNE_TARGET_BYTES then st :: rest
    else sizePassSurvivors (current - st.size) rest

/-- `maybePruneRepo` as the set of entries left on disk: the age pass
deletes expired entries (but neither `stats` nor `totalSize` forget
them); when the total is within the budget nothing else happens;
otherwise the size pass walks the stats sorted by `lastUsed` and
deletes until the running size is at most 80% of the budget. An entry
survives the run iff it survives both passes. -/
def pruneSurvivors (now : Int) (stats : List CacheStat) : List CacheStat :=
  let totalSize := sumSizes stats
  if totalSize ≤ CACHE_SIZE_LIMIT_BYTES then
    stats.filter (fun e => ¬ ageExpired now e)
  else
    (sizePassSurvivors totalSize (sortByLastUsed stats)).filter
      (fun e => ¬ ageExpired now e)

/-- C7 counterexample stats: two entries with the *same* `lastUsed`;
the first (in directory order) has a cached original, the second does
not. -/
def c7Stats : List CacheStat :=
  [⟨"entryA", 419430401, 100, true⟩, ⟨"entryB", 1000, 100, false⟩]

/-- C7 witness stats: over budget, originals and non-originals mixed. -/
def c7wStats : List CacheStat :=
  [⟨"a", 300000000, 10, false⟩, ⟨"b", 200000000, 5, true⟩]

/-! ## Upload batch preparation and loop (types.ts)

`prepareAssetsForUpload` and the `processUploadBatch` item loop.
Device I/O is abstracted into oracles: `prepOk` says whether
`prepareAsset` yields an entry (when it does, the entry's fingerprint
is `makeFingerprint asset` — that is what the source computes),
`uploadOk` whether `uploadPreparedAsset` succeeds, and `cancelledAt i`
is the value of `cancelToken.cancelled` read at the top of iteration
`i` of the upload loop. -/

/-- The slice of a `PreparedAsset` the batch bookkeeping reads. -/
structure PreparedUpload where
  asset : Asset
  fingerprint : String
deriving DecidableEq, Repr

/-- `prepareAsset` under the success oracle: the returned entry's
fingerprint is `makeFingerprint asset`. -/
def prepareAssetM (prepOk : Asset → Bool) (a : Asset) : Option PreparedUpload :=
  if prepOk a then some ⟨a, makeFingerprint a⟩ else none

/-- `uploadIndexCache.get(asset.id) || uploadIndexCache.get(fingerprint)`:
an entry object is always truthy, so the id-keyed entry shadows the
fingerprint-keyed one. -/
def resolveCached (cache : JsMap String UploadIndexEntry) (a : Asset) :
    Option UploadIndexEntry :=
  match cache.get a.id with
  | some e => some e
  | none => cache.get (makeFingerprint a)

/-- One main-loop iteration of `prepareAssetsForUpload`: accumulator is
(prepared, preparedFingerprints, retryable). -/
def prepMainStep (bl : JsSet String) (cache : JsMap String UploadIndexEntry)
    (prepOk : Asset → Bool) (allowBlocked : Bool)
    (acc : List PreparedUpload × JsSet String × List Asset) (a : Asset) :
    List PreparedUpload × JsSet String × List Asset :=
  if !allowBlocked && bl.has (makeFingerprint a) then acc
  else if !allowBlocked &&
      ((resolveCached cache a).map UploadIndexEntry.uploaded).getD false then acc
  else
    match prepareAssetM prepOk a with
    | none => (acc.1, acc.2.1, acc.2.2 ++ [a])
    | some e =>
      if acc.2.1.has e.fingerprint then acc
      else (acc.1 ++ [e], acc.2.1.add e.fingerprint, acc.2.2)

/-- One retry-loop iteration (`tryRegister` on the re-prepared entry;
a second failure is only logged). -/
def prepRetryStep (prepOk2 : Asset → Bool)
    (acc : List PreparedUpload × JsSet String) (a : Asset) :
    List PreparedUpload × JsSet String :=
  match prepareAssetM prepOk2 a with
  | none => acc
  | some e =>
    if acc.2.has e.fingerprint then acc
    else (acc.1 ++ [e], acc.2.add e.fingerprint)

/-- `prepareAssetsForUpload` (cancellation not exercised): the main
pass over `assets`, then the retry pass over the assets that failed to
prepare. -/
def prepareAssetsForUpload (bl : JsSet String) (cache : JsMap String UploadIndexEntry)
    (prepOk prepOk2 : Asset → Bool) (allowBlocked : Bool) (assets : List Asset) :
    List PreparedUpload :=
  let r := assets.foldl (prepMainStep bl cache prepOk allowBlocked)
    ([], JsSet.empty, [])
  (r.2.2.foldl (prepRetryStep prepOk2) (r.1, r.2.1)).1

/-- The observable counters of the `processUploadBatch` item loop:
`processed` (incremented *before* each upload attempt — this is the
value the cancel branch stores into `lastBatchUploaded`), the `failed`
count, the indices of the uploads actually attempted (each attempt is
what issues the remote writes), and whether the loop saw the cancel
flag. -/
structure BatchLoopResult where
  processed : Nat
  failed : Nat
  attempts : List Nat
  cancelled : Bool
deriving DecidableEq, Repr

/-- The `for (const item of prepared)` loop of `processUploadBatch`. -/
def runBatchLoop (cancelledAt uploadOk : Nat → Bool) :
    List Nat → BatchLoopResult → BatchLoopResult
  | [], acc => acc
  | i :: rest, acc =>
    if cancelledAt i then ⟨acc.processed, acc.failed, acc.attempts, true⟩
    else
      runBatchLoop cancelledAt uploadOk rest
        ⟨acc.processed + 1,
          (if uploadOk i then acc.failed else acc.failed + 1),
          acc.attempts ++ [i], acc.cancelled⟩

/-- The upload loop over `n` prepared items. -/
def processUploadLoop (cancelledAt uploadOk : Nat → Bool) (n : Nat) : BatchLoopResult :=
  runBatchLoop cancelledAt uploadOk (List.range n) ⟨0, 0, [], false⟩

/-- C5 counterexample data: the id-keyed index entry (not uploaded)
shadows the fingerprint-keyed one (uploaded). -/
def c5Asset : Asset := ⟨"A1", "name", some 5, none, some 3⟩

def c5FreshEntry : UploadIndexEntry :=
  ⟨false, none, some 3, some 5, "name|5|3", none, none, none, none⟩

def c5UploadedEntry : UploadIndexEntry :=
  ⟨true, some "media/name", some 3, some 5, "name|5|3", none, none, none, none⟩

def c5Cache : JsMap String UploadIndexEntry :=
  [("A1", c5FreshEntry), ("name|5|3", c5UploadedEntry)]

/-- C5 witness data: the asset resolves (by id) to an uploaded entry;
a second asset is fresh. -/
def c5wCache : JsMap String UploadIndexEntry :=
  [("A1", c5UploadedEntry)]

def c5wOther : Asset := ⟨"B2", "other", some 7, none, some 4⟩

/-! ## Theorems: library lemmas for the embedding -/

namespace JsMap

variable {κ α : Type} [DecidableEq κ]

theorem get_set_self (m : JsMap κ α) (k : κ) (v : α) : (m.set k v).get k = some v := by
  induction m with
  | nil => simp [set, get]
  | cons hd tl ih =>
    obtain ⟨k', v'⟩ := hd
    by_cases h : k' = k <;> simp [set, get, h, ih]

theorem get_set_ne (m : JsMap κ α) (k k' : κ) (v : α) (h : k ≠ k') :
    (m.set k v).get k' = m.get k' := by
  induction m with
  | nil => simp [set, get, h]
  | cons hd tl ih =>
    obtain ⟨k₀, v₀⟩ := hd
    by_cases h₀ : k₀ = k
    · subst h₀
      simp [set, get, h]
    · simp only [set, if_neg h₀]
      by_cases h₁ : k₀ = k' <;> simp [get, h₁, ih]

theorem get_del_self (m : JsMap κ α) (k : κ) : (m.del k).get k = none := by
  induction m with
  | nil => rfl
  | cons hd tl ih =>
    obtain ⟨k₀, v₀⟩ := hd
    unfold del at ih ⊢
    rw [List.filter_cons]
    by_cases h₀ : k₀ = k
    · rw [if_neg (by simp [h₀])]
      exact ih
    · rw [if_pos (by simp [h₀])]
      rw [get, if_neg h₀]
      exact ih

theorem get_del_ne (m : JsMap κ α) (k k' : κ) (h : k ≠ k') :
    (m.del k).get k' = m.get k' := by
  induction m with
  | nil => rfl
  | cons hd tl ih =>
    obtain ⟨k₀, v₀⟩ := hd
    unfold del at ih ⊢
    rw [List.filter_cons]
    by_cases h₀ : k₀ = k
    · rw [if_neg (by simp [h₀])]
      rw [get, if_neg (h₀ ▸ h)]
      exact ih
    · rw [if_pos (by simp [h₀])]
      rw [get, get]
      by_cases h₁ : k₀ = k'
      · rw [if_pos h₁, if_pos h₁]
      · rw [if_neg h₁, if_neg h₁]
        exact ih

theorem get_mem (m : JsMap κ α) (k : κ) (v : α) (h : m.get k = some v) : (k, v) ∈ m := by
  induction m with
  | nil => simp [get] at h
  | cons hd tl ih =>
    obtain ⟨k₀, v₀⟩ := hd
    rw [get] at h
    by_cases h₀ : k₀ = k
    · rw [if_pos h₀] at h
      obtain rfl : v₀ = v := by injection h
      exact h₀ ▸ List.mem_cons_self _ _
    · rw [if_neg h₀] at h
      exact List.mem_cons_of_mem _ (ih h)

theorem get_eq_none_of_forall (m : JsMap κ α) (k : κ) (h : ∀ p ∈ m, p.1 ≠ k) :
    m.get k = none := by
  induction m with
  | nil => rfl
  | cons hd tl ih =>
    obtain ⟨k₀, v₀⟩ := hd
    have hk₀ : k₀ ≠ k := h (k₀, v₀) (List.mem_cons_self _ _)
    simp only [get, if_neg hk₀]
    exact ih fun p hp => h p (List.mem_cons_of_mem _ hp)

theorem forall_ne_of_get_eq_none (m : JsMap κ α) (k : κ) (h : m.get k = none) :
    ∀ p ∈ m, p.1 ≠ k := by
  induction m with
  | nil => intro p hp; simp at hp
  | cons hd tl ih =>
    obtain ⟨k₀, v₀⟩ := hd
    rw [get] at h
    by_cases h₀ : k₀ = k
    · rw [if_pos h₀] at h; cases h
    · rw [if_neg h₀] at h
      intro p hp
      rcases List.mem_cons.mp hp with rfl | hp
      · exact h₀
      · exact ih h p hp

theorem mem_set_elim (m : JsMap κ α) (k : κ) (v : α) (p : κ × α) (h : p ∈ m.set k v) :
    p ∈ m ∨ p = (k, v) := by
  induction m with
  | nil => simp [set] at h; simp [h]
  | cons hd tl ih =>
    obtain ⟨k₀, v₀⟩ := hd
    rw [set] at h
    by_cases h₀ : k₀ = k
    · rw [if_pos h₀] at h
      rcases List.mem_cons.mp h with rfl | hp
      · right; rw [h₀]
      · left; exact List.mem_cons_of_mem _ hp
    · rw [if_neg h₀] at h
      rcases List.mem_cons.mp h with rfl | hp
      · left; exact List.mem_cons_self _ _
      · rcases ih hp with hm | he
        · left; exact List.mem_cons_of_mem _ hm
        · right; exact he

theorem keys_set_of_get_some (m : JsMap κ α) (k : κ) (v v₀ : α) (h : m.get k = some v₀) :
    (m.set k v).keys = m.keys := by
  induction m with
  | nil => simp [get] at h
  | cons hd tl ih =>
    obtain ⟨k₀, v'⟩ := hd
    rw [get] at h
    rw [set]
    by_cases h₀ : k₀ = k
    · rw [if_pos h₀]; rfl
    · rw [if_neg h₀] at h ⊢
      simp only [keys, List.map_cons]
      rw [show (set tl k v).map Prod.fst = keys (set tl k v) from rfl, ih h]
      rfl

theorem keys_set_of_get_none (m : JsMap κ α) (k : κ) (v : α) (h : m.get k = none) :
    (m.set k v).keys = m.keys ++ [k] := by
  induction m with
  | nil => rfl
  | cons hd tl ih =>
    obtain ⟨k₀, v'⟩ := hd
    rw [get] at h
    rw [set]
    by_cases h₀ : k₀ = k
    · rw [if_pos h₀] at h; cases h
    · rw [if_neg h₀] at h ⊢
      simp only [keys, List.map_cons]
      rw [show (set tl k v).map Prod.fst = keys (set tl k v) from rfl, ih h]
      rfl

theorem not_mem_keys_of_get_none (m : JsMap κ α) (k : κ) (h : m.get k = none) :
    k ∉ m.keys := by
  intro hmem
  simp only [keys, List.mem_map] at hmem
  obtain ⟨p, hp, hk⟩ := hmem
  exact forall_ne_of_get_eq_none m k h p hp hk

theorem get_eq_none_of_not_mem_keys (m : JsMap κ α) (k : κ) (h : k ∉ m.keys) :
    m.get k = none := by
  apply get_eq_none_of_forall
  intro p hp hk
  exact h (show k ∈ m.map Prod.fst from List.mem_map.mpr ⟨p, hp, hk⟩)

theorem keys_nodup_set (m : JsMap κ α) (k : κ) (v : α) (h : m.keys.Nodup) :
    (m.set k v).keys.Nodup := by
  cases hg : m.get k with
  | some v₀ => rw [keys_set_of_get_some m k v v₀ hg]; exact h
  | none =>
    rw [keys_set_of_get_none m k v hg]
    refine List.Nodup.append h (List.nodup_singleton k) ?_
    intro a ha hb
    rw [List.mem_singleton] at hb
    subst hb
    exact not_mem_keys_of_get_none m a hg ha

end JsMap

theorem digitVal_digitChar {d : Nat} (h : d < 10) : digitVal (Nat.digitChar d) = d := by
  interval_cases d <;> rfl

theorem digitChar_isDigit {d : Nat} (h : d < 10) : (Nat.digitChar d).isDigit = true := by
  interval_cases d <;> rfl

theorem natDigitsAux_fuel_irrel : ∀ (n f f' : Nat), n < f → n < f' →
    natDigitsAux f n = natDigitsAux f' n := by
  intro n
  induction n using Nat.strong_induction_on with
  | _ n ih =>
    intro f f' hf hf'
    match f, f' with
    | f + 1, f' + 1 =>
      by_cases h0 : n = 0
      · simp [natDigitsAux, h0]
      · have hlt : n / 10 < n := Nat.div_lt_self (Nat.pos_of_ne_zero h0) (by norm_num)
        have h1 : n / 10 < f := by omega
        have h2 : n / 10 < f' := by omega
        simp only [natDigitsAux, if_neg h0]
        rw [ih (n / 10) hlt f f' h1 h2]

theorem natDigits_succ {n : Nat} (h : n ≠ 0) :
    natDigits n = n % 10 :: natDigits (n / 10) := by
  have hlt : n / 10 < n := Nat.div_lt_self (Nat.pos_of_ne_zero h) (by norm_num)
  unfold natDigits
  rw [show natDigitsAux (n + 1) n =
    if n = 0 then [] else n % 10 :: natDigitsAux n (n / 10) from rfl]
  rw [if_neg h]
  congr 1
  exact natDigitsAux_fuel_irrel (n / 10) n (n / 10 + 1) hlt (Nat.lt_succ_self _)

theorem ofDigitsLE_natDigits (n : Nat) : ofDigitsLE (natDigits n) = n := by
  induction n using Nat.strong_induction_on with
  | _ n ih =>
    by_cases h0 : n = 0
    · simp [h0, natDigits, natDigitsAux, ofDigitsLE]
    · have hlt : n / 10 < n := Nat.div_lt_self (Nat.pos_of_ne_zero h0) (by norm_num)
      rw [natDigits_succ h0]
      simp only [ofDigitsLE, List.foldr_cons]
      rw [show List.foldr (fun d acc => d + 10 * acc) 0 (natDigits (n / 10)) =
        ofDigitsLE (natDigits (n / 10)) from rfl, ih (n / 10) hlt]
      omega

theorem natDigits_injective {n m : Nat} (h : natDigits n = natDigits m) : n = m := by
  have := congrArg ofDigitsLE h
  rwa [ofDigitsLE_natDigits, ofDigitsLE_natDigits] at this

theorem mem_natDigits_lt {n d : Nat} (h : d ∈ natDigits n) : d < 10 := by
  induction n using Nat.strong_induction_on with
  | _ n ih =>
    by_cases h0 : n = 0
    · rw [h0] at h
      simp [natDigits, natDigitsAux] at h
    · have hlt : n / 10 < n := Nat.div_lt_self (Nat.pos_of_ne_zero h0) (by norm_num)
      rw [natDigits_succ h0] at h
      rcases List.mem_cons.mp h with h | h
      · rw [h]; exact Nat.mod_lt _ (by norm_num)
      · exact ih (n / 10) hlt h

theorem natDigits_ne_nil {n : Nat} (h : n ≠ 0) : natDigits n ≠ [] := by
  rw [natDigits_succ h]
  exact List.cons_ne_nil _ _

theorem natToChars_ne_nil (n : Nat) : natToChars n ≠ [] := by
  unfold natToChars
  by_cases h : n = 0
  · simp [h]
  · rw [if_neg h]
    simp only [ne_eq, List.map_eq_nil_iff, List.reverse_eq_nil_iff]
    exact natDigits_ne_nil h

theorem mem_natToChars_isDigit {n : Nat} {c : Char} (h : c ∈ natToChars n) :
    c.isDigit = true := by
  unfold natToChars at h
  by_cases h0 : n = 0
  · rw [if_pos h0, List.mem_singleton] at h
    subst h; rfl
  · rw [if_neg h0] at h
    simp only [List.mem_map, List.mem_reverse] at h
    obtain ⟨d, hd, rfl⟩ := h
    exact digitChar_isDigit (mem_natDigits_lt hd)

theorem digitChars_map_injective : ∀ l₁ l₂ : List Nat, (∀ d ∈ l₁, d < 10) →
    (∀ d ∈ l₂, d < 10) → l₁.map Nat.digitChar = l₂.map Nat.digitChar → l₁ = l₂ := by
  intro l₁
  induction l₁ with
  | nil => intro l₂ _ _ h; cases l₂ <;> simp_all
  | cons a t ih =>
    intro l₂ h₁ h₂ hmap
    cases l₂ with
    | nil => simp at hmap
    | cons b t₂ =>
      simp only [List.map_cons, List.cons.injEq] at hmap
      have ha : a < 10 := h₁ a (List.mem_cons_self _ _)
      have hb : b < 10 := h₂ b (List.mem_cons_self _ _)
      have hab : a = b := by
        have := congrArg digitVal hmap.1
        rwa [digitVal_digitChar ha, digitVal_digitChar hb] at this
      have := ih t₂ (fun d hd => h₁ d (List.mem_cons_of_mem _ hd))
        (fun d hd => h₂ d (List.mem_cons_of_mem _ hd)) hmap.2
      rw [hab, this]

theorem digits_map_eq_zeroChar {m : Nat}
    (h : (natDigits m).reverse.map Nat.digitChar = ['0']) : m = 0 := by
  cases hrev : (natDigits m).reverse with
  | nil => simp [hrev] at h
  | cons d rest =>
    rw [hrev] at h
    simp only [List.map_cons, List.cons.injEq, List.map_eq_nil_iff] at h
    have hd10 : d < 10 := by
      have hmem : d ∈ natDigits m := List.mem_reverse.mp (by rw [hrev]; exact List.mem_cons_self _ _)
      exact mem_natDigits_lt hmem
    have hd0 : d = 0 := by
      have := congrArg digitVal h.1
      rwa [digitVal_digitChar hd10] at this
    have hdig : natDigits m = [0] := by
      have := congrArg List.reverse hrev
      simpa [h.2, hd0] using this
    have := congrArg ofDigitsLE hdig
    rw [ofDigitsLE_natDigits] at this
    simpa [ofDigitsLE] using this

theorem natToChars_injective {n m : Nat} (h : natToChars n = natToChars m) : n = m := by
  unfold natToChars at h
  by_cases h0 : n = 0 <;> by_cases h1 : m = 0
  · rw [h0, h1]
  · exfalso
    rw [if_pos h0, if_neg h1] at h
    exact h1 (digits_map_eq_zeroChar h.symm)
  · exfalso
    rw [if_pos h1, if_neg h0] at h
    exact h0 (digits_map_eq_zeroChar h)
  · rw [if_neg h0, if_neg h1] at h
    have hn : ∀ d ∈ (natDigits n).reverse, d < 10 := fun d hd =>
      mem_natDigits_lt (List.mem_reverse.mp hd)
    have hm : ∀ d ∈ (natDigits m).reverse, d < 10 := fun d hd =>
      mem_natDigits_lt (List.mem_reverse.mp hd)
    have := digitChars_map_injective _ _ hn hm h
    have := congrArg List.reverse this
    simp only [List.reverse_reverse] at this
    exact natDigits_injective this

theorem intToString_data_neg {i : Int} (h : i < 0) :
    (intToString i).data = '-' :: natToChars (-i).toNat := by
  unfold intToString
  rw [if_pos h, String.data_append]
  rfl

theorem intToString_data_nonneg {i : Int} (h : ¬i < 0) :
    (intToString i).data = natToChars i.toNat := by
  unfold intToString
  rw [if_neg h]
  rfl

theorem mem_intToString_chars {i : Int} {c : Char} (h : c ∈ (intToString i).data) :
    c.isDigit = true ∨ c = '-' := by
  by_cases hneg : i < 0
  · rw [intToString_data_neg hneg] at h
    rcases List.mem_cons.mp h with h | h
    · exact Or.inr h
    · exact Or.inl (mem_natToChars_isDigit h)
  · rw [intToString_data_nonneg hneg] at h
    exact Or.inl (mem_natToChars_isDigit h)

theorem pipe_not_mem_intToString (i : Int) : '|' ∉ (intToString i).data := by
  intro h
  rcases mem_intToString_chars h with h | h <;> simp at h

theorem natToString_injective {n m : Nat} (h : natToString n = natToString m) : n = m :=
  natToChars_injective (congrArg String.data h)

theorem intToString_injective {i j : Int} (h : intToString i = intToString j) : i = j := by
  have hd := congrArg String.data h
  by_cases hi : i < 0 <;> by_cases hj : j < 0
  · rw [intToString_data_neg hi, intToString_data_neg hj] at hd
    have := natToChars_injective (List.tail_eq_of_cons_eq hd)
    omega
  · exfalso
    rw [intToString_data_neg hi, intToString_data_nonneg hj] at hd
    have : '-' ∈ natToChars j.toNat := by rw [← hd]; exact List.mem_cons_self _ _
    have := mem_natToChars_isDigit this
    simp at this
  · exfalso
    rw [intToString_data_nonneg hi, intToString_data_neg hj] at hd
    have : '-' ∈ natToChars i.toNat := by rw [hd]; exact List.mem_cons_self _ _
    have := mem_natToChars_isDigit this
    simp at this
  · rw [intToString_data_nonneg hi, intToString_data_nonneg hj] at hd
    have := natToChars_injective hd
    omega

/-! ## Splitting a character list at the last occurrence of a separator -/

theorem append_eq_of_first_occ {p : Char} : ∀ (b d a c : List Char), p ∉ b → p ∉ d →
    b ++ p :: a = d ++ p :: c → b = d ∧ a = c := by
  intro b
  induction b with
  | nil =>
    intro d a c _ hd h
    cases d with
    | nil => simpa using h
    | cons x d' =>
      exfalso
      simp only [List.nil_append, List.cons_append, List.cons.injEq] at h
      exact hd (h.1 ▸ List.mem_cons_self _ _)
  | cons y b' ih =>
    intro d a c hb hd h
    cases d with
    | nil =>
      exfalso
      simp only [List.cons_append, List.nil_append, List.cons.injEq] at h
      exact hb (h.1 ▸ List.mem_cons_self _ _)
    | cons x d' =>
      simp only [List.cons_append, List.cons.injEq] at h
      obtain ⟨rfl, h2⟩ := h
      have hb' : p ∉ b' := fun hh => hb (List.mem_cons_of_mem _ hh)
      have hd' : p ∉ d' := fun hh => hd (List.mem_cons_of_mem _ hh)
      obtain ⟨h3, h4⟩ := ih d' a c hb' hd' h2
      exact ⟨by rw [h3], h4⟩

theorem append_eq_of_last_occ {p : Char} (a c b d : List Char) (hb : p ∉ b) (hd : p ∉ d)
    (h : a ++ p :: b = c ++ p :: d) : a = c ∧ b = d := by
  have hr := congrArg List.reverse h
  simp only [List.reverse_append, List.reverse_cons, List.append_assoc,
    List.singleton_append] at hr
  have hb' : p ∉ b.reverse := fun hh => hb (List.mem_reverse.mp hh)
  have hd' : p ∉ d.reverse := fun hh => hd (List.mem_reverse.mp hh)
  obtain ⟨h1, h2⟩ := append_eq_of_first_occ b.reverse d.reverse a.reverse c.reverse hb' hd' hr
  constructor
  · have := congrArg List.reverse h2
    simpa using this
  · have := congrArg List.reverse h1
    simpa using this

/-! ## Lemmas about `sanitizeBucket` and shard paths -/

theorem toOptionalString_eq_self {o : Option String} (h : o ≠ some "") :
    toOptionalString o = o := by
  cases o with
  | none => rfl
  | some s =>
    have hs : s ≠ "" := fun hh => h (by rw [hh])
    simp [toOptionalString, hs]

theorem isJsWhitespace_toNat {c : Char} (h : isJsWhitespace c = true) :
    c.toNat = 32 ∨ c.toNat = 9 ∨ c.toNat = 10 ∨ c.toNat = 13 := by
  simp only [isJsWhitespace, Bool.or_eq_true, decide_eq_true_eq] at h
  rcases h with ((h | h) | h) | h <;> subst h <;> decide

theorem bucketChar_cases {c : Char} (h : isBucketChar c = true) :
    (48 ≤ c.toNat ∧ c.toNat ≤ 57) ∨ (97 ≤ c.toNat ∧ c.toNat ≤ 122) ∨ c.toNat = 45 := by
  have h' : ((48 ≤ c.toNat ∧ c.toNat ≤ 57) ∨ (97 ≤ c.toNat ∧ c.toNat ≤ 122)) ∨
      c.toNat = 45 := by
    simpa [isBucketChar, Bool.or_eq_true, Bool.and_eq_true, decide_eq_true_eq] using h
  tauto

theorem bucketChar_not_ws {c : Char} (h : isBucketChar c = true) :
    isJsWhitespace c = false := by
  cases hws : isJsWhitespace c with
  | false => rfl
  | true =>
    exfalso
    rcases bucketChar_cases h with h' | h' | h' <;>
      rcases isJsWhitespace_toNat hws with hw | hw | hw | hw <;> omega

theorem bucketChar_toLower {c : Char} (h : isBucketChar c = true) :
    jsToLowerChar c = c := by
  unfold jsToLowerChar
  rw [if_neg]
  intro hcond
  simp only [Bool.and_eq_true, decide_eq_true_eq] at hcond
  rcases bucketChar_cases h with h' | h' | h' <;> omega

theorem map_eq_self_of_forall {α : Type} {l : List α} {f : α → α} (h : ∀ a ∈ l, f a = a) :
    l.map f = l := by
  induction l with
  | nil => rfl
  | cons a t ih =>
    simp only [List.map_cons, h a (List.mem_cons_self _ _),
      ih fun b hb => h b (List.mem_cons_of_mem _ hb)]

theorem trimChars_eq_self {l : List Char} (h : ∀ c ∈ l, isJsWhitespace c = false) :
    trimChars l = l := by
  unfold trimChars
  have h1 : l.dropWhile isJsWhitespace = l := by
    cases l with
    | nil => rfl
    | cons c t =>
      rw [List.dropWhile_cons, if_neg]
      simp [h c (List.mem_cons_self _ _)]
  rw [h1]
  have h2 : l.reverse.dropWhile isJsWhitespace = l.reverse := by
    cases hr : l.reverse with
    | nil => rfl
    | cons c t =>
      have hc : c ∈ l := List.mem_reverse.mp (by rw [hr]; exact List.mem_cons_self _ _)
      rw [List.dropWhile_cons, if_neg]
      simp [h c hc]
  rw [h2, List.reverse_reverse]

theorem sanitizeBucket_chars (s : String) :
    ∀ c ∈ (sanitizeBucket s).data, isBucketChar c = true := by
  intro c hc
  simp only [sanitizeBucket] at hc
  split at hc
  · rw [show ("unknown" : String).data = ['u', 'n', 'k', 'n', 'o', 'w', 'n'] from rfl] at hc
    simp only [List.mem_cons, List.not_mem_nil, or_false] at hc
    rcases hc with rfl | rfl | rfl | rfl | rfl | rfl | rfl <;> decide
  · have hc' : c ∈ ((trimChars s.data).map jsToLowerChar).map
        (fun c => if isBucketChar c then c else '-') := hc
    obtain ⟨c₁, _, rfl⟩ := List.mem_map.mp hc'
    by_cases hb : isBucketChar c₁ = true
    · rw [if_pos hb]; exact hb
    · rw [if_neg hb]; decide

theorem sanitizeBucket_ne_nil (s : String) : (sanitizeBucket s).data ≠ [] := by
  simp only [sanitizeBucket]
  split
  · decide
  · next h => exact h

theorem sanitizeBucket_fixed {t : String} (hch : ∀ c ∈ t.data, isBucketChar c = true)
    (hne : t.data ≠ []) : sanitizeBucket t = t := by
  simp only [sanitizeBucket]
  have htrim : trimChars t.data = t.data :=
    trimChars_eq_self fun c hc => bucketChar_not_ws (hch c hc)
  rw [htrim]
  have hlow : t.data.map jsToLowerChar = t.data :=
    map_eq_self_of_forall fun c hc => bucketChar_toLower (hch c hc)
  rw [hlow]
  have hkeep : t.data.map (fun c => if isBucketChar c then c else '-') = t.data :=
    map_eq_self_of_forall fun c hc => if_pos (hch c hc)
  rw [hkeep, if_neg hne]

theorem sanitizeBucket_idem (s : String) :
    sanitizeBucket (sanitizeBucket s) = sanitizeBucket s :=
  sanitizeBucket_fixed (sanitizeBucket_chars s) (sanitizeBucket_ne_nil s)

theorem bucketDateParts_lengths {b y m d : String}
    (h : bucketDateParts b = some (y, m, d)) :
    y.data.length = 4 ∧ m.data.length = 2 ∧ d.data.length = 2 := by
  unfold bucketDateParts at h
  split at h
  · split at h
    · injection h with h'
      simp only [Prod.mk.injEq] at h'
      obtain ⟨hy, hm, hd⟩ := h'
      subst hy; subst hm; subst hd
      exact ⟨rfl, rfl, rfl⟩
    · cases h
  · cases h

theorem getShardPath_ne_manifest (b : String) : getShardPath b ≠ META_MANIFEST_PATH := by
  unfold getShardPath
  cases hd : bucketDateParts b with
  | some ymd =>
    obtain ⟨y, m, d⟩ := ymd
    obtain ⟨hy, hm, hdl⟩ := bucketDateParts_lengths hd
    intro h
    have hlen := congrArg (fun s => s.data.length) h
    simp only [String.data_append, List.length_append] at hlen
    rw [show (META_ROOT).data.length = 15 from rfl,
      show ("/" : String).data.length = 1 from rfl,
      show (SHARD_FILENAME).data.length = 14 from rfl,
      show (META_MANIFEST_PATH).data.length = 29 from rfl] at hlen
    omega
  | none =>
    by_cases hb : b = "unknown"
    · rw [if_pos hb]
      decide
    · rw [if_neg hb]
      intro h
      have h17 := congrArg (fun s => s.data[16]?) h
      simp only [String.data_append] at h17
      rw [List.append_assoc, List.append_assoc] at h17
      rw [List.getElem?_append_left (by decide : (16 : Nat) <
        (LEGACY_META_SHARD_DIR.data).length)] at h17
      exact absurd h17 (by decide)

/-! ## Lemmas about `normalizeShardDocument` -/

theorem normalizeEntryStep_alias {kv : String × MetaShardEntry}
    (h : kv.2.fingerprint = kv.1) :
    (if kv.2.fingerprint ≠ "" then kv.2.fingerprint else kv.1) = kv.1 := by
  by_cases hfp : kv.2.fingerprint = ""
  · rw [if_neg]
    simp [hfp]
  · rw [if_pos hfp]
    exact h

theorem norm_fold_get_frame (l : List (String × MetaShardEntry)) (k : String)
    (hnf : ∀ kv ∈ l, kv.2.fingerprint = kv.1) (hk : k ∉ l.map Prod.fst) :
    ∀ acc : JsMap String MetaShardEntry,
      (l.foldl normalizeEntryStep acc).get k = acc.get k := by
  induction l with
  | nil => intro acc; rfl
  | cons kv t ih =>
    intro acc
    have hkv : kv.2.fingerprint = kv.1 := hnf kv (List.mem_cons_self _ _)
    have hk1 : kv.1 ≠ k := fun h => hk (h ▸ List.mem_cons_self _ _)
    have hkt : k ∉ t.map Prod.fst := fun h => hk (List.mem_cons_of_mem _ h)
    rw [List.foldl_cons, ih (fun p hp => hnf p (List.mem_cons_of_mem _ hp)) hkt]
    simp only [normalizeEntryStep, normalizeEntryStep_alias hkv]
    by_cases hke : kv.1 = ""
    · rw [if_pos hke]
    · rw [if_neg hke]
      cases toOptionalString (some kv.2.repoPath) with
      | none => rfl
      | some rp => exact JsMap.get_set_ne acc kv.1 k _ hk1

theorem norm_fold_get (l : List (String × MetaShardEntry)) (k : String)
    (hnf : ∀ kv ∈ l, kv.2.fingerprint = kv.1) (hnd : (l.map Prod.fst).Nodup) :
    ∀ acc : JsMap String MetaShardEntry, acc.get k = none →
      (l.foldl normalizeEntryStep acc).get k =
        match JsMap.get l k with
        | none => none
        | some v => normalizedResult k v := by
  induction l with
  | nil =>
    intro acc hacc
    simpa [JsMap.get] using hacc
  | cons kv t ih =>
    intro acc hacc
    obtain ⟨k₀, v₀⟩ := kv
    have hkv : v₀.fingerprint = k₀ := hnf (k₀, v₀) (List.mem_cons_self _ _)
    have hnf' : ∀ p ∈ t, p.2.fingerprint = p.1 := fun p hp => hnf p (List.mem_cons_of_mem _ hp)
    rw [List.foldl_cons]
    by_cases hk : k₀ = k
    · subst hk
      have hget : JsMap.get ((k₀, v₀) :: t) k₀ = some v₀ := by
        rw [JsMap.get, if_pos rfl]
      rw [hget]
      have hkt : k₀ ∉ t.map Prod.fst := (List.nodup_cons.mp hnd).1
      rw [norm_fold_get_frame t k₀ hnf' hkt]
      simp only [normalizeEntryStep,
        normalizeEntryStep_alias (show (k₀, v₀).2.fingerprint = (k₀, v₀).1 from hkv),
        normalizedResult]
      by_cases hke : k₀ = ""
      · rw [if_pos hke, if_pos hke]
        exact hacc
      · rw [if_neg hke, if_neg hke]
        by_cases hrp : v₀.repoPath = ""
        · simp only [toOptionalString, if_pos hrp]
          exact hacc
        · simp only [toOptionalString, if_neg hrp]
          exact JsMap.get_set_self acc k₀ _
    · have hget : JsMap.get ((k₀, v₀) :: t) k = JsMap.get t k := by
        rw [JsMap.get, if_neg hk]
      rw [hget]
      apply ih hnf' (List.nodup_cons.mp hnd).2
      simp only [normalizeEntryStep,
        normalizeEntryStep_alias (show (k₀, v₀).2.fingerprint = (k₀, v₀).1 from hkv)]
      by_cases hke : k₀ = ""
      · rw [if_pos hke]
        exact hacc
      · rw [if_neg hke]
        cases toOptionalString (some v₀.repoPath) with
        | none => exact hacc
        | some rp => rw [JsMap.get_set_ne acc k₀ k _ hk]; exact hacc

theorem normalize_get {bucket : String} {now : Int} {doc : MetaShardDocument} {k : String}
    {v : MetaShardEntry}
    (hnf : ∀ kv ∈ doc.entries, kv.2.fingerprint = kv.1)
    (hnd : doc.entries.keys.Nodup)
    (hget : doc.entries.get k = some v) :
    (normalizeShardDocument bucket (some doc) now).entries.get k = normalizedResult k v := by
  simp only [normalizeShardDocument]
  rw [norm_fold_get doc.entries k hnf (by simpa [JsMap.keys] using hnd) JsMap.empty rfl,
    hget]

theorem normalizeEntryStep_preserves {acc : JsMap String MetaShardEntry}
    {kv : String × MetaShardEntry}
    (hA : ∀ p ∈ acc, p.2.fingerprint = p.1) (hB : acc.keys.Nodup) :
    (∀ p ∈ normalizeEntryStep acc kv, p.2.fingerprint = p.1) ∧
      (normalizeEntryStep acc kv).keys.Nodup := by
  simp only [normalizeEntryStep]
  by_cases hke : (if kv.2.fingerprint ≠ "" then kv.2.fingerprint else kv.1) = ""
  · rw [if_pos hke]
    exact ⟨hA, hB⟩
  · rw [if_neg hke]
    cases hro : toOptionalString (some kv.2.repoPath) with
    | none => exact ⟨hA, hB⟩
    | some rp =>
      constructor
      · intro p hp
        rcases JsMap.mem_set_elim _ _ _ _ hp with hm | he
        · exact hA p hm
        · rw [he]
      · exact JsMap.keys_nodup_set _ _ _ hB

theorem norm_fold_preserved (l : List (String × MetaShardEntry)) :
    ∀ acc : JsMap String MetaShardEntry,
      (∀ kv ∈ acc, kv.2.fingerprint = kv.1) → acc.keys.Nodup →
      (∀ kv ∈ l.foldl normalizeEntryStep acc, kv.2.fingerprint = kv.1) ∧
        (l.foldl normalizeEntryStep acc).keys.Nodup := by
  induction l with
  | nil => intro acc hA hB; exact ⟨hA, hB⟩
  | cons kv t ih =>
    intro acc hA hB
    rw [List.foldl_cons]
    obtain ⟨hA', hB'⟩ := normalizeEntryStep_preserves hA hB
    exact ih _ hA' hB'

theorem normalize_normalForm (bucket : String) (input : Option MetaShardDocument)
    (now : Int) :
    (∀ kv ∈ (normalizeShardDocument bucket input now).entries, kv.2.fingerprint = kv.1) ∧
      (normalizeShardDocument bucket input now).entries.keys.Nodup := by
  cases input with
  | none =>
    constructor
    · intro kv hkv
      simp [normalizeShardDocument, JsMap.empty] at hkv
    · simp [normalizeShardDocument, JsMap.empty, JsMap.keys]
  | some inp =>
    simp only [normalizeShardDocument]
    exact norm_fold_preserved inp.entries JsMap.empty (by intro kv h; cases h)
      (by simp [JsMap.empty, JsMap.keys])

/-! ## Frame and well-formedness lemmas for the shard loader -/

theorem fetchShardDocument_wf (r : Remote) (b p : String) (now : Int) :
    (∀ e ∈ (fetchShardDocument r b p now).1.entries, e.2.fingerprint = e.1) ∧
      (fetchShardDocument r b p now).1.entries.keys.Nodup := by
  unfold fetchShardDocument
  cases hg : r.files.get p with
  | none =>
    constructor
    · intro e he
      simp [makeEmptyShard, JsMap.empty] at he
    · simp [makeEmptyShard, JsMap.empty, JsMap.keys]
  | some f =>
    obtain ⟨sha, content⟩ := f
    cases content with
    | shardDoc d => simpa using normalize_normalForm b (some d) now
    | blob s => simpa using normalize_normalForm b none now
    | manifestDoc m => simpa using normalize_normalForm b none now

theorem ensureShardLoadedC_frame (c : Cache) (w : MetaWorld) (b : String) :
    (ensureShardLoadedC c w b).2.2.remote = w.remote ∧
      (ensureShardLoadedC c w b).2.2.now = w.now ∧
      (ensureShardLoadedC c w b).2.2.events = w.events := by
  simp only [ensureShardLoadedC]
  split
  · exact ⟨rfl, rfl, rfl⟩
  · cases hfd : fetchShardDocument w.remote (sanitizeBucket b)
      (((c.shards.get (sanitizeBucket b)).getD
        ⟨sanitizeBucket b, getShardPath (sanitizeBucket b), none, 0, 0, none, false⟩).path)
      w.now
    exact ⟨rfl, rfl, rfl⟩

theorem ensureShardLoadedC_path (c : Cache) (w : MetaWorld) (b : String) :
    (ensureShardLoadedC c w b).1.path =
      (match c.shards.get (sanitizeBucket b) with
        | some sh => sh.path
        | none => getShardPath (sanitizeBucket b)) := by
  unfold ensureShardLoadedC
  cases hg : c.shards.get (sanitizeBucket b) <;> simp only [hg] <;> split <;> rfl

theorem ensureShardLoadedC_doc_wf (c : Cache) (w : MetaWorld) (b : String)
    (hWF : CacheWF c) :
    ∀ d, (ensureShardLoadedC c w b).1.doc = some d →
      (∀ e ∈ d.entries, e.2.fingerprint = e.1) ∧ d.entries.keys.Nodup := by
  intro d hd
  unfold ensureShardLoadedC at hd
  cases hg : c.shards.get (sanitizeBucket b) with
  | some sh =>
    simp only [hg] at hd
    by_cases hload : sh.loaded = true ∧ sh.doc.isSome = true
    · rw [if_pos (by simpa using hload)] at hd
      exact hWF.2 _ (JsMap.get_mem _ _ _ hg) d hd
    · rw [if_neg (by simpa using hload)] at hd
      simp only [Option.some.injEq] at hd
      subst hd
      exact fetchShardDocument_wf w.remote (sanitizeBucket b) sh.path w.now
  | none =>
    simp only [hg] at hd
    rw [if_neg (by simp)] at hd
    simp only [Option.some.injEq] at hd
    subst hd
    exact fetchShardDocument_wf w.remote (sanitizeBucket b) _ w.now

theorem octoCreateOrUpdate_ok {r : Remote} {path : String} {content : RemoteContent}
    {sha? : Option Nat} {ns : Nat} {r' : Remote}
    (h : octoCreateOrUpdate r path content sha? = Except.ok (ns, r')) :
    ns = r.nextSha ∧ r' = ⟨r.files.set path ⟨r.nextSha, content⟩, r.nextSha + 1⟩ := by
  unfold octoCreateOrUpdate at h
  split at h
  · split at h
    · simp only [Except.ok.injEq, Prod.mk.injEq] at h
      exact ⟨h.1.symm, h.2.symm⟩
    · cases h
  · split at h
    · simp only [Except.ok.injEq, Prod.mk.injEq] at h
      exact ⟨h.1.symm, h.2.symm⟩
    · cases h

theorem markManifestEntry_shards (c : Cache) (b : String) (sh : Option ShardCacheEntry) :
    (markManifestEntry c b sh).shards = c.shards := by
  cases sh <;> rfl

theorem persistShard_ok_spec {w : MetaWorld} {sh sh' : ShardCacheEntry} {w' : MetaWorld}
    (h : persistShard w sh = Except.ok (sh', w')) :
    sh'.path = sh.path ∧
      sh'.doc = some ⟨SHARD_VERSION, sanitizeBucket sh.bucket, w.now,
        (sh.doc.getD (makeEmptyShard sh.bucket w.now)).entries⟩ ∧
      w'.remote.files.get sh.path = some ⟨w.remote.nextSha,
        RemoteContent.shardDoc ⟨SHARD_VERSION, sanitizeBucket sh.bucket, w.now,
          (sh.doc.getD (makeEmptyShard sh.bucket w.now)).entries⟩⟩ ∧
      w'.now = w.now ∧
      (∀ p, p ≠ sh.path → w'.remote.files.get p = w.remote.files.get p) := by
  unfold persistShard at h
  dsimp only at h
  split at h
  · cases h
  · next ns r' heqO =>
    obtain ⟨hns, hr'⟩ := octoCreateOrUpdate_ok heqO
    simp only [Except.ok.injEq, Prod.mk.injEq] at h
    obtain ⟨hsh', hw'⟩ := h
    subst hsh'
    subst hw'
    subst hr'
    refine ⟨rfl, rfl, ?_, rfl, ?_⟩
    · exact JsMap.get_set_self _ _ _
    · intro p hp
      exact JsMap.get_set_ne _ _ _ _ fun hh => hp hh.symm

theorem writeManifest_ok_spec {w : MetaWorld} {m : MetaManifest} {sha : Option Nat}
    {s' : Option Nat} {w' : MetaWorld}
    (h : writeManifest w m sha = Except.ok (s', w')) :
    (∀ p, p ≠ META_MANIFEST_PATH → w'.remote.files.get p = w.remote.files.get p) ∧
      w'.now = w.now := by
  unfold writeManifest at h
  dsimp only at h
  split at h
  · cases h
  · next ns r' heqO =>
    obtain ⟨hns, hr'⟩ := octoCreateOrUpdate_ok heqO
    simp only [Except.ok.injEq, Prod.mk.injEq] at h
    obtain ⟨hs', hw'⟩ := h
    subst hw'
    subst hr'
    refine ⟨?_, rfl⟩
    intro p hp
    exact JsMap.get_set_ne _ _ _ _ fun hh => hp hh.symm

/-! ## Index-map component lemmas for the removal path -/

theorem JsMap.mem_del_sub {κ α : Type} [DecidableEq κ] (m : JsMap κ α) (k : κ)
    (p : κ × α) (h : p ∈ m.del k) : p ∈ m :=
  List.mem_of_mem_filter h

theorem JsMap.get_del_none {κ α : Type} [DecidableEq κ] (m : JsMap κ α) (k k' : κ)
    (h : m.get k = none) : (m.del k').get k = none := by
  by_cases hk : k' = k
  · subst hk
    exact JsMap.get_del_self m k'
  · rw [JsMap.get_del_ne m k' k hk]
    exact h

theorem JsMap.get_del_some {κ α : Type} [DecidableEq κ] (m : JsMap κ α) (k k' : κ)
    (v : α) (h : (m.del k').get k = some v) : m.get k = some v := by
  by_cases hk : k' = k
  · subst hk
    rw [JsMap.get_del_self] at h
    cases h
  · rwa [JsMap.get_del_ne m k' k hk] at h

theorem JsMap.keys_del_sublist {κ α : Type} [DecidableEq κ] (m : JsMap κ α) (k : κ) :
    (m.del k).keys.Sublist m.keys := by
  simp only [JsMap.del, JsMap.keys]
  exact (List.filter_sublist m).map Prod.fst

theorem JsMap.keys_nodup_del {κ α : Type} [DecidableEq κ] (m : JsMap κ α) (k : κ)
    (h : m.keys.Nodup) : (m.del k).keys.Nodup :=
  (JsMap.keys_del_sublist m k).nodup h

theorem JsMap.get_of_mem_nodup {κ α : Type} [DecidableEq κ] (m : JsMap κ α)
    (p : κ × α) (hnd : m.keys.Nodup) (h : p ∈ m) : m.get p.1 = some p.2 := by
  induction m with
  | nil => cases h
  | cons q t ih =>
    simp only [JsMap.keys, List.map_cons, List.nodup_cons] at hnd
    rcases List.mem_cons.mp h with rfl | hmem
    · rw [JsMap.get, if_pos rfl]
    · have hne : q.1 ≠ p.1 := by
        intro he
        exact hnd.1 (he ▸ List.mem_map_of_mem Prod.fst hmem)
      rw [JsMap.get, if_neg hne]
      exact ih hnd.2 hmem

theorem foldDelPaths_spec (ps : List String) : ∀ st : MetaIndexState,
    ps.foldl (fun acc p =>
        { acc with pathToFingerprint := acc.pathToFingerprint.del p }) st =
      { st with pathToFingerprint := ps.foldl JsMap.del st.pathToFingerprint } := by
  induction ps with
  | nil => intro st; rfl
  | cons p t ih => intro st; rw [List.foldl_cons, List.foldl_cons, ih]

theorem foldl_del_get_none (ps : List String) :
    ∀ (m : JsMap String String) (k : String), m.get k = none →
      (ps.foldl JsMap.del m).get k = none := by
  induction ps with
  | nil => exact fun m k h => h
  | cons p t ih =>
    intro m k h
    rw [List.foldl_cons]
    exact ih _ _ (JsMap.get_del_none _ _ _ h)

/-- `removeEntryFromCache` deletes the fingerprint from the entry map
and deletes its registered paths (and nothing else) from the path
map. -/
theorem removeEntryFromCache_spec (st : MetaIndexState) (fp : String) :
    (removeEntryFromCache st fp).metaByFingerprint = st.metaByFingerprint.del fp ∧
      (removeEntryFromCache st fp).pathToFingerprint =
        ((st.fingerprintToPaths.get fp).getD []).foldl JsMap.del st.pathToFingerprint := by
  unfold removeEntryFromCache
  dsimp only
  cases hb : st.fingerprintToBucket.get fp with
  | none =>
    dsimp only
    cases hp : st.fingerprintToPaths.get fp with
    | none => exact ⟨rfl, rfl⟩
    | some paths =>
      dsimp only
      rw [foldDelPaths_spec]
      exact ⟨rfl, rfl⟩
  | some bucket =>
    dsimp only
    cases hbf : st.bucketToFingerprints.get bucket with
    | none =>
      dsimp only
      cases hp : st.fingerprintToPaths.get fp with
      | none => exact ⟨rfl, rfl⟩
      | some paths =>
        dsimp only
        rw [foldDelPaths_spec]
        exact ⟨rfl, rfl⟩
    | some set =>
      dsimp only
      by_cases hlen : (set.del fp).length = 0
      · rw [if_pos hlen]
        dsimp only
        cases hp : st.fingerprintToPaths.get fp with
        | none => exact ⟨rfl, rfl⟩
        | some paths =>
          dsimp only
          rw [foldDelPaths_spec]
          exact ⟨rfl, rfl⟩
      · rw [if_neg hlen]
        dsimp only
        cases hp : st.fingerprintToPaths.get fp with
        | none => exact ⟨rfl, rfl⟩
        | some paths =>
          dsimp only
          rw [foldDelPaths_spec]
          exact ⟨rfl, rfl⟩

theorem removeEntryFromCache_keyed (st : MetaIndexState) (fp : String)
    (h : MetaByKeyed st) : MetaByKeyed (removeEntryFromCache st fp) := by
  intro k e hk
  rw [(removeEntryFromCache_spec st fp).1] at hk
  exact h k e (JsMap.get_del_some _ _ _ _ hk)

theorem foldRemove_metaBy_none (fps : List String) :
    ∀ (st : MetaIndexState) (k : String), st.metaByFingerprint.get k = none →
      (fps.foldl removeEntryFromCache st).metaByFingerprint.get k = none := by
  induction fps with
  | nil => exact fun st k h => h
  | cons fp t ih =>
    intro st k h
    rw [List.foldl_cons]
    refine ih _ _ ?_
    rw [(removeEntryFromCache_spec st fp).1]
    exact JsMap.get_del_none _ _ _ h

theorem foldRemove_pathToFp_none (fps : List String) :
    ∀ (st : MetaIndexState) (k : String), st.pathToFingerprint.get k = none →
      (fps.foldl removeEntryFromCache st).pathToFingerprint.get k = none := by
  induction fps with
  | nil => exact fun st k h => h
  | cons fp t ih =>
    intro st k h
    rw [List.foldl_cons]
    refine ih _ _ ?_
    rw [(removeEntryFromCache_spec st fp).2]
    exact foldl_del_get_none _ _ _ h

theorem foldRemove_keyed (fps : List String) :
    ∀ st : MetaIndexState, MetaByKeyed st →
      MetaByKeyed (fps.foldl removeEntryFromCache st) := by
  induction fps with
  | nil => exact fun st h => h
  | cons fp t ih =>
    intro st h
    rw [List.foldl_cons]
    exact ih _ (removeEntryFromCache_keyed st fp h)

theorem evictBucketEntries_metaBy_none (st : MetaIndexState) (b k : String)
    (h : st.metaByFingerprint.get k = none) :
    (evictBucketEntries st b).metaByFingerprint.get k = none := by
  unfold evictBucketEntries
  cases hbf : st.bucketToFingerprints.get b with
  | none => exact h
  | some fgs => exact foldRemove_metaBy_none fgs st k h

theorem evictBucketEntries_pathToFp_none (st : MetaIndexState) (b k : String)
    (h : st.pathToFingerprint.get k = none) :
    (evictBucketEntries st b).pathToFingerprint.get k = none := by
  unfold evictBucketEntries
  cases hbf : st.bucketToFingerprints.get b with
  | none => exact h
  | some fgs => exact foldRemove_pathToFp_none fgs st k h

theorem evictBucketEntries_keyed (st : MetaIndexState) (b : String)
    (h : MetaByKeyed st) : MetaByKeyed (evictBucketEntries st b) := by
  unfold evictBucketEntries
  cases hbf : st.bucketToFingerprints.get b with
  | none => exact h
  | some fgs => exact foldRemove_keyed fgs st h

theorem foldSetPaths_spec (fingerprint : String) (ps : List String) :
    ∀ st : MetaIndexState,
      ps.foldl (fun acc p =>
          { acc with pathToFingerprint := acc.pathToFingerprint.set p fingerprint }) st =
        { st with pathToFingerprint :=
            ps.foldl (fun m p => m.set p fingerprint) st.pathToFingerprint } := by
  induction ps with
  | nil => intro st; rfl
  | cons p t ih => intro st; rw [List.foldl_cons, List.foldl_cons, ih]

theorem foldl_set_get_none (fingerprint : String) (ps : List String) :
    ∀ (m : JsMap String String) (k : String), m.get k = none → k ∉ ps →
      (ps.foldl (fun m p => m.set p fingerprint) m).get k = none := by
  induction ps with
  | nil => exact fun m k h _ => h
  | cons p t ih =>
    intro m k h hk
    rw [List.foldl_cons]
    refine ih _ _ ?_ (fun hm => hk (List.mem_cons_of_mem _ hm))
    rw [JsMap.get_set_ne m p k fingerprint (fun he => hk (he ▸ List.mem_cons_self _ _))]
    exact h

theorem registerPaths_metaBy (st : MetaIndexState) (fp : String)
    (ps : List (Option String)) :
    (registerPaths st fp ps).metaByFingerprint = st.metaByFingerprint := by
  unfold registerPaths
  dsimp only
  rw [foldSetPaths_spec]
  split <;> rfl

theorem registerPaths_pathToFp_none (st : MetaIndexState) (fp : String)
    (ps : List (Option String)) (k : String)
    (h : st.pathToFingerprint.get k = none)
    (hps : ∀ p ∈ ps, p ≠ some k) :
    (registerPaths st fp ps).pathToFingerprint.get k = none := by
  unfold registerPaths
  dsimp only
  rw [foldSetPaths_spec]
  have hk : k ∉ (ps.filterMap id).filter (· ≠ "") := by
    intro hmem
    rcases List.mem_filterMap.mp (List.mem_of_mem_filter hmem) with ⟨p, hp, hpk⟩
    exact hps p hp hpk
  split <;> exact foldl_set_get_none fp _ _ _ h hk

theorem registerPaths_keyed (st : MetaIndexState) (fp : String)
    (ps : List (Option String)) (h : MetaByKeyed st) :
    MetaByKeyed (registerPaths st fp ps) := by
  intro k e hk
  rw [registerPaths_metaBy] at hk
  exact h k e hk

theorem foldIngest_metaBy_none (bucket : String) (l : List (String × MetaShardEntry)) :
    ∀ (acc : MetaIndexState × JsSet String) (k : String),
      acc.1.metaByFingerprint.get k = none →
      (∀ e ∈ l, e.2.fingerprint ≠ k) →
      (l.foldl (ingestStep bucket) acc).1.metaByFingerprint.get k = none := by
  induction l with
  | nil => exact fun acc k h _ => h
  | cons e t ih =>
    intro acc k h hl
    rw [List.foldl_cons]
    refine ih _ _ ?_ (fun x hx => hl x (List.mem_cons_of_mem _ hx))
    unfold ingestStep
    split
    · exact h
    · dsimp only
      rw [registerPaths_metaBy]
      dsimp only
      rw [JsMap.get_set_ne _ _ _ _ (hl e (List.mem_cons_self _ _))]
      exact h

theorem foldIngest_pathToFp_none (bucket : String) (l : List (String × MetaShardEntry)) :
    ∀ (acc : MetaIndexState × JsSet String) (k : String),
      acc.1.pathToFingerprint.get k = none →
      (∀ e ∈ l, e.2.repoPath ≠ k ∧ e.2.previewRepoPath ≠ some k) →
      (l.foldl (ingestStep bucket) acc).1.pathToFingerprint.get k = none := by
  induction l with
  | nil => exact fun acc k h _ => h
  | cons e t ih =>
    intro acc k h hl
    rw [List.foldl_cons]
    refine ih _ _ ?_ (fun x hx => hl x (List.mem_cons_of_mem _ hx))
    unfold ingestStep
    split
    · exact h
    · dsimp only
      refine registerPaths_pathToFp_none _ _ _ _ h ?_
      intro p hp
      rcases List.mem_cons.mp hp with rfl | hp'
      · intro he
        exact (hl e (List.mem_cons_self _ _)).1 (by injection he)
      · rcases List.mem_cons.mp hp' with rfl | hp''
        · exact (hl e (List.mem_cons_self _ _)).2
        · cases hp''

theorem foldIngest_keyed (bucket : String) (l : List (String × MetaShardEntry)) :
    ∀ acc : MetaIndexState × JsSet String, MetaByKeyed acc.1 →
      MetaByKeyed (l.foldl (ingestStep bucket) acc).1 := by
  induction l with
  | nil => exact fun acc h => h
  | cons e t ih =>
    intro acc h
    rw [List.foldl_cons]
    refine ih _ ?_
    unfold ingestStep
    split
    · exact h
    · dsimp only
      refine registerPaths_keyed _ _ _ ?_
      intro k v hk
      dsimp only at hk
      by_cases hke : e.2.fingerprint = k
      · subst hke
        rw [JsMap.get_set_self] at hk
        injection hk with hv
        rw [← hv]
      · rw [JsMap.get_set_ne _ _ _ _ hke] at hk
        exact h k v hk

theorem ingestShardDocument_metaBy_none (st : MetaIndexState) (doc : MetaShardDocument)
    (k : String) (h : st.metaByFingerprint.get k = none)
    (hd : ∀ e ∈ doc.entries, e.2.fingerprint ≠ k) :
    (ingestShardDocument st doc).metaByFingerprint.get k = none := by
  unfold ingestShardDocument
  dsimp only
  split <;>
    exact foldIngest_metaBy_none _ _ _ _
      (evictBucketEntries_metaBy_none _ _ _ h) hd

theorem ingestShardDocument_pathToFp_none (st : MetaIndexState)
    (doc : MetaShardDocument) (k : String)
    (h : st.pathToFingerprint.get k = none)
    (hd : ∀ e ∈ doc.entries, e.2.repoPath ≠ k ∧ e.2.previewRepoPath ≠ some k) :
    (ingestShardDocument st doc).pathToFingerprint.get k = none := by
  unfold ingestShardDocument
  dsimp only
  split <;>
    exact foldIngest_pathToFp_none _ _ _ _
      (evictBucketEntries_pathToFp_none _ _ _ h) hd

theorem ingestShardDocument_keyed (st : MetaIndexState) (doc : MetaShardDocument)
    (h : MetaByKeyed st) : MetaByKeyed (ingestShardDocument st doc) := by
  unfold ingestShardDocument
  dsimp only
  split <;>
    exact fun k e hk =>
      foldIngest_keyed _ _ _ (evictBucketEntries_keyed _ _ h) k e hk

/-! ## The per-group removal fold of `removeMetaEntries` -/

theorem removeStep_isSome {d : MetaShardDocument} {i : MetaIndexState} {ch : Bool}
    {fp : String} (h : (d.entries.get fp).isSome = true) :
    removeStep (d, i, ch) fp =
      ({ d with entries := d.entries.del fp }, removeEntryFromCache i fp, true) := by
  unfold removeStep
  dsimp only
  rw [if_pos h]

theorem removeStep_none {d : MetaShardDocument} {i : MetaIndexState} {ch : Bool}
    {fp : String} (h : ¬((d.entries.get fp).isSome = true)) :
    removeStep (d, i, ch) fp = (d, i, ch) := by
  unfold removeStep
  dsimp only
  rw [if_neg h]

theorem foldStep_flag_mono (l : List String) :
    ∀ (d : MetaShardDocument) (i : MetaIndexState),
      (l.foldl removeStep (d, i, true)).2.2 = true := by
  induction l with
  | nil => intros; rfl
  | cons fp t ih =>
    intro d i
    rw [List.foldl_cons]
    unfold removeStep
    dsimp only
    split
    · exact ih _ _
    · exact ih _ _

theorem foldStep_metaBy_none (l : List String) :
    ∀ (d : MetaShardDocument) (i : MetaIndexState) (ch : Bool) (k : String),
      i.metaByFingerprint.get k = none →
      (l.foldl removeStep (d, i, ch)).2.1.metaByFingerprint.get k = none := by
  induction l with
  | nil => exact fun d i ch k h => h
  | cons fp t ih =>
    intro d i ch k h
    rw [List.foldl_cons]
    unfold removeStep
    dsimp only
    split
    · refine ih _ _ _ _ ?_
      rw [(removeEntryFromCache_spec i fp).1]
      exact JsMap.get_del_none _ _ _ h
    · exact ih _ _ _ _ h

theorem foldStep_pathToFp_none (l : List String) :
    ∀ (d : MetaShardDocument) (i : MetaIndexState) (ch : Bool) (k : String),
      i.pathToFingerprint.get k = none →
      (l.foldl removeStep (d, i, ch)).2.1.pathToFingerprint.get k = none := by
  induction l with
  | nil => exact fun d i ch k h => h
  | cons fp t ih =>
    intro d i ch k h
    rw [List.foldl_cons]
    unfold removeStep
    dsimp only
    split
    · refine ih _ _ _ _ ?_
      rw [(removeEntryFromCache_spec i fp).2]
      exact foldl_del_get_none _ _ _ h
    · exact ih _ _ _ _ h

theorem foldStep_keyed (l : List String) :
    ∀ (d : MetaShardDocument) (i : MetaIndexState) (ch : Bool),
      MetaByKeyed i → MetaByKeyed (l.foldl removeStep (d, i, ch)).2.1 := by
  induction l with
  | nil => exact fun d i ch h => h
  | cons fp t ih =>
    intro d i ch h
    rw [List.foldl_cons]
    unfold removeStep
    dsimp only
    split
    · exact ih _ _ _ (removeEntryFromCache_keyed i fp h)
    · exact ih _ _ _ h

theorem foldStep_doc_none (l : List String) :
    ∀ (d : MetaShardDocument) (i : MetaIndexState) (ch : Bool) (k : String),
      d.entries.get k = none →
      (l.foldl removeStep (d, i, ch)).1.entries.get k = none := by
  induction l with
  | nil => exact fun d i ch k h => h
  | cons fp t ih =>
    intro d i ch k h
    rw [List.foldl_cons]
    unfold removeStep
    dsimp only
    split
    · exact ih _ _ _ _ (JsMap.get_del_none _ _ _ h)
    · exact ih _ _ _ _ h

theorem foldStep_clears (l : List String) :
    ∀ (d : MetaShardDocument) (i : MetaIndexState) (ch : Bool) (fp : String),
      fp ∈ l → ((d.entries.get fp).isSome : Prop) →
      (l.foldl removeStep (d, i, ch)).2.1.metaByFingerprint.get fp = none := by
  induction l with
  | nil => intro d i ch fp h; cases h
  | cons fp₀ t ih =>
    intro d i ch fp hmem hsome
    rw [List.foldl_cons]
    unfold removeStep
    dsimp only
    by_cases hfp : fp = fp₀
    · subst hfp
      rw [if_pos hsome]
      refine foldStep_metaBy_none t _ _ _ _ ?_
      rw [(removeEntryFromCache_spec i fp).1]
      exact JsMap.get_del_self _ _
    · have ht : fp ∈ t := by
        rcases List.mem_cons.mp hmem with he | ht
        · exact absurd he hfp
        · exact ht
      split
      · refine ih _ _ _ _ ht ?_
        dsimp only
        rw [JsMap.get_del_ne _ _ _ (fun he => hfp he.symm)]
        exact hsome
      · exact ih _ _ _ _ ht hsome

theorem foldStep_doc_clears (l : List String) :
    ∀ (d : MetaShardDocument) (i : MetaIndexState) (ch : Bool) (fp : String),
      fp ∈ l → (l.foldl removeStep (d, i, ch)).1.entries.get fp = none := by
  induction l with
  | nil => intro d i ch fp h; cases h
  | cons fp₀ t ih =>
    intro d i ch fp hmem
    rw [List.foldl_cons]
    unfold removeStep
    dsimp only
    by_cases hfp : fp = fp₀
    · subst hfp
      split
      · exact foldStep_doc_none t _ _ _ _ (JsMap.get_del_self _ _)
      · next hns =>
        refine foldStep_doc_none t _ _ _ _ ?_
        exact Option.not_isSome_iff_eq_none.mp hns
    · have ht : fp ∈ t := by
        rcases List.mem_cons.mp hmem with he | ht
        · exact absurd he hfp
        · exact ht
      split
      · exact ih _ _ _ _ ht
      · exact ih _ _ _ _ ht

theorem foldStep_doc_mem (l : List String) :
    ∀ (d : MetaShardDocument) (i : MetaIndexState) (ch : Bool)
      (kv : String × MetaShardEntry),
      kv ∈ (l.foldl removeStep (d, i, ch)).1.entries → kv ∈ d.entries := by
  induction l with
  | nil => exact fun d i ch kv h => h
  | cons fp t ih =>
    intro d i ch kv h
    rw [List.foldl_cons] at h
    unfold removeStep at h
    dsimp only at h
    split at h
    · exact JsMap.mem_del_sub _ _ _ (ih _ _ _ _ h)
    · exact ih _ _ _ _ h

theorem foldStep_doc_nodup (l : List String) :
    ∀ (d : MetaShardDocument) (i : MetaIndexState) (ch : Bool),
      d.entries.keys.Nodup → (l.foldl removeStep (d, i, ch)).1.entries.keys.Nodup := by
  induction l with
  | nil => exact fun d i ch h => h
  | cons fp t ih =>
    intro d i ch h
    rw [List.foldl_cons]
    unfold removeStep
    dsimp only
    split
    · exact ih _ _ _ (JsMap.keys_nodup_del _ _ h)
    · exact ih _ _ _ h

theorem foldStep_unchanged (l : List String) :
    ∀ (d : MetaShardDocument) (i : MetaIndexState),
      (l.foldl removeStep (d, i, false)).2.2 = false →
      l.foldl removeStep (d, i, false) = (d, i, false) ∧
        ∀ fp ∈ l, d.entries.get fp = none := by
  induction l with
  | nil =>
    intro d i _
    exact ⟨rfl, fun fp hfp => absurd hfp (List.not_mem_nil fp)⟩
  | cons fp₀ t ih =>
    intro d i h
    rw [List.foldl_cons] at h ⊢
    by_cases h0 : ((d.entries.get fp₀).isSome : Prop)
    · rw [removeStep_isSome h0] at h
      rw [foldStep_flag_mono] at h
      cases h
    · rw [removeStep_none h0] at h ⊢
      obtain ⟨heq, hrest⟩ := ih d i h
      refine ⟨heq, fun fp hfp => ?_⟩
      rcases List.mem_cons.mp hfp with rfl | hfp'
      · exact Option.not_isSome_iff_eq_none.mp h0
      · exact hrest fp hfp'

/-! ## Branch characterizations of `docUsed` and the shard loader -/

theorem docUsed_eq_loaded {c : Cache} {w : MetaWorld} {k : String}
    {sh : ShardCacheEntry} {d : MetaShardDocument} (hg : c.shards.get k = some sh)
    (hl : sh.loaded = true) (hd : sh.doc = some d) : docUsed c w k = d := by
  unfold docUsed
  rw [hg]
  dsimp only
  rw [Option.getD_some]
  rw [if_pos ⟨hl, by rw [hd]; rfl⟩, hd]
  rfl

theorem docUsed_eq_fetch_some {c : Cache} {w : MetaWorld} {k : String}
    {sh : ShardCacheEntry} (hg : c.shards.get k = some sh)
    (hl : ¬(sh.loaded = true ∧ sh.doc.isSome = true)) :
    docUsed c w k = (fetchShardDocument w.remote k sh.path w.now).1 := by
  unfold docUsed
  rw [hg]
  dsimp only
  rw [Option.getD_some]
  rw [if_neg hl]

theorem docUsed_eq_fetch_none {c : Cache} {w : MetaWorld} {k : String}
    (hg : c.shards.get k = none) :
    docUsed c w k = (fetchShardDocument w.remote k (getShardPath k) w.now).1 := by
  unfold docUsed
  rw [hg]
  dsimp only
  rw [Option.getD_none]
  rw [if_neg (by simp)]

theorem docUsed_wf (c : Cache) (w : MetaWorld) (k : String) (hwf : CacheWF c) :
    (∀ e ∈ (docUsed c w k).entries, e.2.fingerprint = e.1) ∧
      (docUsed c w k).entries.keys.Nodup := by
  cases hg : c.shards.get k with
  | none =>
    rw [docUsed_eq_fetch_none hg]
    exact fetchShardDocument_wf _ _ _ _
  | some sh =>
    by_cases hl : sh.loaded = true ∧ sh.doc.isSome = true
    · cases hd : sh.doc with
      | none => rw [hd] at hl; simp at hl
      | some d =>
        rw [docUsed_eq_loaded hg hl.1 hd]
        exact hwf.2 _ (JsMap.get_mem _ _ _ hg) d hd
    · rw [docUsed_eq_fetch_some hg hl]
      exact fetchShardDocument_wf _ _ _ _

/-- Under normal form and duplicate-free keys, `get fp = none` means no
entry carries `fp` in its fingerprint field. -/
theorem no_field_of_get_none {entries : JsMap String MetaShardEntry} {fp : String}
    (hnf : ∀ e ∈ entries, e.2.fingerprint = e.1)
    (hnd : entries.keys.Nodup) (hget : entries.get fp = none) :
    ∀ e ∈ entries, e.2.fingerprint ≠ fp := by
  intro e he hfield
  have hkey : e.1 = fp := (hnf e he) ▸ hfield
  have := JsMap.get_of_mem_nodup entries e hnd he
  rw [hkey, hget] at this
  cases this

theorem ensureShardLoadedC_doc (c : Cache) (w : MetaWorld) (b : String) :
    (ensureShardLoadedC c w b).1.doc = some (docUsed c w (sanitizeBucket b)) := by
  unfold ensureShardLoadedC docUsed
  dsimp only
  cases hg : c.shards.get (sanitizeBucket b) with
  | none =>
    rw [if_neg (by simp)]
    rfl
  | some sh =>
    rw [Option.getD_some]
    by_cases hl : sh.loaded = true ∧ sh.doc.isSome = true
    · rw [if_pos hl, if_pos hl]
      cases hd : sh.doc with
      | none => rw [hd] at hl; simp at hl
      | some d => rfl
    · rw [if_neg hl, if_neg hl]

theorem ensureShardLoadedC_bucket (c : Cache) (w : MetaWorld) (b : String)
    (hlab : LabeledCache c) :
    (ensureShardLoadedC c w b).1.bucket = sanitizeBucket b := by
  unfold ensureShardLoadedC
  dsimp only
  cases hg : c.shards.get (sanitizeBucket b) with
  | none =>
    split
    · rfl
    · rfl
  | some sh =>
    have hb := hlab _ _ hg
    split
    · exact hb
    · exact hb

theorem ensureShardLoadedC_path_pathOf (c : Cache) (w : MetaWorld) (b : String) :
    (ensureShardLoadedC c w b).1.path = pathOf c (sanitizeBucket b) := by
  rw [ensureShardLoadedC_path]
  unfold pathOf
  rfl

theorem markManifestEntry_rows_frame (c : Cache) (b : String)
    (sh : Option ShardCacheEntry) (k : String) (hk : k ≠ b) :
    (markManifestEntry c b sh).manifest.shards.get k = c.manifest.shards.get k := by
  cases sh with
  | none => exact JsMap.get_del_ne _ _ _ (fun he => hk he.symm)
  | some s => exact JsMap.get_set_ne _ _ _ _ (fun he => hk he.symm)

theorem markManifestEntry_row_set (c : Cache) (b : String) (sh : ShardCacheEntry) :
    (markManifestEntry c b (some sh)).manifest.shards.get b =
      some ⟨sh.path, sh.count, sh.updatedAt, sh.sha⟩ :=
  JsMap.get_set_self _ _ _

theorem markManifestEntry_row_del (c : Cache) (b : String) :
    (markManifestEntry c b none).manifest.shards.get b = none :=
  JsMap.get_del_self _ _

theorem ensureShardLoadedC_shards_frame (c : Cache) (w : MetaWorld) (b : String)
    (k : String) (hk : k ≠ sanitizeBucket b) :
    (ensureShardLoadedC c w b).2.1.shards.get k = c.shards.get k := by
  unfold ensureShardLoadedC
  dsimp only
  cases hg : c.shards.get (sanitizeBucket b) with
  | some sh =>
    split
    · rfl
    · rw [markManifestEntry_shards]
      dsimp only
      exact JsMap.get_set_ne _ _ _ _ (fun he => hk he.symm)
  | none =>
    rw [if_neg (by simp)]
    rw [markManifestEntry_shards]
    dsimp only
    rw [JsMap.get_set_ne _ _ _ _ (fun he => hk he.symm)]
    exact JsMap.get_set_ne _ _ _ _ (fun he => hk he.symm)

theorem ensureShardLoadedC_shards_self (c : Cache) (w : MetaWorld) (b : String) :
    (ensureShardLoadedC c w b).2.1.shards.get (sanitizeBucket b) =
      some (ensureShardLoadedC c w b).1 := by
  unfold ensureShardLoadedC
  dsimp only
  cases hg : c.shards.get (sanitizeBucket b) with
  | some sh =>
    split
    · exact hg
    · rw [markManifestEntry_shards]
      dsimp only
      exact JsMap.get_set_self _ _ _
  | none =>
    rw [if_neg (by simp)]
    rw [markManifestEntry_shards]
    dsimp only
    exact JsMap.get_set_self _ _ _

theorem mkGroups_singleton (idx : MetaIndexState) (fp : String) :
    mkGroups idx [fp] = [(bucketKeyOf idx fp, [fp])] := rfl

theorem ensureShardLoadedC_rows_frame (c : Cache) (w : MetaWorld) (b : String)
    (k : String) (hk : k ≠ sanitizeBucket b) :
    (ensureShardLoadedC c w b).2.1.manifest.shards.get k =
      c.manifest.shards.get k := by
  unfold ensureShardLoadedC
  dsimp only
  cases hg : c.shards.get (sanitizeBucket b) with
  | some sh =>
    split
    · rfl
    · exact markManifestEntry_rows_frame _ _ _ _ hk
  | none =>
    rw [if_neg (by simp)]
    exact markManifestEntry_rows_frame _ _ _ _ hk

theorem ensureShardLoadedC_cache_wf (c : Cache) (w : MetaWorld) (b : String)
    (hwf : CacheWF c) : CacheWF (ensureShardLoadedC c w b).2.1 := by
  unfold ensureShardLoadedC
  dsimp only
  cases hg : c.shards.get (sanitizeBucket b) with
  | some sh =>
    split
    · exact hwf
    · constructor
      · intro kv hkv
        rw [markManifestEntry_shards] at hkv
        dsimp only at hkv
        rcases JsMap.mem_set_elim _ _ _ _ hkv with hold | hnew
        · exact hwf.1 kv hold
        · rw [hnew]
          exact hwf.1 (sanitizeBucket b, sh) (JsMap.get_mem _ _ _ hg)
      · intro kv hkv d hd
        rw [markManifestEntry_shards] at hkv
        dsimp only at hkv
        rcases JsMap.mem_set_elim _ _ _ _ hkv with hold | hnew
        · exact hwf.2 kv hold d hd
        · rw [hnew] at hd
          dsimp only at hd
          injection hd with hd'
          subst hd'
          exact fetchShardDocument_wf _ _ _ _
  | none =>
    rw [if_neg (by simp)]
    constructor
    · intro kv hkv
      rw [markManifestEntry_shards] at hkv
      dsimp only at hkv
      rcases JsMap.mem_set_elim _ _ _ _ hkv with hkv' | hnew
      · rcases JsMap.mem_set_elim _ _ _ _ hkv' with hold | hdef
        · exact hwf.1 kv hold
        · rw [hdef]
          exact getShardPath_ne_manifest _
      · rw [hnew]
        exact getShardPath_ne_manifest _
    · intro kv hkv d hd
      rw [markManifestEntry_shards] at hkv
      dsimp only at hkv
      rcases JsMap.mem_set_elim _ _ _ _ hkv with hkv' | hnew
      · rcases JsMap.mem_set_elim _ _ _ _ hkv' with hold | hdef
        · exact hwf.2 kv hold d hd
        · rw [hdef] at hd
          cases hd
      · rw [hnew] at hd
        dsimp only at hd
        injection hd with hd'
        subst hd'
        exact fetchShardDocument_wf _ _ _ _

theorem ensureShardLoadedC_labeled (c : Cache) (w : MetaWorld) (b : String)
    (hlab : LabeledCache c) : LabeledCache (ensureShardLoadedC c w b).2.1 := by
  unfold ensureShardLoadedC
  dsimp only
  cases hg : c.shards.get (sanitizeBucket b) with
  | some sh =>
    split
    · exact hlab
    · intro k sh' hk
      rw [markManifestEntry_shards] at hk
      dsimp only at hk
      by_cases hke : k = sanitizeBucket b
      · subst hke
        rw [JsMap.get_set_self] at hk
        injection hk with hk'
        rw [← hk']
        exact hlab (sanitizeBucket b) sh hg
      · rw [JsMap.get_set_ne _ _ _ _ (fun he => hke he.symm)] at hk
        exact hlab _ _ hk
  | none =>
    rw [if_neg (by simp)]
    intro k sh' hk
    rw [markManifestEntry_shards] at hk
    dsimp only at hk
    by_cases hke : k = sanitizeBucket b
    · subst hke
      rw [JsMap.get_set_self] at hk
      injection hk with hk'
      rw [← hk']
      rfl
    · rw [JsMap.get_set_ne _ _ _ _ (fun he => hke he.symm)] at hk
      rw [if_neg (by simp)] at hk
      dsimp only at hk
      rw [JsMap.get_set_ne _ _ _ _ (fun he => hke he.symm)] at hk
      exact hlab _ _ hk

theorem ensureShardLoadedC_pathToFp_none (c : Cache) (w : MetaWorld) (b : String)
    (fp : String) (h : w.idx.pathToFingerprint.get fp = none)
    (hdoc : ∀ e ∈ (docUsed c w (sanitizeBucket b)).entries,
      e.2.repoPath ≠ fp ∧ e.2.previewRepoPath ≠ some fp) :
    (ensureShardLoadedC c w b).2.2.idx.pathToFingerprint.get fp = none := by
  unfold ensureShardLoadedC
  dsimp only
  cases hg : c.shards.get (sanitizeBucket b) with
  | some sh =>
    rw [Option.getD_some]
    by_cases hl : sh.loaded = true ∧ sh.doc.isSome = true
    · rw [if_pos hl]
      exact h
    · rw [if_neg hl]
      rw [docUsed_eq_fetch_some hg hl] at hdoc
      dsimp only
      split
      · exact ingestShardDocument_pathToFp_none _ _ _ h hdoc
      · exact evictBucketEntries_pathToFp_none _ _ _ h
  | none =>
    rw [if_neg (by simp)]
    rw [docUsed_eq_fetch_none hg] at hdoc
    dsimp only
    split
    · exact ingestShardDocument_pathToFp_none _ _ _ h hdoc
    · exact evictBucketEntries_pathToFp_none _ _ _ h

theorem ensureShardLoadedC_metaBy_none (c : Cache) (w : MetaWorld) (b : String)
    (fp : String) (h : w.idx.metaByFingerprint.get fp = none)
    (hdoc : ∀ e ∈ (docUsed c w (sanitizeBucket b)).entries, e.2.fingerprint ≠ fp) :
    (ensureShardLoadedC c w b).2.2.idx.metaByFingerprint.get fp = none := by
  unfold ensureShardLoadedC
  dsimp only
  cases hg : c.shards.get (sanitizeBucket b) with
  | some sh =>
    rw [Option.getD_some]
    by_cases hl : sh.loaded = true ∧ sh.doc.isSome = true
    · rw [if_pos hl]
      exact h
    · rw [if_neg hl]
      rw [docUsed_eq_fetch_some hg hl] at hdoc
      dsimp only
      split
      · exact ingestShardDocument_metaBy_none _ _ _ h hdoc
      · exact evictBucketEntries_metaBy_none _ _ _ h
  | none =>
    rw [if_neg (by simp)]
    rw [docUsed_eq_fetch_none hg] at hdoc
    dsimp only
    split
    · exact ingestShardDocument_metaBy_none _ _ _ h hdoc
    · exact evictBucketEntries_metaBy_none _ _ _ h

theorem ensureShardLoadedC_keyed (c : Cache) (w : MetaWorld) (b : String)
    (h : MetaByKeyed w.idx) : MetaByKeyed (ensureShardLoadedC c w b).2.2.idx := by
  unfold ensureShardLoadedC
  dsimp only
  cases hg : c.shards.get (sanitizeBucket b) with
  | some sh =>
    rw [Option.getD_some]
    by_cases hl : sh.loaded = true ∧ sh.doc.isSome = true
    · rw [if_pos hl]
      exact h
    · rw [if_neg hl]
      dsimp only
      split
      · exact ingestShardDocument_keyed _ _ h
      · exact evictBucketEntries_keyed _ _ h
  | none =>
    rw [if_neg (by simp)]
    dsimp only
    split
    · exact ingestShardDocument_keyed _ _ h
    · exact evictBucketEntries_keyed _ _ h

/-! ## Success characterizations of the remote shard operations -/

theorem octoDeleteFile_ok {r : Remote} {path : String} {sha : Nat} {r' : Remote}
    (h : octoDeleteFile r path sha = Except.ok r') :
    r' = { r with files := r.files.del path } := by
  unfold octoDeleteFile at h
  split at h
  · split at h
    · injection h with h'
      exact h'.symm
    · cases h
  · cases h

theorem persistShard_ok_more {w : MetaWorld} {sh sh' : ShardCacheEntry}
    {w' : MetaWorld} (h : persistShard w sh = Except.ok (sh', w')) :
    sh'.bucket = sh.bucket ∧
      sh'.count = ((sh.doc.getD (makeEmptyShard sh.bucket w.now)).entries.length : Int) ∧
      w'.idx = w.idx ∧
      w'.events = w.events ++ [MetaEvent.putShard sh.bucket sh.path
        ((sh.doc.getD (makeEmptyShard sh.bucket w.now)).entries.length : Int)] := by
  unfold persistShard at h
  dsimp only at h
  split at h
  · cases h
  · simp only [Except.ok.injEq, Prod.mk.injEq] at h
    obtain ⟨hsh', hw'⟩ := h
    subst hsh'
    subst hw'
    exact ⟨rfl, rfl, rfl, rfl⟩

theorem deleteShardFile_ok_spec {w : MetaWorld} {sh : ShardCacheEntry}
    {w' : MetaWorld} (h : deleteShardFile w sh = Except.ok w') :
    w'.idx = w.idx ∧ w'.now = w.now ∧
      ((sh.sha = none ∧ w' = w) ∨
        (w'.events = w.events ++ [MetaEvent.delShard sh.bucket sh.path] ∧
          ∀ p, p ≠ sh.path → w'.remote.files.get p = w.remote.files.get p)) := by
  unfold deleteShardFile at h
  split at h
  · next hsha =>
    injection h with h'
    subst h'
    exact ⟨rfl, rfl, Or.inl ⟨hsha, rfl⟩⟩
  · next sha hsha =>
    split at h
    · cases h
    · next r' hdel =>
      injection h with h'
      subst h'
      have hr' := octoDeleteFile_ok hdel
      refine ⟨rfl, rfl, Or.inr ⟨rfl, fun p hp => ?_⟩⟩
      dsimp only
      rw [hr']
      exact JsMap.get_del_ne _ _ _ (fun he => hp he.symm)

theorem writeManifest_ok_more {w : MetaWorld} {m : MetaManifest} {sha : Option Nat}
    {s' : Option Nat} {w' : MetaWorld}
    (h : writeManifest w m sha = Except.ok (s', w')) :
    w'.idx = w.idx ∧ w'.events = w.events ++ [MetaEvent.putManifest] := by
  unfold writeManifest at h
  dsimp only at h
  split at h
  · cases h
  · simp only [Except.ok.injEq, Prod.mk.injEq] at h
    obtain ⟨hs', hw'⟩ := h
    subst hw'
    exact ⟨rfl, rfl⟩

theorem pathOf_ne_manifest (c : Cache) (b : String) (hwf : CacheWF c) :
    pathOf c b ≠ META_MANIFEST_PATH := by
  unfold pathOf
  cases hg : c.shards.get b with
  | none => exact getShardPath_ne_manifest b
  | some sh => exact hwf.1 (b, sh) (JsMap.get_mem _ _ _ hg)

/-- The full effect of one `removeMetaEntries` group iteration, given
the group side conditions: the group's fingerprints become
unresolvable and no other fingerprint of the run becomes resolvable,
the worked bucket's manifest row matches the shard write the iteration
performed (a PUT always carries at least one entry; a delete removes
the row), and everything else — cache rows, remote paths, manifest
rows of other buckets — is left alone. -/
theorem removeGroup_spec {fps : List String} {c : Cache} {w : MetaWorld} {b : String}
    {l : List String} {dirty : Bool} {c' : Cache} {w' : MetaWorld} {dirty' : Bool}
    (hok : removeGroup c w b l dirty = Except.ok (c', w', dirty'))
    (hsan : sanitizeBucket b = b) (hwf : CacheWF c) (hlab : LabeledCache c)
    (hkeyed : MetaByKeyed w.idx)
    (hdocKeys : ∀ fp ∈ fps, (((docUsed c w b).entries.get fp).isSome : Prop) → fp ∈ l)
    (hdocPaths : ∀ e ∈ (docUsed c w b).entries, ∀ fp ∈ fps,
      e.2.repoPath ≠ fp ∧ e.2.previewRepoPath ≠ some fp)
    (hsub : ∀ fp ∈ l, fp ∈ fps)
    (hclean : ∀ fp ∈ fps, w.idx.pathToFingerprint.get fp = none)
    (hpend : ∀ fp ∈ l, w.idx.metaByFingerprint.get fp ≠ none →
      (((docUsed c w b).entries.get fp).isSome : Prop)) :
    (∀ fp ∈ l, w'.idx.metaByFingerprint.get fp = none) ∧
      (∀ fp ∈ fps, w.idx.metaByFingerprint.get fp = none →
        w'.idx.metaByFingerprint.get fp = none) ∧
      (∀ fp ∈ fps, w'.idx.pathToFingerprint.get fp = none) ∧
      MetaByKeyed w'.idx ∧
      CacheWF c' ∧ LabeledCache c' ∧
      (∀ k, k ≠ b → c'.shards.get k = c.shards.get k) ∧
      (∀ sh' d, c'.shards.get b = some sh' → sh'.doc = some d →
        ∀ fp ∈ l, d.entries.get fp = none) ∧
      w'.now = w.now ∧
      (∀ p, p ≠ pathOf c b → w'.remote.files.get p = w.remote.files.get p) ∧
      (∀ k, k ≠ b → c'.manifest.shards.get k = c.manifest.shards.get k) ∧
      ∃ extra, w'.events = w.events ++ extra ∧
        (∀ ev ∈ extra, (∃ cnt, ev = MetaEvent.putShard b (pathOf c b) cnt ∧ 1 ≤ cnt) ∨
          ev = MetaEvent.delShard b (pathOf c b)) ∧
        ((∃ p cnt, MetaEvent.putShard b p cnt ∈ extra) →
          ∃ info, c'.manifest.shards.get b = some info ∧ 1 ≤ info.count) ∧
        ((∃ p, MetaEvent.delShard b p ∈ extra) → c'.manifest.shards.get b = none) := by
  obtain ⟨⟨shard, c1, w1⟩, hE⟩ : ∃ t, ensureShardLoadedC c w b = t := ⟨_, rfl⟩
  have hdocE : shard.doc = some (docUsed c w b) := by
    have h := ensureShardLoadedC_doc c w b
    rw [hE, hsan] at h
    exact h
  have hbkt : shard.bucket = b := by
    have h := ensureShardLoadedC_bucket c w b hlab
    rw [hE, hsan] at h
    exact h
  have hpath : shard.path = pathOf c b := by
    have h := ensureShardLoadedC_path_pathOf c w b
    rw [hE, hsan] at h
    exact h
  have hrem : w1.remote = w.remote ∧ w1.now = w.now ∧ w1.events = w.events := by
    have h := ensureShardLoadedC_frame c w b
    rw [hE] at h
    exact h
  have hc1wf : CacheWF c1 := by
    have h := ensureShardLoadedC_cache_wf c w b hwf
    rw [hE] at h
    exact h
  have hc1lab : LabeledCache c1 := by
    have h := ensureShardLoadedC_labeled c w b hlab
    rw [hE] at h
    exact h
  have hc1frame : ∀ k, k ≠ b → c1.shards.get k = c.shards.get k := by
    intro k hk
    have h := ensureShardLoadedC_shards_frame c w b k (by rw [hsan]; exact hk)
    rw [hE] at h
    exact h
  have hc1rows : ∀ k, k ≠ b → c1.manifest.shards.get k = c.manifest.shards.get k := by
    intro k hk
    have h := ensureShardLoadedC_rows_frame c w b k (by rw [hsan]; exact hk)
    rw [hE] at h
    exact h
  have hw1keyed : MetaByKeyed w1.idx := by
    have h := ensureShardLoadedC_keyed c w b hkeyed
    rw [hE] at h
    exact h
  have hw1path : ∀ fp ∈ fps, w1.idx.pathToFingerprint.get fp = none := by
    intro fp hfp
    have h := ensureShardLoadedC_pathToFp_none c w b fp (hclean fp hfp)
      (by rw [hsan]; exact fun e he => hdocPaths e he fp hfp)
    rw [hE] at h
    exact h
  have hw1metaNone : ∀ fp, w.idx.metaByFingerprint.get fp = none →
      (∀ e ∈ (docUsed c w b).entries, e.2.fingerprint ≠ fp) →
      w1.idx.metaByFingerprint.get fp = none := by
    intro fp h0 hd
    have h := ensureShardLoadedC_metaBy_none c w b fp h0 (by rw [hsan]; exact hd)
    rw [hE] at h
    exact h
  have hDwf := docUsed_wf c w b hwf
  unfold removeGroup at hok
  rw [hsan] at hok
  rw [hE] at hok
  dsimp only at hok
  rw [hdocE] at hok
  dsimp only at hok
  obtain ⟨⟨doc1, idx1, changed⟩, hFeq⟩ :
      ∃ t, l.foldl removeStep (docUsed c w b, w1.idx, false) = t := ⟨_, rfl⟩
  rw [hFeq] at hok
  dsimp only at hok
  have hidx1A : ∀ fp ∈ l, idx1.metaByFingerprint.get fp = none := by
    intro fp hfp
    by_cases hD : (((docUsed c w b).entries.get fp).isSome : Prop)
    · have h := foldStep_clears l (docUsed c w b) w1.idx false fp hfp hD
      rw [hFeq] at h
      exact h
    · have hDn : (docUsed c w b).entries.get fp = none :=
        Option.not_isSome_iff_eq_none.mp hD
      have hw0 : w.idx.metaByFingerprint.get fp = none := by
        by_contra hne
        exact hD (hpend fp hfp hne)
      have hw1n := hw1metaNone fp hw0 (no_field_of_get_none hDwf.1 hDwf.2 hDn)
      have h := foldStep_metaBy_none l (docUsed c w b) w1.idx false fp hw1n
      rw [hFeq] at h
      exact h
  have hidx1B : ∀ fp ∈ fps, w.idx.metaByFingerprint.get fp = none →
      idx1.metaByFingerprint.get fp = none := by
    intro fp hfp h0
    by_cases hD : (((docUsed c w b).entries.get fp).isSome : Prop)
    · have h := foldStep_clears l (docUsed c w b) w1.idx false fp (hdocKeys fp hfp hD) hD
      rw [hFeq] at h
      exact h
    · have hDn : (docUsed c w b).entries.get fp = none :=
        Option.not_isSome_iff_eq_none.mp hD
      have hw1n := hw1metaNone fp h0 (no_field_of_get_none hDwf.1 hDwf.2 hDn)
      have h := foldStep_metaBy_none l (docUsed c w b) w1.idx false fp hw1n
      rw [hFeq] at h
      exact h
  have hidx1C : ∀ fp ∈ fps, idx1.pathToFingerprint.get fp = none := by
    intro fp hfp
    have h := foldStep_pathToFp_none l (docUsed c w b) w1.idx false fp (hw1path fp hfp)
    rw [hFeq] at h
    exact h
  have hidx1D : MetaByKeyed idx1 := by
    have h := foldStep_keyed l (docUsed c w b) w1.idx false hw1keyed
    rw [hFeq] at h
    exact h
  have hdoc1mem : ∀ kv ∈ doc1.entries, kv ∈ (docUsed c w b).entries := by
    intro kv hkv
    have h := foldStep_doc_mem l (docUsed c w b) w1.idx false kv
    rw [hFeq] at h
    exact h hkv
  have hdoc1nodup : doc1.entries.keys.Nodup := by
    have h := foldStep_doc_nodup l (docUsed c w b) w1.idx false hDwf.2
    rw [hFeq] at h
    exact h
  have hdoc1nf : ∀ e ∈ doc1.entries, e.2.fingerprint = e.1 := by
    intro e he
    exact hDwf.1 e (hdoc1mem e he)
  have hdoc1clears : ∀ fp ∈ l, doc1.entries.get fp = none := by
    intro fp hfp
    have h := foldStep_doc_clears l (docUsed c w b) w1.idx false fp hfp
    rw [hFeq] at h
    exact h
  have hdoc1noFps : ∀ fp ∈ fps, ∀ e ∈ doc1.entries, e.2.fingerprint ≠ fp := by
    intro fp hfp e he hfield
    have hkey : e.1 = fp := (hdoc1nf e he) ▸ hfield
    have hgetSome := JsMap.get_of_mem_nodup doc1.entries e hdoc1nodup he
    by_cases hl' : fp ∈ l
    · have := hdoc1clears fp hl'
      rw [hkey] at hgetSome
      rw [this] at hgetSome
      cases hgetSome
    · have hmemD := hdoc1mem e he
      have hDget := JsMap.get_of_mem_nodup _ e hDwf.2 hmemD
      have : (((docUsed c w b).entries.get fp).isSome : Prop) := by
        rw [← hkey, hDget]
        rfl
      exact hl' (hdocKeys fp hfp this)
  have hdoc1paths : ∀ e ∈ doc1.entries, ∀ fp ∈ fps,
      e.2.repoPath ≠ fp ∧ e.2.previewRepoPath ≠ some fp := by
    intro e he fp hfp
    exact hdocPaths e (hdoc1mem e he) fp hfp
  cases changed with
  | false =>
    rw [if_pos (by simp)] at hok
    simp only [Except.ok.injEq, Prod.mk.injEq] at hok
    obtain ⟨hc', hw', hd'⟩ := hok
    subst hc'
    subst hw'
    refine ⟨fun fp hfp => hidx1A fp hfp, fun fp hfp h0 => hidx1B fp hfp h0,
      fun fp hfp => hidx1C fp hfp, hidx1D, hc1wf, hc1lab,
      fun k hk => hc1frame k hk, ?_, hrem.2.1, ?_, fun k hk => hc1rows k hk, ?_⟩
    · intro sh' d hget hdoc fp hfp
      have hself := ensureShardLoadedC_shards_self c w b
      rw [hE] at hself
      rw [hsan] at hself
      dsimp only at hself
      rw [hself] at hget
      injection hget with hsh'
      rw [← hsh'] at hdoc
      rw [hdocE] at hdoc
      injection hdoc with hd'
      rw [← hd']
      have hunch := foldStep_unchanged l (docUsed c w b) w1.idx (by rw [hFeq])
      exact hunch.2 fp hfp
    · intro p hp
      rw [hrem.1]
    · refine ⟨[], by rw [List.append_nil]; exact hrem.2.2, ?_, ?_, ?_⟩
      · intro ev hev
        cases hev
      · intro ⟨p, cnt, hmem⟩
        cases hmem
      · intro ⟨p, hmem⟩
        cases hmem
  | true =>
    rw [if_neg (by simp)] at hok
    by_cases hlen : ((doc1.entries.length : Int) = 0)
    · rw [if_pos hlen] at hok
      cases hdel : deleteShardFile { w1 with idx := idx1 }
          ⟨shard.bucket, shard.path, shard.sha, (doc1.entries.length : Int), w1.now,
            some { doc1 with generatedAt := w1.now }, shard.loaded⟩ with
      | error e =>
        rw [hdel] at hok
        cases hok
      | ok w3 =>
        rw [hdel] at hok
        simp only [Except.ok.injEq, Prod.mk.injEq] at hok
        obtain ⟨hc', hw', hd'⟩ := hok
        subst hc'
        subst hw'
        obtain ⟨hidx3, hnow3, hcase⟩ := deleteShardFile_ok_spec hdel
        refine ⟨?_, ?_, ?_, ?_, ?_, ?_, ?_, ?_, ?_, ?_, ?_, ?_⟩
        · intro fp hfp
          exact evictBucketEntries_metaBy_none _ _ _ (by rw [hidx3]; exact hidx1A fp hfp)
        · intro fp hfp h0
          exact evictBucketEntries_metaBy_none _ _ _
            (by rw [hidx3]; exact hidx1B fp hfp h0)
        · intro fp hfp
          exact evictBucketEntries_pathToFp_none _ _ _
            (by rw [hidx3]; exact hidx1C fp hfp)
        · exact evictBucketEntries_keyed _ _ (by rw [hidx3]; exact hidx1D)
        · constructor
          · intro kv hkv
            rw [markManifestEntry_shards] at hkv
            dsimp only at hkv
            exact hc1wf.1 kv (JsMap.mem_del_sub _ _ _ hkv)
          · intro kv hkv d hd
            rw [markManifestEntry_shards] at hkv
            dsimp only at hkv
            exact hc1wf.2 kv (JsMap.mem_del_sub _ _ _ hkv) d hd
        · intro k sh' hk
          rw [markManifestEntry_shards] at hk
          dsimp only at hk
          exact hc1lab k sh' (JsMap.get_del_some _ _ _ _ hk)
        · intro k hk
          rw [markManifestEntry_shards]
          dsimp only
          rw [JsMap.get_del_ne _ _ _ (fun he => hk he.symm)]
          exact hc1frame k hk
        · intro sh' d hget hdoc fp hfp
          rw [markManifestEntry_shards] at hget
          dsimp only at hget
          rw [JsMap.get_del_self] at hget
          cases hget
        · rw [hnow3]
          exact hrem.2.1
        · intro p hp
          rcases hcase with ⟨hsha, hww⟩ | ⟨hev, hframe⟩
          · rw [hww]
            dsimp only
            rw [hrem.1]
          · rw [hframe p (by rw [hpath]; exact hp)]
            dsimp only
            rw [hrem.1]
        · intro k hk
          rw [markManifestEntry_rows_frame _ _ _ _ hk]
          exact hc1rows k hk
        · rcases hcase with ⟨hsha, hww⟩ | ⟨hev, hframe⟩
          · refine ⟨[], ?_, ?_, ?_, ?_⟩
            · rw [List.append_nil, hww]
              dsimp only
              exact hrem.2.2
            · intro ev hev
              cases hev
            · intro ⟨p, cnt, hmem⟩
              cases hmem
            · intro ⟨p, hmem⟩
              cases hmem
          · refine ⟨[MetaEvent.delShard b (pathOf c b)], ?_, ?_, ?_, ?_⟩
            · rw [hev]
              dsimp only
              rw [hrem.2.2, hbkt, hpath]
            · intro ev hev'
              rcases List.mem_singleton.mp hev' with rfl
              exact Or.inr rfl
            · intro ⟨p, cnt, hmem⟩
              rcases List.mem_singleton.mp hmem with h
              cases h
            · intro ⟨p, hmem⟩
              exact markManifestEntry_row_del _ _
    · rw [if_neg hlen] at hok
      cases hpersist : persistShard { w1 with idx := idx1 }
          ⟨shard.bucket, shard.path, shard.sha, (doc1.entries.length : Int), w1.now,
            some { doc1 with generatedAt := w1.now }, shard.loaded⟩ with
      | error e =>
        rw [hpersist] at hok
        cases hok
      | ok r =>
        obtain ⟨shard2, w3⟩ := r
        rw [hpersist] at hok
        simp only [Except.ok.injEq, Prod.mk.injEq] at hok
        obtain ⟨hc', hw', hd'⟩ := hok
        subst hc'
        subst hw'
        obtain ⟨hpath2, hdoc2, hfile2, hnow2, hframe2⟩ := persistShard_ok_spec hpersist
        obtain ⟨hbkt2, hcount2, hidx2, hev2⟩ := persistShard_ok_more hpersist
        have hlen1 : 1 ≤ (doc1.entries.length : Int) := by
          have : doc1.entries.length ≠ 0 := by
            intro h0
            exact hlen (by rw [h0]; rfl)
          omega
        refine ⟨?_, ?_, ?_, ?_, ?_, ?_, ?_, ?_, ?_, ?_, ?_, ?_⟩
        · intro fp hfp
          refine ingestShardDocument_metaBy_none _ _ _
            (by rw [hidx2]; exact hidx1A fp hfp) ?_
          rw [hdoc2]
          dsimp only
          exact fun e he => hdoc1noFps fp (hsub fp hfp) e he
        · intro fp hfp h0
          refine ingestShardDocument_metaBy_none _ _ _
            (by rw [hidx2]; exact hidx1B fp hfp h0) ?_
          rw [hdoc2]
          dsimp only
          exact fun e he => hdoc1noFps fp hfp e he
        · intro fp hfp
          refine ingestShardDocument_pathToFp_none _ _ _
            (by rw [hidx2]; exact hidx1C fp hfp) ?_
          rw [hdoc2]
          dsimp only
          exact fun e he => hdoc1paths e he fp hfp
        · exact ingestShardDocument_keyed _ _ (by rw [hidx2]; exact hidx1D)
        · constructor
          · intro kv hkv
            rw [markManifestEntry_shards] at hkv
            dsimp only at hkv
            rcases JsMap.mem_set_elim _ _ _ _ hkv with hkv' | hnew
            · rcases JsMap.mem_set_elim _ _ _ _ hkv' with hold | h1
              · exact hc1wf.1 kv hold
              · rw [h1]
                dsimp only
                rw [hpath]
                exact pathOf_ne_manifest c b hwf
            · rw [hnew]
              dsimp only
              rw [hpath2]
              dsimp only
              rw [hpath]
              exact pathOf_ne_manifest c b hwf
          · intro kv hkv d hd
            rw [markManifestEntry_shards] at hkv
            dsimp only at hkv
            rcases JsMap.mem_set_elim _ _ _ _ hkv with hkv' | hnew
            · rcases JsMap.mem_set_elim _ _ _ _ hkv' with hold | h1
              · exact hc1wf.2 kv hold d hd
              · rw [h1] at hd
                dsimp only at hd
                injection hd with hd'
                subst hd'
                exact ⟨hdoc1nf, hdoc1nodup⟩
            · rw [hnew] at hd
              dsimp only at hd
              rw [hdoc2] at hd
              injection hd with hd'
              subst hd'
              exact ⟨hdoc1nf, hdoc1nodup⟩
        · intro k sh' hk
          rw [markManifestEntry_shards] at hk
          dsimp only at hk
          by_cases hke : k = b
          · subst hke
            rw [JsMap.get_set_self] at hk
            injection hk with hk'
            rw [← hk', hbkt2]
            dsimp only
            exact hbkt
          · rw [JsMap.get_set_ne _ _ _ _ (fun he => hke he.symm)] at hk
            rw [JsMap.get_set_ne _ _ _ _ (fun he => hke he.symm)] at hk
            exact hc1lab k sh' hk
        · intro k hk
          rw [markManifestEntry_shards]
          dsimp only
          rw [JsMap.get_set_ne _ _ _ _ (fun he => hk he.symm)]
          rw [JsMap.get_set_ne _ _ _ _ (fun he => hk he.symm)]
          exact hc1frame k hk
        · intro sh' d hget hdoc fp hfp
          rw [markManifestEntry_shards] at hget
          dsimp only at hget
          rw [JsMap.get_set_self] at hget
          injection hget with hsh'
          rw [← hsh'] at hdoc
          rw [hdoc2] at hdoc
          injection hdoc with hd'
          rw [← hd']
          dsimp only
          rw [Option.getD_some]
          dsimp only
          exact hdoc1clears fp hfp
        · rw [hnow2]
          exact hrem.2.1
        · intro p hp
          rw [hframe2 p (by rw [hpath]; exact hp)]
          dsimp only
          rw [hrem.1]
        · intro k hk
          rw [markManifestEntry_rows_frame _ _ _ _ hk]
          dsimp only
          exact hc1rows k hk
        · refine ⟨[MetaEvent.putShard b (pathOf c b) (doc1.entries.length : Int)],
            ?_, ?_, ?_, ?_⟩
          · rw [hev2]
            dsimp only
            rw [hrem.2.2, hbkt, hpath]
            rfl
          · intro ev hev'
            rcases List.mem_singleton.mp hev' with rfl
            exact Or.inl ⟨(doc1.entries.length : Int), rfl, hlen1⟩
          · intro ⟨p, cnt, hmem⟩
            refine ⟨⟨shard2.path, shard2.count, shard2.updatedAt, shard2.sha⟩,
              markManifestEntry_row_set _ _ _, ?_⟩
            rw [hcount2]
            dsimp only
            exact hlen1
          · intro ⟨p, hmem⟩
            rcases List.mem_singleton.mp hmem with h
            cases h

theorem pathOf_congr {c c' : Cache} {k : String}
    (hsh : c'.shards.get k = c.shards.get k) : pathOf c' k = pathOf c k := by
  unfold pathOf
  rw [hsh]

theorem fetchShardDocument_congr {r r' : Remote} {b p : String} {now : Int}
    (hfile : r'.files.get p = r.files.get p) :
    fetchShardDocument r' b p now = fetchShardDocument r b p now := by
  unfold fetchShardDocument
  rw [hfile]

theorem docUsed_congr {c c' : Cache} {w w' : MetaWorld} {k : String}
    (hsh : c'.shards.get k = c.shards.get k)
    (hfile : w'.remote.files.get (pathOf c k) = w.remote.files.get (pathOf c k))
    (hnow : w'.now = w.now) : docUsed c' w' k = docUsed c w k := by
  unfold docUsed
  rw [hsh, hnow]
  cases hg : c.shards.get k with
  | none =>
    dsimp only
    rw [Option.getD_none]
    have hfile' : w'.remote.files.get (getShardPath k) =
        w.remote.files.get (getShardPath k) := by
      unfold pathOf at hfile
      rw [hg] at hfile
      exact hfile
    rw [fetchShardDocument_congr hfile']
  | some sh =>
    dsimp only
    rw [Option.getD_some]
    have hfile' : w'.remote.files.get sh.path = w.remote.files.get sh.path := by
      unfold pathOf at hfile
      rw [hg] at hfile
      exact hfile
    rw [fetchShardDocument_congr hfile']

/-- The `removeMetaEntries` group loop: under the loop invariant, every
fingerprint of the run ends up unresolvable, every shard PUT the loop
issues carries at least one entry and leaves a matching manifest row,
every shard delete removes the bucket's row, and manifest rows of
untouched buckets survive. -/
theorem removeGroups_spec (fps : List String) :
    ∀ (groups : List (String × List String)) (c : Cache) (w : MetaWorld)
      (dirty : Bool) (c' : Cache) (w' : MetaWorld) (dirty' : Bool),
      removeGroups c w groups dirty = Except.ok (c', w', dirty') →
      RemoveInv fps c w groups →
      (∀ fp ∈ fps, w'.idx.metaByFingerprint.get fp = none ∧
        w'.idx.pathToFingerprint.get fp = none) ∧
      MetaByKeyed w'.idx ∧
      (∀ k, k ∉ groups.map Prod.fst →
        c'.manifest.shards.get k = c.manifest.shards.get k) ∧
      (∀ k, k ∉ groups.map Prod.fst → c'.shards.get k = c.shards.get k) ∧
      (∀ g ∈ groups, ∀ sh d, c'.shards.get g.1 = some sh → sh.doc = some d →
        ∀ fp ∈ g.2, d.entries.get fp = none) ∧
      ∃ extra, w'.events = w.events ++ extra ∧
        (∀ b p cnt, MetaEvent.putShard b p cnt ∈ extra → 1 ≤ cnt ∧
          ∃ info, c'.manifest.shards.get b = some info ∧ 1 ≤ info.count) ∧
        (∀ b p, MetaEvent.delShard b p ∈ extra → c'.manifest.shards.get b = none) := by
  intro groups
  induction groups with
  | nil =>
    intro c w dirty c' w' dirty' hok hinv
    simp only [removeGroups, Except.ok.injEq, Prod.mk.injEq] at hok
    obtain ⟨hc', hw', hd'⟩ := hok
    subst hc'
    subst hw'
    refine ⟨?_, hinv.keyed, fun k _ => rfl, fun k _ => rfl,
      fun g hg => absurd hg (List.not_mem_nil g), [], (List.append_nil _).symm, ?_, ?_⟩
    · intro fp hfp
      refine ⟨?_, hinv.pathsClean fp hfp⟩
      by_contra hne
      obtain ⟨g, hg, -⟩ := hinv.pending fp hfp hne
      cases hg
    · intro b p cnt hmem
      cases hmem
    · intro b p hmem
      cases hmem
  | cons g rest ih =>
    intro c w dirty c' w' dirty' hok hinv
    obtain ⟨b, l⟩ := g
    simp only [removeGroups] at hok
    cases hRG : removeGroup c w b l dirty with
    | error e =>
      rw [hRG] at hok
      cases hok
    | ok t =>
      obtain ⟨c₁, w₁, d₁⟩ := t
      rw [hRG] at hok
      have hgwf := hinv.gwf (b, l) (List.mem_cons_self _ _)
      have hbNotRest : b ∉ rest.map Prod.fst := by
        have h := hinv.keysNodup
        rw [List.map_cons, List.nodup_cons] at h
        exact h.1
      have hKeyNe : ∀ g' ∈ rest, g'.1 ≠ b := by
        intro g' hg' he
        exact hbNotRest (he ▸ List.mem_map_of_mem Prod.fst hg')
      have hpendHead : ∀ fp ∈ l, w.idx.metaByFingerprint.get fp ≠ none →
          (((docUsed c w b).entries.get fp).isSome : Prop) := by
        intro fp hfp hne
        obtain ⟨g'', hg''mem, hfp'', hdoc''⟩ :=
          hinv.pending fp (hgwf.sub fp hfp) hne
        have : (b, l) = g'' :=
          hinv.listsDisj (b, l) (List.mem_cons_self _ _) g'' hg''mem fp hfp hfp''
        rw [← this] at hdoc''
        exact hdoc''
      obtain ⟨hA, hB, hC, hD, hEwf, hElab, hF, hFdoc, hGnow, hGfiles, hH, extraH, hHev,
          hHkinds, hHput, hHdel⟩ :=
        removeGroup_spec hRG hgwf.keySan hinv.wf hinv.labeled hinv.keyed
          hgwf.docKeys hgwf.docPaths hgwf.sub hinv.pathsClean hpendHead
      have hDocCongr : ∀ g' ∈ rest, docUsed c₁ w₁ g'.1 = docUsed c w g'.1 := by
        intro g' hg'
        refine docUsed_congr (hF g'.1 (hKeyNe g' hg')) ?_ hGnow
        refine hGfiles _ ?_
        exact hinv.pathsDisj g' (List.mem_cons_of_mem _ hg') (b, l)
          (List.mem_cons_self _ _) (hKeyNe g' hg')
      have hinv' : RemoveInv fps c₁ w₁ rest := by
        refine ⟨hEwf, hElab, hD, ?_, ?_, ?_, ?_, ?_, ?_⟩
        · have h := hinv.keysNodup
          rw [List.map_cons, List.nodup_cons] at h
          exact h.2
        · intro g' hg'
          have hg := hinv.gwf g' (List.mem_cons_of_mem _ hg')
          refine ⟨hg.keySan, hg.sub, ?_, ?_⟩
          · rw [hDocCongr g' hg']
            exact hg.docKeys
          · rw [hDocCongr g' hg']
            exact hg.docPaths
        · intro g₁ h₁ g₂ h₂ fp hfp₁ hfp₂
          exact hinv.listsDisj g₁ (List.mem_cons_of_mem _ h₁) g₂
            (List.mem_cons_of_mem _ h₂) fp hfp₁ hfp₂
        · intro g₁ h₁ g₂ h₂ hne
          rw [pathOf_congr (hF g₁.1 (hKeyNe g₁ h₁)),
            pathOf_congr (hF g₂.1 (hKeyNe g₂ h₂))]
          exact hinv.pathsDisj g₁ (List.mem_cons_of_mem _ h₁) g₂
            (List.mem_cons_of_mem _ h₂) hne
        · exact hC
        · intro fp hfp hne
          have h0 : w.idx.metaByFingerprint.get fp ≠ none := by
            intro h0
            exact hne (hB fp hfp h0)
          obtain ⟨g'', hg''mem, hfp'', hdoc''⟩ := hinv.pending fp hfp h0
          rcases List.mem_cons.mp hg''mem with rfl | hg''rest
          · exact absurd (hA fp hfp'') hne
          · refine ⟨g'', hg''rest, hfp'', ?_⟩
            rw [hDocCongr g'' hg''rest]
            exact hdoc''
      obtain ⟨hP1, hP2, hP3, hP4, hP5, extraR, hRev, hRput, hRdel⟩ :=
        ih c₁ w₁ d₁ c' w' dirty' hok hinv'
      refine ⟨hP1, hP2, ?_, ?_, ?_, extraH ++ extraR, ?_, ?_, ?_⟩
      · intro k hk
        rw [List.map_cons, List.mem_cons] at hk
        push_neg at hk
        rw [hP3 k hk.2]
        exact hH k hk.1
      · intro k hk
        rw [List.map_cons, List.mem_cons] at hk
        push_neg at hk
        rw [hP4 k hk.2]
        exact hF k hk.1
      · intro g hg sh d hget hdoc fp hfp
        rcases List.mem_cons.mp hg with rfl | hgrest
        · dsimp only at hget hfp
          rw [hP4 b hbNotRest] at hget
          exact hFdoc sh d hget hdoc fp hfp
        · exact hP5 g hgrest sh d hget hdoc fp hfp
      · rw [hRev, hHev, List.append_assoc]
      · intro b₀ p cnt hmem
        rcases List.mem_append.mp hmem with hmemH | hmemR
        · rcases hHkinds _ hmemH with ⟨cnt', hev, hcnt'⟩ | hev
          · injection hev with hb₀ hp hcnt
            rw [hb₀] at hmemH ⊢
            refine ⟨by rw [hcnt]; exact hcnt', ?_⟩
            obtain ⟨info, hinfo, hinfoCnt⟩ := hHput ⟨p, cnt, hmemH⟩
            refine ⟨info, ?_, hinfoCnt⟩
            rw [hP3 b hbNotRest]
            exact hinfo
          · cases hev
        · exact hRput b₀ p cnt hmemR
      · intro b₀ p hmem
        rcases List.mem_append.mp hmem with hmemH | hmemR
        · rcases hHkinds _ hmemH with ⟨cnt', hev, hcnt'⟩ | hev
          · cases hev
          · injection hev with hb₀ hp
            rw [hb₀] at hmemH ⊢
            rw [hP3 b hbNotRest]
            exact hHdel ⟨p, hmemH⟩
        · exact hRdel b₀ p hmemR

/-! ## Claim C6 — fingerprint determinism and injectivity -/

/-- Claim C6 is false as stated: an asset with an empty filename and id
`7` collides with an asset named `asset-7`; their raw triples differ in
the filename yet the fingerprints agree. -/
theorem claim_C6_counterexample : ¬fingerprintClaimC6 := by
  intro h
  have h2 := (h { id := "7", filename := "", creationTime := some 1,
                  modificationTime := none, fileSize := some 2 }
                { id := "7", filename := "asset-7", creationTime := some 1,
                  modificationTime := none, fileSize := some 2 }).2
  exact h2 (Or.inl (by decide)) (by decide)

/-- Claim C6 (amended): `makeFingerprint` is determined by, and
injective in, the resolved inputs actually fed into the composite key:
the effective filename (empty filename falls back to `asset-` ++ id),
the effective timestamp (`creationTime ?? modificationTime ?? 0`) and
the effective file size (`fileSize ?? 0`). Equal resolved triples give
equal fingerprints, and distinct resolved triples give distinct
fingerprints. -/
theorem claim_C6 (a b : Asset) :
    makeFingerprint a = makeFingerprint b ↔
      effectiveFilename a = effectiveFilename b ∧
      effectiveCreatedAt a = effectiveCreatedAt b ∧
      effectiveFileSize a = effectiveFileSize b := by
  constructor
  · intro h
    have hd := congrArg String.data h
    simp only [makeFingerprint, String.data_append, List.append_assoc] at hd
    simp only [show ("|" : String).data = ['|'] from rfl, List.singleton_append] at hd
    have hre : ∀ (f t s : List Char), f ++ '|' :: (t ++ '|' :: s) = (f ++ '|' :: t) ++ '|' :: s := by
      intro f t s
      simp
    rw [hre, hre] at hd
    obtain ⟨h1, h2⟩ := append_eq_of_last_occ _ _ _ _ (pipe_not_mem_intToString _)
      (pipe_not_mem_intToString _) hd
    obtain ⟨h3, h4⟩ := append_eq_of_last_occ _ _ _ _ (pipe_not_mem_intToString _)
      (pipe_not_mem_intToString _) h1
    exact ⟨String.ext h3, intToString_injective (String.ext h4),
      intToString_injective (String.ext h2)⟩
  · rintro ⟨h1, h2, h3⟩
    unfold makeFingerprint
    rw [h1, h2, h3]

/-! ## Claim C10 — `putFile` without an explicit SHA -/

/-- Claim C10: a `putFile` with no `expectedSha` first reads the
path's current SHA and writes conditionally on it, so in the absence
of interleaved writers it always succeeds and replaces whatever
content is at the path (also when the path does not exist yet); the
conditional-write protection bites only when the caller passes a SHA
explicitly, in which case a stale SHA yields `VersionConflict`. -/
theorem claim_C10 (r : Remote) (path content : String) :
    (∃ sha' r', putFile r path content none = Except.ok (sha', r') ∧
      ∃ f, r'.files.get path = some f ∧ f.content = RemoteContent.blob content) ∧
    (∀ s f, r.files.get path = some f → s ≠ f.sha →
      putFile r path content (some s) = Except.error GhError.versionConflict) := by
  constructor
  · cases hf : r.files.get path with
    | none =>
      refine ⟨r.nextSha,
        { files := r.files.set path ⟨r.nextSha, RemoteContent.blob content⟩,
          nextSha := r.nextSha + 1 }, ?_, ?_⟩
      · simp [putFile, fetchFileSha, octoCreateOrUpdate, hf]
      · exact ⟨⟨r.nextSha, RemoteContent.blob content⟩, JsMap.get_set_self _ _ _, rfl⟩
    | some f =>
      refine ⟨r.nextSha,
        { files := r.files.set path ⟨r.nextSha, RemoteContent.blob content⟩,
          nextSha := r.nextSha + 1 }, ?_, ?_⟩
      · simp [putFile, fetchFileSha, octoCreateOrUpdate, hf]
      · exact ⟨⟨r.nextSha, RemoteContent.blob content⟩, JsMap.get_set_self _ _ _, rfl⟩
  · intro s f hf hs
    have : (some s = some f.sha) = False := by simp [hs]
    simp [putFile, octoCreateOrUpdate, hf, this]

/-- Witness for C10's hypotheses at a concrete remote: writing with a
stale explicit SHA (1, while the path holds SHA 0) is rejected. -/
theorem claim_C10_witness :
    putFile { files := [("p", ⟨0, RemoteContent.blob "x"⟩)], nextSha := 5 } "p" "c" (some 1) =
      Except.error GhError.versionConflict :=
  (claim_C10 { files := [("p", ⟨0, RemoteContent.blob "x"⟩)], nextSha := 5 } "p" "c").2 1
    ⟨0, RemoteContent.blob "x"⟩ (by decide) (by decide)

/-! ## Claim C2 — manifest bootstrap from existing shard files -/

/-- Claim C2 concerns `bucketFromShardFilePath` and the bootstrap.
The code's dated/unknown/misc patterns are regex literals containing
the uninterpolated text `${SHARD_FILENAME}`, so they can match no
path at all (proved below for every input); only the legacy flat
layout is recognized. Consequently a remote whose only shard file
lives in the dated layout the store itself writes yields an *empty*
reconstructed manifest (no row, count lost), while the same shard in
the legacy layout is reconstructed with its count of 2. This theorem
documents the divergence between code and claim at those inputs. -/
theorem claim_C2 :
    (∀ l : List Char, datedShardMatch l = none) ∧
    (∀ l : List Char, unknownShardMatch l = false) ∧
    (∀ l : List Char, miscShardMatch l = none) ∧
    bucketFromShardFilePath (some "gitgallery/meta/2024/06/05/meta_dict.json") = none ∧
    bucketFromShardFilePath (some "gitgallery/meta/unknown/meta_dict.json") = none ∧
    bucketFromShardFilePath (some "gitgallery/meta/shards/2024-06-05.json") =
      some "2024-06-05" ∧
    bootManifest c2DatedWorld = some ⟨1, 777, []⟩ ∧
    bootManifest c2LegacyWorld =
      some ⟨1, 777,
        [("2024-06-05", ⟨"gitgallery/meta/shards/2024-06-05.json", 2, 500, some 0⟩)]⟩ := by
  have hlit : ("{SHARD_FILENAME}".data).isEmpty = false := rfl
  refine ⟨?_, ?_, ?_, by decide, by decide, by decide, by decide, by decide⟩
  · intro l
    cases hp : parseDatedShardStem l with
    | none => simp [datedShardMatch, hp]
    | some v =>
      simp [datedShardMatch, hp, matchEndThenLiteral, hlit]
  · intro l
    by_cases hpre : l.take 24 = "gitgallery/meta/unknown/".data <;>
      simp [unknownShardMatch, hpre, matchEndThenLiteral, hlit]
  · intro l
    by_cases hpre : l.take 21 = "gitgallery/meta/misc/".data <;>
      simp [miscShardMatch, hpre, matchEndThenLiteral, hlit]

/-! ## Claim C4 — upsert / fresh-fetch round trip -/

/-- Claim C4 (amended) main theorem. -/
theorem claim_C4 (w : MetaWorld) (entry : MetaEntry) (c : Cache) (w1 : MetaWorld)
    (hbase : ensureBaseState w = Except.ok (c, w1))
    (hWF : CacheWF c)
    (hfp : entry.fingerprint ≠ "") (hrp : entry.repoPath ≠ "")
    (hprev : entry.previewRepoPath ≠ some "") (hch : entry.contentHash ≠ some "")
    (haid : entry.assetId ≠ some "")
    (hok : ∃ w', upsertMetaEntry w entry = Except.ok w') :
    ∃ t, fetchUpsertedEntry w entry = some ⟨entry, t⟩ := by
  obtain ⟨w', hok⟩ := hok
  obtain ⟨⟨shard, c1, w2⟩, hr⟩ : ∃ t, ensureShardLoadedC c w1 (resolveBucket entry) = t :=
    ⟨_, rfl⟩
  have hpath := ensureShardLoadedC_path c w1 (resolveBucket entry)
  have hdocwf := ensureShardLoadedC_doc_wf c w1 (resolveBucket entry) hWF
  rw [hr] at hpath hdocwf
  have hpathne : shard.path ≠ META_MANIFEST_PATH := by
    rw [show (shard, c1, w2).1.path = shard.path from rfl] at hpath
    cases hg : c.shards.get (sanitizeBucket (resolveBucket entry)) with
    | some sh0 =>
      rw [hg] at hpath
      rw [hpath]
      exact hWF.1 _ (JsMap.get_mem _ _ _ hg)
    | none =>
      rw [hg] at hpath
      rw [hpath]
      exact getShardPath_ne_manifest _
  have hsan : sanitizeBucket (resolveBucket entry) = resolveBucket entry := by
    simp only [resolveBucket]
    exact sanitizeBucket_idem _
  simp only [upsertMetaEntry, hbase, hr] at hok
  split at hok
  · exact absurd hok (by simp)
  · next shard2 w3 heqP =>
    split at hok
    · exact absurd hok (by simp)
    · next sha4 w4 heqW =>
      obtain ⟨hP_path, hP_doc, hP_get, hP_now, hP_frame⟩ := persistShard_ok_spec heqP
      obtain ⟨hW_frame, hW_now⟩ := writeManifest_ok_spec heqW
      refine ⟨w2.now, ?_⟩
      simp only [fetchUpsertedEntry, upsertMetaEntry, hbase, hr, heqP, heqW]
      rw [markManifestEntry_shards]
      rw [hsan]
      rw [JsMap.get_set_self]
      show (fetchShardDocument w4.remote (resolveBucket entry) shard2.path
        w4.now).1.entries.get entry.fingerprint = some ⟨entry, w2.now⟩
      rw [hP_path]
      have hget4 : w4.remote.files.get shard.path =
          some ⟨w2.remote.nextSha, RemoteContent.shardDoc
            ⟨SHARD_VERSION, sanitizeBucket shard.bucket, w2.now,
              (shard.doc.getD (makeEmptyShard (resolveBucket entry)
                w2.now)).entries.set entry.fingerprint ⟨entry, w2.now⟩⟩⟩ := by
        rw [hW_frame shard.path hpathne]
        exact hP_get
      have hNF0 : (∀ e ∈ (shard.doc.getD (makeEmptyShard (resolveBucket entry)
          w2.now)).entries, e.2.fingerprint = e.1) ∧
          (shard.doc.getD (makeEmptyShard (resolveBucket entry)
            w2.now)).entries.keys.Nodup := by
        cases hsd : shard.doc with
        | some d =>
          simp only [hsd, Option.getD_some]
          exact hdocwf d hsd
        | none =>
          simp only [hsd, Option.getD_none]
          constructor
          · intro e he
            simp [makeEmptyShard, JsMap.empty] at he
          · simp [makeEmptyShard, JsMap.empty, JsMap.keys]
      have hNF : ∀ kv ∈ (shard.doc.getD (makeEmptyShard (resolveBucket entry)
          w2.now)).entries.set entry.fingerprint ⟨entry, w2.now⟩,
          kv.2.fingerprint = kv.1 := by
        intro p hp
        rcases JsMap.mem_set_elim _ _ _ _ hp with hm | he
        · exact hNF0.1 p hm
        · rw [he]
      have hnd := JsMap.keys_nodup_set _ entry.fingerprint
        (⟨entry, w2.now⟩ : MetaShardEntry) hNF0.2
      have hgetE := JsMap.get_set_self ((shard.doc.getD (makeEmptyShard
        (resolveBucket entry) w2.now)).entries) entry.fingerprint
        (⟨entry, w2.now⟩ : MetaShardEntry)
      have hnorm := @normalize_get (resolveBucket entry) w4.now
        ⟨SHARD_VERSION, sanitizeBucket shard.bucket, w2.now,
          (shard.doc.getD (makeEmptyShard (resolveBucket entry)
            w2.now)).entries.set entry.fingerprint ⟨entry, w2.now⟩⟩
        entry.fingerprint ⟨entry, w2.now⟩ hNF hnd hgetE
      simp only [fetchShardDocument, hget4]
      rw [hnorm]
      unfold normalizedResult
      rw [if_neg hfp]
      rw [if_neg (show (⟨entry, w2.now⟩ : MetaShardEntry).repoPath = "" → False from hrp)]
      rw [show (⟨entry, w2.now⟩ : MetaShardEntry).previewRepoPath = entry.previewRepoPath
        from rfl, show (⟨entry, w2.now⟩ : MetaShardEntry).contentHash = entry.contentHash
        from rfl, show (⟨entry, w2.now⟩ : MetaShardEntry).assetId = entry.assetId from rfl,
        toOptionalString_eq_self hprev, toOptionalString_eq_self hch,
        toOptionalString_eq_self haid]

/-- Claim C4 is false as stated: upserting an entry whose
`contentHash` is the empty string and freshly fetching its bucket's
shard yields `contentHash = null`, not the original empty string. -/
theorem claim_C4_counterexample :
    c4BadEntry.contentHash = some "" ∧
    (fetchUpsertedEntry c4World c4BadEntry).map (fun e => e.contentHash) =
      some none := by
  exact ⟨rfl, by decide⟩

/-- Witness for C4 at a concrete world and entry. -/
theorem claim_C4_witness :
    ∃ t, fetchUpsertedEntry c4World c4GoodEntry = some ⟨c4GoodEntry, t⟩ :=
  claim_C4 c4World c4GoodEntry ⟨⟨1, 0, []⟩, none, [], 0⟩ c4World rfl
    (by constructor <;> intro kv hkv <;> cases hkv)
    (by decide) (by decide) (by decide) (by decide) (by decide)
    ⟨_, rfl⟩

/-! ## Claim C1 — `removeMetaEntries` postconditions -/

theorem getMetaEntryFromCache_none (idx : MetaIndexState) (fp : String)
    (h1 : idx.metaByFingerprint.get fp = none)
    (h2 : idx.pathToFingerprint.get fp = none) :
    getMetaEntryFromCache idx fp = none := by
  unfold getMetaEntryFromCache
  rw [h1, h2]

theorem getMetaEntryFromCache_not_fp (idx : MetaIndexState) (fp : String)
    (hkeyed : MetaByKeyed idx) (h1 : idx.metaByFingerprint.get fp = none) :
    ∀ p e, getMetaEntryFromCache idx p = some e → e.fingerprint ≠ fp := by
  intro p e h
  unfold getMetaEntryFromCache at h
  cases hp : idx.metaByFingerprint.get p with
  | some e' =>
    rw [hp] at h
    injection h with h'
    subst h'
    have : e'.fingerprint = p := hkeyed p e' hp
    intro hfp
    rw [show MetaShardEntry.toMetaEntry e' = e'.toMetaEntry from rfl] at hfp
    have hfp' : e'.fingerprint = fp := hfp
    rw [this] at hfp'
    rw [hfp'] at hp
    rw [h1] at hp
    cases hp
  | none =>
    rw [hp] at h
    cases hres : idx.pathToFingerprint.get p with
    | none =>
      rw [hres] at h
      cases h
    | some resolved =>
      rw [hres] at h
      dsimp only at h
      cases hm : idx.metaByFingerprint.get resolved with
      | none =>
        rw [hm] at h
        cases h
      | some e'' =>
        rw [hm] at h
        injection h with h'
        subst h'
        have : e''.fingerprint = resolved := hkeyed resolved e'' hm
        intro hfp
        have hfp' : e''.fingerprint = fp := hfp
        rw [this] at hfp'
        rw [hfp'] at hm
        rw [h1] at hm
        cases hm

/-- Top-level postconditions of a successful `removeMetaEntries` run
on a loaded, well-formed store (assembled from `removeGroups_spec` and
the final manifest write). -/
theorem removeMetaEntries_spec (w : MetaWorld) (fps : List String) (c : Cache) (w' : MetaWorld)
    (hbase : w.idx.cache = some c)
    (hinv : RemoveInv fps c w (mkGroups w.idx fps))
    (hok : removeMetaEntries w fps = Except.ok w') :
    (∀ fp ∈ fps, w'.idx.metaByFingerprint.get fp = none ∧
      getMetaEntryFromCache w'.idx fp = none ∧
      ∀ p e, getMetaEntryFromCache w'.idx p = some e → e.fingerprint ≠ fp) ∧
    (∀ g ∈ mkGroups w.idx fps, ∀ c'' sh d, w'.idx.cache = some c'' →
      c''.shards.get g.1 = some sh → sh.doc = some d →
      ∀ fp ∈ g.2, d.entries.get fp = none) ∧
    ∃ extra, w'.events = w.events ++ extra ∧
      (∀ b p cnt, MetaEvent.putShard b p cnt ∈ extra → 1 ≤ cnt ∧
        ∀ c'', w'.idx.cache = some c'' →
          ∃ info, c''.manifest.shards.get b = some info ∧ 1 ≤ info.count) ∧
      (∀ b p, MetaEvent.delShard b p ∈ extra →
        ∀ c'', w'.idx.cache = some c'' → c''.manifest.shards.get b = none) := by
  unfold removeMetaEntries at hok
  by_cases hemp : fps.isEmpty = true
  · rw [if_pos hemp] at hok
    injection hok with hok'
    subst hok'
    have hnil : fps = [] := by
      cases fps with
      | nil => rfl
      | cons a t => simp at hemp
    subst hnil
    refine ⟨fun fp hfp => absurd hfp (List.not_mem_nil fp), ?_,
      [], (List.append_nil _).symm, ?_, ?_⟩
    · intro g hg
      exact absurd hg (List.not_mem_nil g)
    · intro b p cnt hmem
      cases hmem
    · intro b p hmem
      cases hmem
  · rw [if_neg hemp] at hok
    have hEB : ensureBaseState w = Except.ok (c, w) := by
      unfold ensureBaseState
      rw [hbase]
    rw [hEB] at hok
    dsimp only at hok
    cases hRG : removeGroups c w (mkGroups w.idx fps) false with
    | error e =>
      rw [hRG] at hok
      cases hok
    | ok t =>
      obtain ⟨c₁, w₂, dirty⟩ := t
      rw [hRG] at hok
      dsimp only at hok
      obtain ⟨hP1, hP2, hP3, hP4, hP5, extra, hev, hput, hdel⟩ :=
        removeGroups_spec fps (mkGroups w.idx fps) c w false c₁ w₂ dirty hRG hinv
      cases dirty with
      | false =>
        rw [if_neg (by simp)] at hok
        injection hok with hok'
        subst hok'
        refine ⟨?_, ?_, extra, hev, ?_, ?_⟩
        · intro fp hfp
          obtain ⟨hm, hpth⟩ := hP1 fp hfp
          exact ⟨hm, getMetaEntryFromCache_none _ _ hm hpth,
            getMetaEntryFromCache_not_fp _ _ hP2 hm⟩
        · intro g hg c'' sh d hc'' hget hdoc fp hfp
          injection hc'' with he
          rw [← he] at hget
          exact hP5 g hg sh d hget hdoc fp hfp
        · intro b p cnt hmem
          obtain ⟨hcnt, info, hinfo, hinfoCnt⟩ := hput b p cnt hmem
          refine ⟨hcnt, ?_⟩
          intro c'' hc''
          injection hc'' with hc'''
          subst hc'''
          exact ⟨info, hinfo, hinfoCnt⟩
        · intro b p hmem
          intro c'' hc''
          injection hc'' with hc'''
          subst hc'''
          exact hdel b p hmem
      | true =>
        rw [if_pos rfl] at hok
        cases hWM : writeManifest w₂ { c₁.manifest with updatedAt := w₂.now }
            c₁.manifestSha with
        | error e =>
          rw [hWM] at hok
          cases hok
        | ok t' =>
          obtain ⟨sha, w₃⟩ := t'
          rw [hWM] at hok
          injection hok with hok'
          subst hok'
          obtain ⟨hidx3, hev3⟩ := writeManifest_ok_more hWM
          refine ⟨?_, ?_, extra ++ [MetaEvent.putManifest], ?_, ?_, ?_⟩
          · intro fp hfp
            obtain ⟨hm, hpth⟩ := hP1 fp hfp
            have hm' : w₃.idx.metaByFingerprint.get fp = none := by
              rw [hidx3]
              exact hm
            have hpth' : w₃.idx.pathToFingerprint.get fp = none := by
              rw [hidx3]
              exact hpth
            have hkeyed' : MetaByKeyed w₃.idx := by
              rw [hidx3]
              exact hP2
            exact ⟨hm', getMetaEntryFromCache_none _ _ hm' hpth',
              getMetaEntryFromCache_not_fp _ _ hkeyed' hm'⟩
          · intro g hg c'' sh d hc'' hget hdoc fp hfp
            injection hc'' with he
            rw [← he] at hget
            dsimp only at hget
            exact hP5 g hg sh d hget hdoc fp hfp
          · rw [hev3, hev, List.append_assoc]
          · intro b p cnt hmem
            rcases List.mem_append.mp hmem with hmem' | hmem'
            · obtain ⟨hcnt, info, hinfo, hinfoCnt⟩ := hput b p cnt hmem'
              refine ⟨hcnt, ?_⟩
              intro c'' hc''
              injection hc'' with hc'''
              subst hc'''
              exact ⟨info, hinfo, hinfoCnt⟩
            · rcases List.mem_singleton.mp hmem' with h
              cases h
          · intro b p hmem
            rcases List.mem_append.mp hmem with hmem' | hmem'
            · intro c'' hc''
              injection hc'' with hc'''
              subst hc'''
              exact hdel b p hmem'
            · rcases List.mem_singleton.mp hmem' with h
              cases h

/-- C1. Every `removeMetaEntries` call that completes without error
leaves every requested fingerprint unresolvable through
`getMetaEntryFromCache` — directly, and via any path, since no cached
entry carries the fingerprint any more. However, manifest rows with
`count == 0` can survive or even appear (see the counterexample): the
amended manifest property is about the shard files the call actually
rewrites — every shard PUT issued by the call carries at least one
entry and leaves a manifest row with that count, and every emptied
shard is deleted remotely with its manifest row removed. Proved under
the store's invariants (`RemoveInv`): a loaded base cache, normal-form
shard documents consistent with the in-memory maps, distinct shard
paths, and fingerprints that are not registered as paths. -/
theorem claim_C1 (w : MetaWorld) (fps : List String) (c : Cache) (w' : MetaWorld)
    (hbase : w.idx.cache = some c)
    (hinv : RemoveInv fps c w (mkGroups w.idx fps))
    (hok : removeMetaEntries w fps = Except.ok w') :
    (∀ fp ∈ fps, w'.idx.metaByFingerprint.get fp = none ∧
      getMetaEntryFromCache w'.idx fp = none ∧
      ∀ p e, getMetaEntryFromCache w'.idx p = some e → e.fingerprint ≠ fp) ∧
    ∃ extra, w'.events = w.events ++ extra ∧
      (∀ b p cnt, MetaEvent.putShard b p cnt ∈ extra → 1 ≤ cnt ∧
        ∀ c'', w'.idx.cache = some c'' →
          ∃ info, c''.manifest.shards.get b = some info ∧ 1 ≤ info.count) ∧
      (∀ b p, MetaEvent.delShard b p ∈ extra →
        ∀ c'', w'.idx.cache = some c'' → c''.manifest.shards.get b = none) := by
  have h := removeMetaEntries_spec w fps c w' hbase hinv hok
  exact ⟨h.1, h.2.2⟩

/-- C1, counterexample to the manifest half of the original claim: on
a loaded world with an empty cached manifest and an empty remote,
removing the single fingerprint `a|100|1` completes without error yet
leaves a manifest row for bucket `1970-01-01` with `count == 0` (the
loader registers the empty, absent shard in the manifest, and the
no-op removal never cleans it up). -/
theorem claim_C1_counterexample : c1CountAfter = some 0 := by decide

/-- The loop invariant holds on the C1 witness world. -/
theorem c1wWorld_inv : RemoveInv ["a|100|1"] c1wCache c1wWorld
    (mkGroups c1wWorld.idx ["a|100|1"]) := by
  refine ⟨⟨?_, ?_⟩, ?_, ?_, by decide, ?_, by decide, by decide, by decide, by decide⟩
  · intro kv hkv
    rcases List.mem_singleton.mp hkv with h
    rw [h]
    decide
  · intro kv hkv d hd
    rcases List.mem_singleton.mp hkv with h
    rw [h] at hd
    injection hd with hd'
    subst hd'
    exact ⟨by decide, by decide⟩
  · intro k sh hk
    have hmem := JsMap.get_mem _ _ _ hk
    rcases List.mem_singleton.mp hmem with h
    injection h with h1 h2
    subst h1
    subst h2
    decide
  · intro k e hk
    have hmem := JsMap.get_mem _ _ _ hk
    rcases List.mem_singleton.mp hmem with h
    injection h with h1 h2
    subst h1
    subst h2
    decide
  · intro g hg
    rcases List.mem_singleton.mp hg with h
    subst h
    exact ⟨by decide, by decide, by decide, by decide⟩

/-- C1 witness: a world whose one shard holds the single entry
`a|100|1`; removing it succeeds and the fingerprint is gone from the
cache. -/
theorem claim_C1_witness :
    ∃ w', removeMetaEntries c1wWorld ["a|100|1"] = Except.ok w' ∧
      getMetaEntryFromCache w'.idx "a|100|1" = none := by
  obtain ⟨w', hok⟩ : ∃ w', removeMetaEntries c1wWorld ["a|100|1"] = Except.ok w' :=
    ⟨_, rfl⟩
  have h := claim_C1 c1wWorld ["a|100|1"] c1wCache w' rfl c1wWorld_inv hok
  exact ⟨w', hok, (h.1 "a|100|1" (List.mem_singleton.mpr rfl)).2.1⟩

/-! ## Claim C8 — deleting a remote media file -/

theorem JsSet.has_add_self {α : Type} [DecidableEq α] (s : JsSet α) (a : α) :
    (s.add a).has a = true := by
  unfold JsSet.add JsSet.has
  by_cases h : s.contains a = true
  · rw [if_pos h]
    exact h
  · rw [if_neg h]
    simp

/-- C8. Deleting a remote media file: when no SHA is known for the
path (the file is absent remotely), the remote delete is a silent
no-op — the remote is unchanged and no error is raised. When the
delete flow succeeds *and the path resolves through the module's cache
maps* (the amendment — a shard entry whose path was never registered
in `pathToFingerprint` is skipped, see the counterexample), the file's
meta entry is removed from its shard — the fingerprint resolves to
nothing and the cached shard document of its bucket no longer holds an
entry under it (the bucket's shard row is deleted outright when the
removal empties it, or rewritten without the entry) — the local record
for the fingerprint is deleted, the (nonempty) fingerprint joins the
auto-sync blocklist, and one cache-invalidation event is emitted. The
meta removal is proved under the store invariants (`RemoveInv`) for
the singleton fingerprint list. -/
theorem claim_C8 (s : SyncWorld) (path : String) :
    (s.meta.remote.files.get path = none →
      deleteFile s.meta.remote path = Except.ok s.meta.remote) ∧
    (∀ (s' : SyncWorld) (cached : MetaEntry) (c : Cache) (r' : Remote),
      deleteFile s.meta.remote path = Except.ok r' →
      getMetaEntryFromCache s.meta.idx path = some cached →
      s.meta.idx.cache = some c →
      cached.fingerprint ≠ "" →
      RemoveInv [cached.fingerprint] c { s.meta with remote := r' }
        (mkGroups s.meta.idx [cached.fingerprint]) →
      deleteRepoFile s path = Except.ok s' →
      getMetaEntryFromCache s'.meta.idx cached.fingerprint = none ∧
      (∀ c'' sh d, s'.meta.idx.cache = some c'' →
        c''.shards.get (bucketKeyOf s.meta.idx cached.fingerprint) = some sh →
        sh.doc = some d → d.entries.get cached.fingerprint = none) ∧
      s'.localAssets.get cached.fingerprint = none ∧
      s'.blocklist.has cached.fingerprint = true ∧
      s'.invalidations = s.invalidations + 1) := by
  constructor
  · intro hnone
    unfold deleteFile fetchFileSha
    rw [hnone]
    rfl
  · intro s' cached c r' hdel hcached hbase hfp hinv hok
    unfold deleteRepoFile at hok
    rw [hdel] at hok
    dsimp only at hok
    rw [hcached] at hok
    dsimp only at hok
    cases hrm : removeMetaEntries { s.meta with remote := r' } [cached.fingerprint] with
    | error e =>
      rw [hrm] at hok
      cases hok
    | ok m' =>
      rw [hrm] at hok
      dsimp only at hok
      injection hok with hok'
      subst hok'
      have hspec := removeMetaEntries_spec { s.meta with remote := r' }
        [cached.fingerprint] c m' hbase hinv hrm
      refine ⟨(hspec.1 cached.fingerprint (List.mem_singleton.mpr rfl)).2.1,
        ?_, ?_, ?_, rfl⟩
      · intro c'' sh d hc'' hget hdoc
        exact hspec.2.1 (bucketKeyOf s.meta.idx cached.fingerprint, [cached.fingerprint])
          (List.mem_singleton.mpr rfl) c'' sh d hc'' hget hdoc cached.fingerprint
          (List.mem_singleton.mpr rfl)
      · exact JsMap.get_del_self _ _
      · unfold blockAutoSyncFingerprint
        rw [if_neg hfp]
        exact JsSet.has_add_self _ _

/-- C8, counterexample to the original claim's second half: the remote
file at `media/x` exists and is deleted successfully, and its meta
entry sits in the loaded shard — but the path was never registered in
`pathToFingerprint`, so after the run the fingerprint is not
blocklisted (`false`), the local record survives (`true`) and the meta
entry is still in its shard. -/
theorem claim_C8_counterexample :
    c8CounterResult = some (none, false, true,
      some ⟨⟨"a|100|1", "media/x", none, some 100, some 1, none, none, none⟩, 0⟩) := by
  decide

/-- The removal loop invariant holds on the C8 witness world. -/
theorem c8w2_inv : RemoveInv ["a|100|1"] c8w2Cache c8w2Meta
    (mkGroups c8w2Meta.idx ["a|100|1"]) := by
  refine ⟨⟨?_, ?_⟩, ?_, ?_, by decide, ?_, by decide, by decide, by decide, by decide⟩
  · intro kv hkv
    rcases List.mem_singleton.mp hkv with h
    rw [h]
    decide
  · intro kv hkv d hd
    rcases List.mem_singleton.mp hkv with h
    rw [h] at hd
    injection hd with hd'
    subst hd'
    exact ⟨by decide, by decide⟩
  · intro k sh hk
    have hmem := JsMap.get_mem _ _ _ hk
    rcases List.mem_singleton.mp hmem with h
    injection h with h1 h2
    subst h1
    subst h2
    decide
  · intro k e hk
    have hmem := JsMap.get_mem _ _ _ hk
    rcases List.mem_cons.mp hmem with h | h
    · injection h with h1 h2
      subst h1
      subst h2
      decide
    · rcases List.mem_singleton.mp h with h'
      injection h' with h1 h2
      subst h1
      subst h2
      decide
  · intro g hg
    rcases List.mem_singleton.mp hg with h
    subst h
    exact ⟨by decide, by decide, by decide, by decide⟩

/-- C8 witness: on the witness world the absent-file delete is a
no-op, and the cached-path flow performs all the effects: the
fingerprint no longer resolves, the rewritten cached shard document
holds no entry for it (non-vacuously — the shard survives, and the
sibling entry `b|200|1` is still in the document), the local record is
gone, the fingerprint is blocklisted and one invalidation event is
emitted. -/
theorem claim_C8_witness :
    deleteFile c8w2Sync.meta.remote "media/x" = Except.ok c8w2Sync.meta.remote ∧
    ∃ s', deleteRepoFile c8w2Sync "media/x" = Except.ok s' ∧
      getMetaEntryFromCache s'.meta.idx "a|100|1" = none ∧
      (∀ c'' sh d, s'.meta.idx.cache = some c'' →
        c''.shards.get (bucketKeyOf c8w2Sync.meta.idx "a|100|1") = some sh →
        sh.doc = some d → d.entries.get "a|100|1" = none) ∧
      (shardDocEntry s' (bucketKeyOf c8w2Sync.meta.idx "a|100|1") "b|200|1").isSome = true ∧
      s'.localAssets.get "a|100|1" = none ∧
      s'.blocklist.has "a|100|1" = true ∧
      s'.invalidations = c8w2Sync.invalidations + 1 := by
  have h := claim_C8 c8w2Sync "media/x"
  refine ⟨h.1 rfl, ?_⟩
  obtain ⟨s', hok⟩ : ∃ s', deleteRepoFile c8w2Sync "media/x" = Except.ok s' := ⟨_, rfl⟩
  have h2 := h.2 s' ⟨"a|100|1", "media/x", none, some 100, some 1, none, none, none⟩
    c8w2Cache c8w2Sync.meta.remote rfl rfl rfl (by decide) c8w2_inv hok
  have hchk : (deleteRepoFile c8w2Sync "media/x").map
      (fun t => (shardDocEntry t (bucketKeyOf c8w2Sync.meta.idx "a|100|1")
        "b|200|1").isSome) = Except.ok true := by
    rfl
  rw [hok] at hchk
  have hsur : (shardDocEntry s' (bucketKeyOf c8w2Sync.meta.idx "a|100|1")
      "b|200|1").isSome = true := by
    injection hchk
  exact ⟨s', hok, h2.1, h2.2.1, hsur, h2.2.2.1, h2.2.2.2.1, h2.2.2.2.2⟩

/-! ## Claim C9 — job queue serialization -/

theorem runQueue_fold (rejects : Nat → Bool) : ∀ (l : List Nat) (evs : List QEvent),
    l.foldl (enqueueStep rejects) (PromiseState.fulfilled, evs) =
      (PromiseState.fulfilled,
        evs ++ l.flatMap (fun i => [QEvent.invoke i, QEvent.settle i (rejects i)])) := by
  intro l
  induction l with
  | nil =>
    intro evs
    rw [List.foldl_nil, List.flatMap_nil, List.append_nil]
  | cons i t ih =>
    intro evs
    rw [List.foldl_cons]
    have hstep : enqueueStep rejects (PromiseState.fulfilled, evs) i =
        (PromiseState.fulfilled,
          evs ++ [QEvent.invoke i, QEvent.settle i (rejects i)]) := by
      unfold enqueueStep
      dsimp only
      cases hri : rejects i <;> rfl
    rw [hstep, ih, List.flatMap_cons, List.append_assoc]

theorem runQueue_eq_serial (rejects : Nat → Bool) (n : Nat) :
    runQueue rejects n = serialTrace rejects n := by
  unfold runQueue serialTrace
  rw [runQueue_fold]
  rfl

theorem serialTrace_succ (rejects : Nat → Bool) (n : Nat) :
    serialTrace rejects (n + 1) = serialTrace rejects n ++
      [QEvent.invoke n, QEvent.settle n (rejects n)] := by
  unfold serialTrace
  rw [List.range_succ, List.flatMap_append]
  rfl

theorem serialTrace_length (rejects : Nat → Bool) (n : Nat) :
    (serialTrace rejects n).length = 2 * n := by
  induction n with
  | zero => rfl
  | succ m ih =>
    rw [serialTrace_succ, List.length_append, ih]
    rfl

theorem serialTrace_get (rejects : Nat → Bool) :
    ∀ (n i : Nat), i < n →
      (serialTrace rejects n)[2 * i]? = some (QEvent.invoke i) ∧
      (serialTrace rejects n)[2 * i + 1]? = some (QEvent.settle i (rejects i)) := by
  intro n
  induction n with
  | zero =>
    intro i hi
    exact absurd hi (Nat.not_lt_zero i)
  | succ m ih =>
    intro i hi
    rw [serialTrace_succ]
    by_cases him : i < m
    · constructor
      · rw [List.getElem?_append_left (by rw [serialTrace_length]; omega)]
        exact (ih i him).1
      · rw [List.getElem?_append_left (by rw [serialTrace_length]; omega)]
        exact (ih i him).2
    · have hieq : i = m := by omega
      subst hieq
      constructor
      · rw [List.getElem?_append_right (by rw [serialTrace_length])]
        rw [serialTrace_length]
        rw [show 2 * i - 2 * i = 0 from by omega]
        rfl
      · rw [List.getElem?_append_right (by rw [serialTrace_length]; omega)]
        rw [serialTrace_length]
        rw [show 2 * i + 1 - 2 * i = 1 from by omega]
        rfl

/-- C9. The job queue serializes jobs: in the observable trace of
`n` enqueued jobs, job `j`'s function is invoked at trace position
`2j`, strictly after the settlement of every earlier job `i < j` at
position `2i+1` — jobs never overlap. And job `j` *is* invoked no
matter which earlier jobs rejected (the `rejects` oracle is
universally quantified): the stored `current = wrapped.catch(() => {})`
fulfills even when a job rejects, so a rejection never prevents a
later enqueued job from running. -/
theorem claim_C9 (rejects : Nat → Bool) (n i j : Nat) (hij : i < j) (hj : j < n) :
    (runQueue rejects n)[2 * i + 1]? = some (QEvent.settle i (rejects i)) ∧
    (runQueue rejects n)[2 * j]? = some (QEvent.invoke j) ∧
    2 * i + 1 < 2 * j := by
  rw [runQueue_eq_serial]
  exact ⟨(serialTrace_get rejects n i (lt_trans hij hj)).2,
    (serialTrace_get rejects n j hj).1, by omega⟩

/-! ## Claim C3 — cancelled upload batches -/

theorem runBatchLoop_spec (c u : Nat → Bool) : ∀ (l : List Nat) (acc : BatchLoopResult),
    ∃ new, (runBatchLoop c u l acc).attempts = acc.attempts ++ new ∧
      (runBatchLoop c u l acc).processed = acc.processed + new.length ∧
      (runBatchLoop c u l acc).failed =
        acc.failed + (new.filter (fun i => !u i)).length ∧
      ∀ i ∈ new, i ∈ l ∧ c i = false := by
  intro l
  induction l with
  | nil =>
    intro acc
    exact ⟨[], (List.append_nil _).symm, rfl, rfl, fun i hi => absurd hi (List.not_mem_nil i)⟩
  | cons j rest ih =>
    intro acc
    unfold runBatchLoop
    by_cases hc : c j = true
    · rw [if_pos hc]
      exact ⟨[], (List.append_nil _).symm, rfl, rfl,
        fun i hi => absurd hi (List.not_mem_nil i)⟩
    · rw [if_neg hc]
      cases hu : u j with
      | true =>
        rw [if_pos rfl]
        obtain ⟨new', ha, hp, hf, hmem⟩ :=
          ih ⟨acc.processed + 1, acc.failed, acc.attempts ++ [j], acc.cancelled⟩
        refine ⟨j :: new', ?_, ?_, ?_, ?_⟩
        · rw [ha, List.append_assoc]
          rfl
        · rw [hp, List.length_cons]
          show acc.processed + 1 + new'.length = acc.processed + (new'.length + 1)
          omega
        · rw [hf, List.filter_cons]
          dsimp only
          rw [hu]
          rw [if_neg (by decide)]
        · intro i hi
          rcases List.mem_cons.mp hi with rfl | hi'
          · exact ⟨List.mem_cons_self _ _, by rwa [Bool.not_eq_true] at hc⟩
          · exact ⟨List.mem_cons_of_mem _ (hmem i hi').1, (hmem i hi').2⟩
      | false =>
        rw [if_neg (by simp)]
        obtain ⟨new', ha, hp, hf, hmem⟩ :=
          ih ⟨acc.processed + 1, acc.failed + 1, acc.attempts ++ [j], acc.cancelled⟩
        refine ⟨j :: new', ?_, ?_, ?_, ?_⟩
        · rw [ha, List.append_assoc]
          rfl
        · rw [hp, List.length_cons]
          show acc.processed + 1 + new'.length = acc.processed + (new'.length + 1)
          omega
        · rw [hf, List.filter_cons]
          dsimp only
          rw [hu]
          rw [if_pos (by decide), List.length_cons]
          show acc.failed + 1 + (new'.filter (fun i => !u i)).length =
            acc.failed + ((new'.filter (fun i => !u i)).length + 1)
          omega
        · intro i hi
          rcases List.mem_cons.mp hi with rfl | hi'
          · exact ⟨List.mem_cons_self _ _, by rwa [Bool.not_eq_true] at hc⟩
          · exact ⟨List.mem_cons_of_mem _ (hmem i hi').1, (hmem i hi').2⟩

/-- C3. When `processUploadBatch` is cancelled mid-batch, the
`lastBatchUploaded` value its cancel branch stores is `processed` —
the number of uploads *attempted* (begun) before the flag was
observed, not the number that completed successfully: `processed` is
incremented before each `try`, and a failed upload still counts
(counterexample). The amended first half: `lastBatchUploaded` equals
the number of attempted uploads, of which `failed` failed. The second
half of the claim is right and proved: every attempted upload — the
only source of remote writes in the loop — belongs to an iteration
that read the cancel flag as `false`, so (the flag being monotone)
nothing is written at or after the first observation of the flag. -/
theorem claim_C3 (cancelledAt uploadOk : Nat → Bool) (n : Nat)
    (hmono : ∀ i j, i ≤ j → cancelledAt i = true → cancelledAt j = true) :
    (processUploadLoop cancelledAt uploadOk n).processed =
      (processUploadLoop cancelledAt uploadOk n).attempts.length ∧
    (processUploadLoop cancelledAt uploadOk n).failed =
      ((processUploadLoop cancelledAt uploadOk n).attempts.filter
        (fun i => !uploadOk i)).length ∧
    (∀ i ∈ (processUploadLoop cancelledAt uploadOk n).attempts,
      cancelledAt i = false) ∧
    (∀ i j, cancelledAt i = true → i ≤ j →
      j ∉ (processUploadLoop cancelledAt uploadOk n).attempts) := by
  obtain ⟨new, ha, hp, hf, hmem⟩ :=
    runBatchLoop_spec cancelledAt uploadOk (List.range n) ⟨0, 0, [], false⟩
  dsimp only at ha hp hf
  have ha' : (processUploadLoop cancelledAt uploadOk n).attempts = new := by
    unfold processUploadLoop
    rw [ha]
    rfl
  refine ⟨?_, ?_, ?_, ?_⟩
  · rw [ha']
    unfold processUploadLoop
    omega
  · rw [ha']
    unfold processUploadLoop
    omega
  · intro i hi
    rw [ha'] at hi
    exact (hmem i hi).2
  · intro i j hi hij hj
    rw [ha'] at hj
    have := (hmem j hj).2
    rw [hmono i j hij hi] at this
    cases this

/-- C3, counterexample to the first half of the original claim: two
prepared items, the first upload fails, the cancel flag is observed at
the second iteration. The cancel branch stores
`lastBatchUploaded = processed = 1`, yet zero uploads completed
successfully (the one attempt failed). -/
theorem claim_C3_counterexample :
    processUploadLoop (fun i => decide (1 ≤ i)) (fun _ => false) 2 =
      ⟨1, 1, [0], true⟩ := by
  decide

/-- C3 witness: the cancelled run attempted exactly
`lastBatchUploaded` uploads, all before the flag was observed. -/
theorem claim_C3_witness :
    (processUploadLoop (fun i => decide (1 ≤ i)) (fun _ => false) 2).processed =
      (processUploadLoop (fun i => decide (1 ≤ i)) (fun _ => false) 2).attempts.length ∧
    ∀ i ∈ (processUploadLoop (fun i => decide (1 ≤ i)) (fun _ => false) 2).attempts,
      decide (1 ≤ i) = false := by
  have h := claim_C3 (fun i => decide (1 ≤ i)) (fun _ => false) 2
    (fun i j hij hi => decide_eq_true (le_trans (of_decide_eq_true hi) hij))
  exact ⟨h.1, h.2.2.1⟩

/-! ## Claim C5 — upload idempotence via the upload index -/

theorem prepMainStep_pres (bl : JsSet String) (cache : JsMap String UploadIndexEntry)
    (prepOk : Asset → Bool) (a x : Asset) (entry : UploadIndexEntry)
    (hres : resolveCached cache a = some entry) (hupl : entry.uploaded = true)
    (acc : List PreparedUpload × JsSet String × List Asset)
    (h1 : ∀ p ∈ acc.1, p.asset ≠ a) (h2 : ∀ x' ∈ acc.2.2, x' ≠ a) :
    (∀ p ∈ (prepMainStep bl cache prepOk false acc x).1, p.asset ≠ a) ∧
    (∀ x' ∈ (prepMainStep bl cache prepOk false acc x).2.2, x' ≠ a) := by
  unfold prepMainStep
  by_cases hb1 : (!false && bl.has (makeFingerprint x)) = true
  · rw [if_pos hb1]
    exact ⟨h1, h2⟩
  · rw [if_neg hb1]
    by_cases hb2 : (!false &&
        ((resolveCached cache x).map UploadIndexEntry.uploaded).getD false) = true
    · rw [if_pos hb2]
      exact ⟨h1, h2⟩
    · rw [if_neg hb2]
      have hxa : x ≠ a := by
        intro he
        subst he
        apply hb2
        rw [hres]
        simp [hupl]
      unfold prepareAssetM
      by_cases hp : prepOk x = true
      · rw [if_pos hp]
        dsimp only
        by_cases hf : acc.2.1.has (makeFingerprint x) = true
        · rw [if_pos hf]
          exact ⟨h1, h2⟩
        · rw [if_neg hf]
          refine ⟨?_, h2⟩
          intro p hp'
          rcases List.mem_append.mp hp' with h | h
          · exact h1 p h
          · rcases List.mem_singleton.mp h with rfl
            exact hxa
      · rw [if_neg hp]
        dsimp only
        refine ⟨h1, ?_⟩
        intro x' hx'
        rcases List.mem_append.mp hx' with h | h
        · exact h2 x' h
        · rcases List.mem_singleton.mp h with rfl
          exact hxa

theorem prepMain_fold_pres (bl : JsSet String) (cache : JsMap String UploadIndexEntry)
    (prepOk : Asset → Bool) (a : Asset) (entry : UploadIndexEntry)
    (hres : resolveCached cache a = some entry) (hupl : entry.uploaded = true) :
    ∀ (assets : List Asset) (acc : List PreparedUpload × JsSet String × List Asset),
      (∀ p ∈ acc.1, p.asset ≠ a) → (∀ x' ∈ acc.2.2, x' ≠ a) →
      (∀ p ∈ (assets.foldl (prepMainStep bl cache prepOk false) acc).1, p.asset ≠ a) ∧
      (∀ x' ∈ (assets.foldl (prepMainStep bl cache prepOk false) acc).2.2, x' ≠ a) := by
  intro assets
  induction assets with
  | nil => exact fun acc h1 h2 => ⟨h1, h2⟩
  | cons x rest ih =>
    intro acc h1 h2
    rw [List.foldl_cons]
    obtain ⟨h1', h2'⟩ := prepMainStep_pres bl cache prepOk a x entry hres hupl acc h1 h2
    exact ih _ h1' h2'

theorem prepRetry_fold_pres (prepOk2 : Asset → Bool) (a : Asset) :
    ∀ (l : List Asset) (acc : List PreparedUpload × JsSet String),
      (∀ p ∈ acc.1, p.asset ≠ a) → (∀ x ∈ l, x ≠ a) →
      ∀ p ∈ (l.foldl (prepRetryStep prepOk2) acc).1, p.asset ≠ a := by
  intro l
  induction l with
  | nil => exact fun acc h1 _ => h1
  | cons x rest ih =>
    intro acc h1 hl
    rw [List.foldl_cons]
    refine ih _ ?_ (fun x' hx' => hl x' (List.mem_cons_of_mem _ hx'))
    unfold prepRetryStep prepareAssetM
    by_cases hp : prepOk2 x = true
    · rw [if_pos hp]
      dsimp only
      by_cases hf : acc.2.has (makeFingerprint x) = true
      · rw [if_pos hf]
        exact h1
      · rw [if_neg hf]
        intro p hp'
        rcases List.mem_append.mp hp' with h | h
        · exact h1 p h
        · rcases List.mem_singleton.mp h with rfl
          exact hl x (List.mem_cons_self _ _)
    · rw [if_neg hp]
      exact h1

/-- C5. Amended upload idempotence: an asset is excluded during
preparation (without the `allowBlocked` override) exactly when the
*resolved* upload-index entry — the id-keyed entry first, the
fingerprint-keyed one only when no id-keyed entry exists, because
`get(asset.id) || get(fingerprint)` short-circuits on any entry object
— has `uploaded == true`. Under that resolution the asset never
reaches `prepared`, and `processUploadBatch` uploads only prepared
entries, so no second content write or meta upsert happens for it. The
original claim's "fingerprint (or device asset id)" reading is false:
a stale id-keyed entry with `uploaded == false` shadows an uploaded
fingerprint-keyed entry and the asset is prepared again
(counterexample). -/
theorem claim_C5 (bl : JsSet String) (cache : JsMap String UploadIndexEntry)
    (prepOk prepOk2 : Asset → Bool) (assets : List Asset) (a : Asset)
    (entry : UploadIndexEntry)
    (hres : resolveCached cache a = some entry)
    (hupl : entry.uploaded = true) :
    ∀ p ∈ prepareAssetsForUpload bl cache prepOk prepOk2 false assets, p.asset ≠ a := by
  unfold prepareAssetsForUpload
  dsimp only
  obtain ⟨hP, hR⟩ := prepMain_fold_pres bl cache prepOk a entry hres hupl assets
    ([], JsSet.empty, []) (fun p h => absurd h (List.not_mem_nil p))
    (fun x h => absurd h (List.not_mem_nil x))
  exact prepRetry_fold_pres prepOk2 a _ _ hP hR

/-- C5, counterexample to the original claim: the fingerprint
`name|5|3` maps to an uploaded index entry, but the asset's id `A1`
maps to a stale not-uploaded entry which shadows it — the asset is
prepared again, so a second upload and meta upsert would follow. -/
theorem claim_C5_counterexample :
    c5Cache.get "name|5|3" = some c5UploadedEntry ∧
    c5UploadedEntry.uploaded = true ∧
    prepareAssetsForUpload [] c5Cache (fun _ => true) (fun _ => true) false [c5Asset] =
      [⟨c5Asset, "name|5|3"⟩] := by
  exact ⟨by decide, by decide, by decide⟩

/-- C5 witness: with the asset's id resolving to an uploaded entry,
preparation excludes it (only the fresh second asset is prepared). -/
theorem claim_C5_witness :
    (∀ p ∈ prepareAssetsForUpload [] c5wCache (fun _ => true) (fun _ => true) false
      [c5Asset, c5wOther], p.asset ≠ c5Asset) ∧
    prepareAssetsForUpload [] c5wCache (fun _ => true) (fun _ => true) false
      [c5Asset, c5wOther] = [⟨c5wOther, "other|7|4"⟩] := by
  refine ⟨fun p hp => ?_, by decide⟩
  exact claim_C5 [] c5wCache (fun _ => true) (fun _ => true) [c5Asset, c5wOther]
    c5Asset c5UploadedEntry rfl rfl p hp

/-! ## Claim C7 — cloud cache eviction -/

theorem sumSizes_insert (e : CacheStat) (l : List CacheStat) :
    sumSizes (insertByLastUsed e l) = e.size + sumSizes l := by
  induction l with
  | nil => rfl
  | cons x xs ih =>
    unfold insertByLastUsed
    by_cases h : x.lastUsed < e.lastUsed
    · rw [if_pos h]
      unfold sumSizes at ih ⊢
      simp only [List.map_cons, List.sum_cons]
      rw [ih]
      omega
    · rw [if_neg h]
      unfold sumSizes
      simp only [List.map_cons, List.sum_cons]

theorem sumSizes_sort (l : List CacheStat) : sumSizes (sortByLastUsed l) = sumSizes l := by
  unfold sortByLastUsed
  induction l with
  | nil => rfl
  | cons x xs ih =>
    rw [List.foldr_cons, sumSizes_insert, ih]
    rfl

theorem sumSizes_sizePass : ∀ (l : List CacheStat) (cur : Nat), cur = sumSizes l →
    sumSizes (sizePassSurvivors cur l) ≤ PRUNE_TARGET_BYTES := by
  intro l
  induction l with
  | nil =>
    intro cur hcur
    unfold sizePassSurvivors
    exact Nat.zero_le _
  | cons st rest ih =>
    intro cur hcur
    unfold sizePassSurvivors
    by_cases h : cur ≤ PRUNE_TARGET_BYTES
    · rw [if_pos h]
      rw [← hcur]
      exact h
    · rw [if_neg h]
      refine ih _ ?_
      unfold sumSizes at hcur ⊢
      simp only [List.map_cons, List.sum_cons] at hcur
      omega

theorem sumSizes_filter (p : CacheStat → Bool) (l : List CacheStat) :
    sumSizes (l.filter p) ≤ sumSizes l := by
  induction l with
  | nil => exact Nat.le_refl _
  | cons x xs ih =>
    rw [List.filter_cons]
    by_cases h : p x = true
    · rw [if_pos h]
      unfold sumSizes at ih ⊢
      simp only [List.map_cons, List.sum_cons]
      omega
    · rw [if_neg h]
      unfold sumSizes at ih ⊢
      simp only [List.map_cons, List.sum_cons]
      omega

/-- C7. When an eviction run starts with the cached total over the
byte budget, the entries that survive the run total at most 80% of the
budget. The tie-breaking half of the original claim is false (see the
counterexample): the size pass orders only by `lastUsed` and JS sorts
are stable, so among same-`lastUsed` entries it evicts in *directory
order*, blind to cached originals. What is true of originals is the
age pass's preference, stated here as the amendment: among entries
with the same `lastUsed`, if the one with a cached original is age
expired then so is the one without (the original-less threshold, 30
days, is the shorter one). -/
theorem claim_C7 (now : Int) (stats : List CacheStat)
    (hover : CACHE_SIZE_LIMIT_BYTES < sumSizes stats) :
    sumSizes (pruneSurvivors now stats) ≤ PRUNE_TARGET_BYTES ∧
    (∀ e₁ e₂, e₁ ∈ stats → e₂ ∈ stats → e₁.lastUsed = e₂.lastUsed →
      e₁.hasOriginal = true → e₂.hasOriginal = false →
      ageExpired now e₁ = true → ageExpired now e₂ = true) := by
  constructor
  · unfold pruneSurvivors
    rw [if_neg (by omega)]
    calc sumSizes ((sizePassSurvivors (sumSizes stats) (sortByLastUsed stats)).filter
          (fun e => ¬ ageExpired now e))
        ≤ sumSizes (sizePassSurvivors (sumSizes stats) (sortByLastUsed stats)) :=
          sumSizes_filter _ _
      _ ≤ PRUNE_TARGET_BYTES := sumSizes_sizePass _ _ (sumSizes_sort stats).symm
  · intro e₁ e₂ h₁ h₂ heq ho₁ ho₂ hexp
    unfold ageExpired at hexp ⊢
    rw [ho₁, if_pos rfl] at hexp
    rw [ho₂, if_neg (by simp), ← heq]
    have h60 := of_decide_eq_true hexp
    refine decide_eq_true ?_
    simp only [ENTRY_MAX_AGE_MS, ENTRY_MAX_AGE_WITH_ORIGINAL_MS] at h60 ⊢
    omega

/-- C7, counterexample to the tie-breaking half of the original claim:
two entries share `lastUsed = 100`; the run (over budget, nothing age
expired) removes the first — which has a cached original — and leaves
the original-less second one on disk. -/
theorem claim_C7_counterexample :
    CACHE_SIZE_LIMIT_BYTES < sumSizes c7Stats ∧
    pruneSurvivors 0 c7Stats = [⟨"entryB", 1000, 100, false⟩] ∧
    c7Stats.map CacheStat.hasOriginal = [true, false] := by
  exact ⟨by decide, by decide, by decide⟩

/-- C7 witness: an over-budget run on two entries ends within 80% of
the budget. -/
theorem claim_C7_witness :
    CACHE_SIZE_LIMIT_BYTES < sumSizes c7wStats ∧
    sumSizes (pruneSurvivors 20 c7wStats) ≤ PRUNE_TARGET_BYTES :=
  ⟨by decide, (claim_C7 20 c7wStats (by decide)).1⟩

/-- C9 witness: two jobs, the first of which rejects; the second is
still invoked, after the first settled. -/
theorem claim_C9_witness :
    (runQueue (fun i => i == 0) 2)[1]? = some (QEvent.settle 0 true) ∧
    (runQueue (fun i => i == 0) 2)[2]? = some (QEvent.invoke 1) ∧
    1 < 2 := by
  have h := claim_C9 (fun i => i == 0) 2 0 1 (by decide) (by decide)
  exact h

end GitGallery
